import Mathlib

/-!
A shallow embedding of src/ttl_cache.hpp (class ttl_cache) and
src/dummy_cache.hpp (class dummy_cache), together with proofs about them.

Modelling conventions:
- Keys and values are specialized to Nat (the C++ class is a template; the only
  operations it uses on keys are equality and hashing, and none on values).
- The C++ timestamp_t (a signed integer type by default, long long int) is Int,
  std::size_t is Nat, and double is ℚ.  The double arithmetic in the source is
  limited to load-factor comparisons whose operands are exact for the values
  the proofs exercise; ℚ gives those comparisons exactly.
- The hash table (TableEntry* table) is a List (Option Entry) of length
  capacity, where Entry flattens a TableEntry together with the key and value
  of the KeyValue node it points to.
- The doubly-linked LRU list of KeyValue nodes is the list of their keys in
  oldest-to-newest order; each live key owns exactly one node, so a key
  identifies a node.
- C++ loops that terminate only because an empty slot exists are written with
  explicit fuel; capacity is always enough fuel in well-formed states.
- Exceptions (std::invalid_argument) become Except values named by the error
  taxonomy of the design document.
- The RNG (std::mt19937_64) used by removeExpired is modelled by a stream of
  pre-drawn numbers passed in as a list, and the unbounded outer sampling loop
  gets explicit fuel.
-/

namespace TTL

/-- One occupied hash-table slot: the fields of the C++ TableEntry (hash,
expireTime) flattened together with the key and value of the KeyValue node the
slot points to. -/
structure Entry where
  key : Nat
  value : Nat
  hash : Nat
  expireTime : Int
  deriving DecidableEq, Repr

/-- Error taxonomy for the std::invalid_argument throws in the source, using
the names from the design document (section 4.7). -/
inductive CacheError where
  | ClockRegression
  | DeadOnArrival
  | UnreachableTarget
  | BadLoadFactor
  | InsufficientCapacity
  deriving DecidableEq, Repr

/-- State of a ttl_cache: the data members of the C++ class.  table models the
TableEntry array, lru models the doubly-linked KeyValue list as its key
sequence from LRU_oldest to LRU_newest, and size models _size. -/
structure Cache where
  hashFunction : Nat → Nat
  maxEntries : Nat
  maxLoadFactor : ℚ
  capacity : Nat
  currentTime : Int
  table : List (Option Entry)
  lru : List Nat
  size : Nat

namespace Cache

/-- static constexpr timestamp_t LRU_EVICTED_FLAG = -2. -/
def LRU_EVICTED_FLAG : Int := -2

/-- table[i] (an out-of-range index reads as empty; never used in range in the
source). -/
def slot (c : Cache) (i : Nat) : Option Entry := c.table.getD i none

/-- loadFactor(): _size / (double) _capacity. -/
def loadFactor (c : Cache) : ℚ := (c.size : ℚ) / (c.capacity : ℚ)

/-- nextIndex(index): (index + 1) % _capacity. -/
def nextIndex (c : Cache) (i : Nat) : Nat := (i + 1) % c.capacity

/-- prevIndex(index): (index + _capacity - 1) % _capacity. -/
def prevIndex (c : Cache) (i : Nat) : Nat := (i + c.capacity - 1) % c.capacity

/-- invalidIndex(): _capacity, an arbitrary value outside the valid range. -/
def invalidIndex (c : Cache) : Nat := c.capacity

/-- hashToIndex(hash): hash % _capacity. -/
def hashToIndex (c : Cache) (h : Nat) : Nat := h % c.capacity

/-- entryDist(index1, index2): forward circular distance. -/
def entryDist (c : Cache) (i1 i2 : Nat) : Nat :=
  if i1 ≤ i2 then i2 - i1 else i2 + c.capacity - i1

/-- isEmpty(index): table[index].kv == nullptr. -/
def isEmpty (c : Cache) (i : Nat) : Bool := (c.slot i).isNone

/-- Write one slot of the table (used by setEmpty / moveEntryFromTo / insert). -/
def setSlot (c : Cache) (i : Nat) (v : Option Entry) : Cache :=
  { c with table := c.table.set i v }

/-- setEmpty(index): table[index].kv = nullptr. -/
def setEmpty (c : Cache) (i : Nat) : Cache := c.setSlot i none

/-- moveEntryFromTo(fromIndex, toIndex): copy kv/hash/expireTime, then empty the
source slot. -/
def moveEntryFromTo (c : Cache) (fromIndex toIndex : Nat) : Cache :=
  (c.setSlot toIndex (c.slot fromIndex)).setEmpty fromIndex

/-- nextEmpty(index): walk forward to the first empty slot.  Fuel-based: the
C++ loop terminates because an empty slot exists; with fuel = capacity the walk
finds it.  Exhausted fuel returns invalidIndex (unreachable in well-formed
states). -/
def nextEmptyAux (c : Cache) : Nat → Nat → Nat
  | _, 0 => c.invalidIndex
  | i, fuel+1 => if c.isEmpty i then i else c.nextEmptyAux (c.nextIndex i) fuel

/-- nextEmpty(index) with fuel = capacity. -/
def nextEmpty (c : Cache) (i : Nat) : Nat := c.nextEmptyAux i c.capacity

/-- findClusterStart(index): walk backward while the previous slot is
non-empty.  Fuel-based like nextEmpty. -/
def findClusterStartAux (c : Cache) : Nat → Nat → Nat
  | i, 0 => i
  | i, fuel+1 =>
      if c.isEmpty (c.prevIndex i) then i
      else c.findClusterStartAux (c.prevIndex i) fuel

/-- findClusterStart(index) with fuel = capacity. -/
def findClusterStart (c : Cache) (i : Nat) : Nat := c.findClusterStartAux i c.capacity

/-- isExpired(index): currentTime >= table[index].expireTime (precondition in
the source: the slot is not empty; an empty slot reads as not expired). -/
def isExpired (c : Cache) (i : Nat) : Bool :=
  match c.slot i with
  | some e => decide (e.expireTime ≤ c.currentTime)
  | none => false

/-- isKeyAtIndex(key, keyHash, index): table[index].hash == keyHash and
table[index].kv->key == key. -/
def isKeyAtIndex (c : Cache) (key keyHash i : Nat) : Bool :=
  match c.slot i with
  | some e => e.hash == keyHash && e.key == key
  | none => false

/-- findKey(key, keyHash): linear probe from the ideal slot, stopping at the
first empty slot; fuel = capacity covers the probe in well-formed states. -/
def findKeyAux (c : Cache) (key keyHash : Nat) : Nat → Nat → Nat
  | _, 0 => c.invalidIndex
  | i, fuel+1 =>
      if c.isEmpty i then c.invalidIndex
      else if c.isKeyAtIndex key keyHash i then i
      else c.findKeyAux key keyHash (c.nextIndex i) fuel

/-- findKey(key, keyHash). -/
def findKey (c : Cache) (key keyHash : Nat) : Nat :=
  c.findKeyAux key keyHash (c.hashToIndex keyHash) c.capacity

/-- clusterIndices(index), forward part: indices from index to the cluster
end. -/
def clusterIndicesFwd (c : Cache) : Nat → Nat → List Nat
  | _, 0 => []
  | i, fuel+1 =>
      if c.isEmpty i then [] else i :: c.clusterIndicesFwd (c.nextIndex i) fuel

/-- clusterIndices(index), backward part: indices strictly before index down to
the cluster start. -/
def clusterIndicesBwd (c : Cache) : Nat → Nat → List Nat
  | _, 0 => []
  | i, fuel+1 =>
      if c.isEmpty i then [] else i :: c.clusterIndicesBwd (c.prevIndex i) fuel

/-- clusterIndices(index): all indices of the cluster of index (first forward
from index, then backward from prevIndex(index)). -/
def clusterIndices (c : Cache) (index : Nat) : List Nat :=
  c.clusterIndicesFwd index c.capacity ++ c.clusterIndicesBwd (c.prevIndex index) c.capacity

/-- LRU_removeFromList(kv): the LRU list without kv's node (a node is
identified by its key). -/
def LRU_removeFromList (c : Cache) (key : Nat) : Cache :=
  { c with lru := c.lru.erase key }

/-- LRU_insertNewest(kv): append the node at the newest end. -/
def LRU_insertNewest (c : Cache) (key : Nat) : Cache :=
  { c with lru := c.lru ++ [key] }

/-- LRU_moveToNewest(kv): no-op when kv is already LRU_newest, otherwise
remove-then-append. -/
def LRU_moveToNewest (c : Cache) (key : Nat) : Cache :=
  if c.lru.getLast? = some key then c
  else (c.LRU_removeFromList key).LRU_insertNewest key

/-- removeWithoutRelocations(index): empty the slot, unlink the node from the
LRU list, decrement _size (and delete the node).  Precondition in the source:
the slot is not empty. -/
def removeWithoutRelocations (c : Cache) (i : Nat) : Cache :=
  match c.slot i with
  | none => c
  | some e =>
      { (c.setEmpty i).LRU_removeFromList e.key with size := c.size - 1 }

/-- fixCluster pass 1: walk the cluster from its start, removing every expired
entry without relocations; returns the new state, firstRemovedIndex (or
invalidIndex), and the cluster-end empty slot where the walk stopped. -/
def fixClusterPass1 (c : Cache) : Nat → Nat → Nat → Cache × Nat × Nat
  | i, firstRemoved, 0 => (c, firstRemoved, i)
  | i, firstRemoved, fuel+1 =>
      if c.isEmpty i then (c, firstRemoved, i)
      else if c.isExpired i then
        fixClusterPass1 (c.removeWithoutRelocations i) (c.nextIndex i)
          (if firstRemoved = c.invalidIndex then i else firstRemoved) fuel
      else
        fixClusterPass1 c (c.nextIndex i) firstRemoved fuel

/-- The relocation scan of fixCluster pass 2: from idealIndex, advance while
the slot is non-empty and the original position is not reached. -/
def relocateScan (c : Cache) : Nat → Nat → Nat → Nat
  | newIdx, _, 0 => newIdx
  | newIdx, stopIdx, fuel+1 =>
      if newIdx = stopIdx then newIdx
      else if c.isEmpty newIdx then newIdx
      else c.relocateScan (c.nextIndex newIdx) stopIdx fuel

/-- fixCluster pass 2: from the slot after firstRemovedIndex up to the cluster
end, move each surviving entry to the earliest free slot reachable forward from
its ideal index. -/
def fixClusterPass2 (c : Cache) : Nat → Nat → Nat → Cache
  | _, _, 0 => c
  | index, clusterEnd, fuel+1 =>
      if index = clusterEnd then c
      else
        let c2 :=
          match c.slot index with
          | none => c
          | some e =>
              let idealIndex := c.hashToIndex e.hash
              if idealIndex = index then c
              else
                let newIdx := c.relocateScan idealIndex index c.capacity
                if newIdx = index then c else c.moveEntryFromTo index newIdx
        fixClusterPass2 c2 (c.nextIndex index) clusterEnd fuel

/-- fixCluster(indexInCluster): no-op on an empty slot; otherwise purge the
cluster (pass 1) and, if anything was removed, compact it (pass 2). -/
def fixCluster (c : Cache) (indexInCluster : Nat) : Cache :=
  if c.isEmpty indexInCluster then c
  else
    let startIndex := c.findClusterStart indexInCluster
    let r := fixClusterPass1 c startIndex c.invalidIndex c.capacity
    if r.2.1 = c.invalidIndex then r.1
    else fixClusterPass2 r.1 (r.1.nextIndex r.2.1) r.2.2 r.1.capacity

/-- LRU_evictOldest(): find the slot of the LRU_oldest node, stamp it with
LRU_EVICTED_FLAG, and reclaim it through fixCluster.  Preconditions in the
source (asserts): the cache is non-empty and the key is found. -/
def LRU_evictOldest (c : Cache) : Cache :=
  match c.lru.head? with
  | none => c
  | some oldestKey =>
      let index := c.findKey oldestKey (c.hashFunction oldestKey)
      match c.slot index with
      | none => c
      | some e =>
          (c.setSlot index (some { e with expireTime := LRU_EVICTED_FLAG })).fixCluster index

/-- get(key, timeStamp): validate the clock, advance it, purge the ideal
cluster, probe for the key, and on a hit move the node to LRU-newest and
return its value. -/
def get (c : Cache) (key : Nat) (timeStamp : Int) :
    Except CacheError (Option Nat × Cache) :=
  if timeStamp < c.currentTime then .error .ClockRegression
  else
    let hash := c.hashFunction key
    let idealIndex := c.hashToIndex hash
    let c2 := ({ c with currentTime := timeStamp }).fixCluster idealIndex
    let actualIndex := c2.findKey key hash
    match c2.slot actualIndex with
    | some e => .ok (some e.value, c2.LRU_moveToNewest e.key)
    | none => .ok (none, c2)

/-- insert(key, value, timeStamp, ttl): validate, advance the clock, purge the
ideal cluster, evict the LRU-oldest entry if the table would exceed the load
bound, then update in place or place a fresh entry at nextEmpty(idealIndex). -/
def insert (c : Cache) (key value : Nat) (timeStamp ttl : Int) :
    Except CacheError Cache :=
  if timeStamp < c.currentTime then .error .ClockRegression
  else if ttl ≤ 0 then .error .DeadOnArrival
  else
    let hash := c.hashFunction key
    let idealIndex := c.hashToIndex hash
    let c2 := ({ c with currentTime := timeStamp }).fixCluster idealIndex
    let c3 := if ((c2.size : ℚ) + 1) > c2.maxLoadFactor * (c2.capacity : ℚ)
      then c2.LRU_evictOldest else c2
    let actualIndex := c3.findKey key hash
    match c3.slot actualIndex with
    | some e =>
        let c4 := c3.LRU_moveToNewest e.key
        .ok (c4.setSlot actualIndex
          (some { e with value := value, expireTime := timeStamp + ttl }))
    | none =>
        let newIndex := c3.nextEmpty idealIndex
        let c4 := c3.setSlot newIndex
          (some { key := key, value := value, hash := hash, expireTime := timeStamp + ttl })
        .ok { c4.LRU_insertNewest key with size := c4.size + 1 }

/-- static constexpr double MIN_LOAD_FACTOR = 0.1. -/
def MIN_LOAD_FACTOR : ℚ := 1/10

/-- static constexpr unsigned int MIN_SAMPLE_SIZE = 20. -/
def MIN_SAMPLE_SIZE : Nat := 20

/-- The MIN_TARGET constant of removeExpired in the source, 0.01. -/
def minTarget : ℚ := 1/100

/-- One sampling round of removeExpired: draw random indices (from the
pre-drawn stream) until the collected sample reaches MIN_SAMPLE_SIZE slots,
skipping empty slots and already-sampled indices, and fixCluster each newly
sampled cluster.  Returns the state, the sample, and the rest of the stream;
an exhausted stream stops the round (the C++ RNG never runs out). -/
def sampleRound (c : Cache) (sample : List Nat) :
    List Nat → Cache × List Nat × List Nat
  | [] => (c, sample, [])
  | r :: rest =>
      if sample.length < MIN_SAMPLE_SIZE then
        let index := r % c.capacity
        if c.isEmpty index then c.sampleRound sample rest
        else if index ∈ sample then c.sampleRound sample rest
        else (c.fixCluster index).sampleRound (sample ++ c.clusterIndices index) rest
      else (c, sample, r :: rest)

/-- The while(true) loop of removeExpired, with explicit fuel for its
unbounded iteration: stop when the load factor or size is too small, otherwise
run a sampling round and stop once the expired ratio reaches the target. -/
def removeExpiredLoop (targetRatio : ℚ) : Cache → List Nat → Nat → Cache
  | c, _, 0 => c
  | c, stream, fuel+1 =>
      if c.loadFactor < MIN_LOAD_FACTOR then c
      else if c.size < MIN_SAMPLE_SIZE then c
      else
        let beforeSize := c.size
        let r := c.sampleRound [] stream
        let expiredCount := beforeSize - r.1.size
        let expiredRatio := (expiredCount : ℚ) / (r.2.1.length : ℚ)
        if expiredRatio ≤ targetRatio then r.1
        else removeExpiredLoop targetRatio r.1 r.2.2 fuel

/-- removeExpired(timeStamp, targetRatio): validate, advance the clock, and run
the sampling loop (stream = the RNG draws, fuel bounds the outer loop). -/
def removeExpired (c : Cache) (timeStamp : Int) (targetRatio : ℚ)
    (stream : List Nat) (fuel : Nat) : Except CacheError Cache :=
  if timeStamp < c.currentTime then .error .ClockRegression
  else if targetRatio < minTarget then .error .UnreachableTarget
  else .ok (removeExpiredLoop targetRatio { c with currentTime := timeStamp } stream fuel)

/-- LRU_order(): the keys from LRU_oldest to LRU_newest (which is exactly the
lru component of the model). -/
def LRU_order (c : Cache) : List Nat := c.lru

/-- The constructor ttl_cache(maxEntries, maxLoadFactor, hashFunction):
validate the parameters and build the empty table of ceil(maxEntries /
maxLoadFactor) slots. -/
def new (maxEntries : Nat) (maxLoadFactor : ℚ) (hashFunction : Nat → Nat) :
    Except CacheError Cache :=
  if maxLoadFactor > 1/2 then .error .BadLoadFactor
  else if maxLoadFactor < 1/100 then .error .BadLoadFactor
  else if maxEntries < 2 then .error .InsufficientCapacity
  else
    let cap := (⌈(maxEntries : ℚ) / maxLoadFactor⌉).toNat
    .ok { hashFunction := hashFunction, maxEntries := maxEntries,
          maxLoadFactor := maxLoadFactor, capacity := cap, currentTime := 0,
          table := List.replicate cap none, lru := [], size := 0 }

/-- All entries currently stored in the table, in slot order. -/
def entries (c : Cache) : List Entry := c.table.filterMap id

/-- The keys currently stored in the table, in slot order. -/
def tableKeys (c : Cache) : List Nat := c.entries.map Entry.key

/-- The entry currently stored for a key, if any. -/
def inTable (c : Cache) (k : Nat) : Option Entry :=
  c.entries.find? (fun e => e.key == k)

end Cache

/-- State of a dummy_cache (src/dummy_cache.hpp): the clock and the
unordered_map from key to (value, expirationTime), modelled as a function. -/
structure DummyCache where
  currentTime : Int
  kvMap : Nat → Option (Nat × Int)

namespace DummyCache

/-- dummy_cache::insert. -/
def insert (d : DummyCache) (key value : Nat) (timeStamp ttl : Int) :
    Except CacheError DummyCache :=
  if timeStamp < d.currentTime then .error .ClockRegression
  else if ttl ≤ 0 then .error .DeadOnArrival
  else .ok { currentTime := timeStamp,
             kvMap := fun k => if k = key then some (value, timeStamp + ttl) else d.kvMap k }

/-- dummy_cache::get: erase-and-miss when the stored expiration time is in the
strict past, otherwise a hit. -/
def get (d : DummyCache) (key : Nat) (timeStamp : Int) :
    Except CacheError (Option Nat × DummyCache) :=
  if timeStamp < d.currentTime then .error .ClockRegression
  else
    let d2 : DummyCache := { d with currentTime := timeStamp }
    match d2.kvMap key with
    | some ve =>
        if ve.2 < d2.currentTime then
          .ok (none, { d2 with kvMap := fun k => if k = key then none else d2.kvMap k })
        else .ok (some ve.1, d2)
    | none => .ok (none, d2)

/-- The dummy_cache constructor. -/
def new : DummyCache := { currentTime := 0, kvMap := fun _ => none }

end DummyCache

/-- One public call of the ttl_cache interface, used to state trace-level
properties (src/tests.cpp drives the caches with such sequences).  The expire
variant carries the pre-drawn random stream and the loop fuel of the
removeExpired model. -/
inductive Op where
  | ins (key value : Nat) (timeStamp ttl : Int)
  | read (key : Nat) (timeStamp : Int)
  | expire (timeStamp : Int) (targetRatio : ℚ) (stream : List Nat) (fuel : Nat)

/-- Run a sequence of operations on a ttl_cache (read results are discarded;
a thrown exception aborts the run). -/
def runOps (c : Cache) : List Op → Except CacheError Cache
  | [] => .ok c
  | Op.ins k v t ttl :: rest => do runOps (← c.insert k v t ttl) rest
  | Op.read k t :: rest => do runOps (← c.get k t).2 rest
  | Op.expire t r stream fuel :: rest => do runOps (← c.removeExpired t r stream fuel) rest

/-- Run a sequence of operations on a dummy_cache.  dummy_cache has no
removeExpired, so the test harness never issues expire calls to it; an expire
op is skipped. -/
def runDummy (d : DummyCache) : List Op → Except CacheError DummyCache
  | [] => .ok d
  | Op.ins k v t ttl :: rest => do runDummy (← d.insert k v t ttl) rest
  | Op.read k t :: rest => do runDummy (← d.get k t).2 rest
  | Op.expire _ _ _ _ :: rest => runDummy d rest

/-- One step of the most-recent-insert bookkeeping of an operation trace. -/
def lastInsertStep (acc : Nat → Option (Nat × Int)) : Op → Nat → Option (Nat × Int)
  | Op.ins k v t ttl => fun k2 => if k2 = k then some (v, t + ttl) else acc k2
  | Op.read _ _ => acc
  | Op.expire _ _ _ _ => acc

/-- The value and expiration time of the most recent insert of each key in an
operation sequence, if any. -/
def lastInsert (ops : List Op) : Nat → Option (Nat × Int) :=
  ops.foldl lastInsertStep (fun _ => none)

/-! Proof infrastructure: arithmetic of circular indices.  cdist N a b is the
number of forward steps from slot a to slot b in a table of N slots (it is the
same formula as entryDist in the source); cix N s u is the slot reached from s
by u forward steps.  Cluster-walk proofs work in coordinates relative to the
cluster start s: the slot cix N s u has coordinate u, and cdist recovers the
coordinate of an absolute index. -/

/-- Forward circular distance from a to b in a table of N slots. -/
def cdist (N a b : Nat) : Nat := if a ≤ b then b - a else b + N - a

/-- The slot u forward steps after s in a table of N slots. -/
def cix (N s u : Nat) : Nat := (s + u) % N

theorem cdist_self (N a : Nat) : cdist N a a = 0 := by simp [cdist]

theorem cdist_lt (N : Nat) {a b : Nat} (ha : a < N) (hb : b < N) : cdist N a b < N := by
  unfold cdist; split <;> omega

theorem cix_lt {N : Nat} (hN : 0 < N) (s u : Nat) : cix N s u < N :=
  Nat.mod_lt _ hN

theorem cix_zero {N s : Nat} (hs : s < N) : cix N s 0 = s := by
  simp [cix, Nat.mod_eq_of_lt hs]

theorem cix_add (N s a b : Nat) : cix N (cix N s a) b = cix N s (a + b) := by
  simp [cix, Nat.add_assoc, Nat.mod_add_mod]

theorem cix_cdist {N s i : Nat} (hs : s < N) (hi : i < N) :
    cix N s (cdist N s i) = i := by
  unfold cix cdist
  split
  · rw [show s + (i - s) = i from by omega, Nat.mod_eq_of_lt hi]
  · rw [show s + (i + N - s) = i + N from by omega, Nat.add_mod_right, Nat.mod_eq_of_lt hi]

theorem cdist_cix {N s u : Nat} (hs : s < N) (hu : u < N) :
    cdist N s (cix N s u) = u := by
  unfold cix cdist
  rcases Nat.lt_or_ge (s + u) N with h | h
  · rw [Nat.mod_eq_of_lt h]; split <;> omega
  · have h2 : (s + u) % N = s + u - N := by
      rw [Nat.mod_eq_sub_mod h, Nat.mod_eq_of_lt (by omega)]
    rw [h2]; split <;> omega

theorem cix_inj {N s u v : Nat} (hs : s < N) (hu : u < N) (hv : v < N)
    (h : cix N s u = cix N s v) : u = v := by
  have h1 := cdist_cix hs hu
  have h2 := cdist_cix hs hv
  rw [h] at h1; omega

theorem cix_mod (N s u : Nat) : cix N s (u % N) = cix N s u := by
  simp [cix, Nat.add_mod_mod]

theorem cix_N {N s : Nat} (hs : s < N) : cix N s N = s := by
  simp [cix, Nat.add_mod_right, Nat.mod_eq_of_lt hs]

theorem cdist_cix_cix {N s d r : Nat} (hs : s < N) (hd : d < N) (hr : r < N) :
    cdist N (cix N s d) (cix N s r) = cdist N d r := by
  have hN : 0 < N := by omega
  have h1 : cix N (cix N s d) (cdist N d r) = cix N s r := by
    rw [cix_add]
    unfold cdist
    split
    · rw [show d + (r - d) = r from by omega]
    · rw [show d + (r + N - d) = r + N from by omega, ← cix_mod]
      simp [Nat.add_mod_right]
      rw [cix_mod]
  rw [← h1]
  exact cdist_cix (cix_lt hN s d) (cdist_lt N hd hr)

theorem cdist_lt_iff {N d u r : Nat} (hu : u < N) (hr : r < N) (hdu : d ≤ u) :
    cdist N d r < cdist N d u ↔ d ≤ r ∧ r < u := by
  unfold cdist; split_ifs <;> omega

theorem cdist_between {N a x y z : Nat} (hy : y < N) (hz : z < N)
    (hxy : x < y) (hyz : y < z) (h : cdist N a x < cdist N a z) :
    cdist N a y < cdist N a z := by
  unfold cdist at *; split_ifs at * <;> omega

theorem cix_succ (N s u : Nat) : (cix N s u + 1) % N = cix N s (u + 1) := by
  simp [cix, Nat.mod_add_mod, Nat.add_assoc]

namespace Cache

/-! Projection lemmas for the state transformers. -/

@[simp] theorem capacity_setSlot (c : Cache) (i : Nat) (v : Option Entry) :
    (c.setSlot i v).capacity = c.capacity := rfl

@[simp] theorem currentTime_setSlot (c : Cache) (i : Nat) (v : Option Entry) :
    (c.setSlot i v).currentTime = c.currentTime := rfl

@[simp] theorem hashFunction_setSlot (c : Cache) (i : Nat) (v : Option Entry) :
    (c.setSlot i v).hashFunction = c.hashFunction := rfl

@[simp] theorem maxLoadFactor_setSlot (c : Cache) (i : Nat) (v : Option Entry) :
    (c.setSlot i v).maxLoadFactor = c.maxLoadFactor := rfl

@[simp] theorem maxEntries_setSlot (c : Cache) (i : Nat) (v : Option Entry) :
    (c.setSlot i v).maxEntries = c.maxEntries := rfl

@[simp] theorem size_setSlot (c : Cache) (i : Nat) (v : Option Entry) :
    (c.setSlot i v).size = c.size := rfl

@[simp] theorem lru_setSlot (c : Cache) (i : Nat) (v : Option Entry) :
    (c.setSlot i v).lru = c.lru := rfl

@[simp] theorem table_length_setSlot (c : Cache) (i : Nat) (v : Option Entry) :
    (c.setSlot i v).table.length = c.table.length := by
  simp [setSlot]

theorem slot_setSlot_self (c : Cache) {i : Nat} (v : Option Entry)
    (h : i < c.table.length) : (c.setSlot i v).slot i = v := by
  simp [setSlot, slot, List.getD_eq_getElem?_getD, List.getElem?_set_self h]

theorem slot_setSlot_ne (c : Cache) {i j : Nat} (v : Option Entry)
    (h : i ≠ j) : (c.setSlot i v).slot j = c.slot j := by
  simp [setSlot, slot, List.getD_eq_getElem?_getD, List.getElem?_set_ne h]

theorem slot_eq_none_of_ge (c : Cache) {i : Nat} (h : c.table.length ≤ i) :
    c.slot i = none := by
  simp [slot, List.getD_eq_getElem?_getD, List.getElem?_eq_none h]

@[simp] theorem capacity_removeFromList (c : Cache) (k : Nat) :
    (c.LRU_removeFromList k).capacity = c.capacity := rfl

@[simp] theorem table_removeFromList (c : Cache) (k : Nat) :
    (c.LRU_removeFromList k).table = c.table := rfl

@[simp] theorem slot_removeFromList (c : Cache) (k i : Nat) :
    (c.LRU_removeFromList k).slot i = c.slot i := rfl

@[simp] theorem capacity_insertNewest (c : Cache) (k : Nat) :
    (c.LRU_insertNewest k).capacity = c.capacity := rfl

@[simp] theorem table_insertNewest (c : Cache) (k : Nat) :
    (c.LRU_insertNewest k).table = c.table := rfl

@[simp] theorem slot_insertNewest (c : Cache) (k i : Nat) :
    (c.LRU_insertNewest k).slot i = c.slot i := rfl

theorem isEmpty_eq_true_iff (c : Cache) (i : Nat) :
    c.isEmpty i = true ↔ c.slot i = none := by
  simp [isEmpty, Option.isNone_iff_eq_none]

theorem isEmpty_eq_false_iff (c : Cache) (i : Nat) :
    c.isEmpty i = false ↔ c.slot i ≠ none := by
  rw [← Bool.not_eq_true, not_iff_not]; exact c.isEmpty_eq_true_iff i

/-! The well-formedness invariant: everything that holds of a freshly
constructed cache and is preserved by every public call (and by fixCluster).
hOA is the open-addressing invariant; hNodup says distinct occupied slots hold
distinct keys; hLru ties the LRU list to the table contents; hSize is the size
agreement; hLoad/hMLF/hCap2 record the load-bound facts that the constructor
establishes; hTime is clock non-negativity (which makes the LRU_EVICTED_FLAG
sentinel always count as expired). -/
structure WF (c : Cache) : Prop where
  hLen : c.table.length = c.capacity
  hCapPos : 0 < c.capacity
  hMLF : c.maxLoadFactor ≤ 1/2
  hCap2 : (2 : ℚ) ≤ c.maxLoadFactor * (c.capacity : ℚ)
  hLoad : (c.size : ℚ) ≤ c.maxLoadFactor * (c.capacity : ℚ)
  hSize : c.size = c.entries.length
  hNodup : ∀ i j, i < c.capacity → j < c.capacity → i ≠ j →
    ∀ e1 e2, c.slot i = some e1 → c.slot j = some e2 → e1.key ≠ e2.key
  hLru : c.lru.Perm c.tableKeys
  hHash : ∀ i e, c.slot i = some e → e.hash = c.hashFunction e.key
  hOA : ∀ i e, i < c.capacity → c.slot i = some e →
    ∀ j, j < c.capacity →
      cdist c.capacity (c.hashToIndex e.hash) j < cdist c.capacity (c.hashToIndex e.hash) i →
      c.slot j ≠ none
  hTime : 0 ≤ c.currentTime

theorem WF.size_lt_capacity {c : Cache} (h : WF c) : c.size < c.capacity := by
  have h1 := h.hLoad
  have h2 := h.hMLF
  have h3 : (0 : ℚ) < (c.capacity : ℚ) := by exact_mod_cast h.hCapPos
  have h4 : (c.size : ℚ) < (c.capacity : ℚ) := by nlinarith
  exact_mod_cast h4

theorem slot_eq_getElem (c : Cache) {i : Nat} (hi : i < c.table.length) :
    c.slot i = c.table[i] := by
  simp [slot, List.getD_eq_getElem?_getD, List.getElem?_eq_getElem hi]

theorem length_filterMap_id_of_all_isSome {α : Type} (l : List (Option α))
    (h : ∀ o ∈ l, o.isSome = true) : (l.filterMap id).length = l.length := by
  induction l with
  | nil => rfl
  | cons a l ih =>
    cases a with
    | none => exact absurd (h none (by simp)) (by simp)
    | some x => simpa using ih (fun o ho => h o (by simp [ho]))

theorem WF.exists_empty {c : Cache} (h : WF c) : ∃ j, j < c.capacity ∧ c.slot j = none := by
  by_contra hc
  push_neg at hc
  have hall : ∀ o ∈ c.table, o.isSome = true := by
    intro o ho
    obtain ⟨i, hi, hoi⟩ := List.mem_iff_getElem.1 ho
    have h1 : c.slot i ≠ none := hc i (h.hLen ▸ hi)
    rw [c.slot_eq_getElem hi, hoi] at h1
    exact Option.isSome_iff_ne_none.2 h1
  have hlen : c.entries.length = c.table.length :=
    length_filterMap_id_of_all_isSome _ hall
  have h2 := h.size_lt_capacity
  rw [h.hSize, hlen, h.hLen] at h2
  omega

theorem nextIndex_cix (c : Cache) (s u : Nat) :
    c.nextIndex (cix c.capacity s u) = cix c.capacity s (u + 1) := by
  rw [nextIndex, cix_succ]

theorem prevIndex_cix_succ (c : Cache) (s u : Nat) (hN : 0 < c.capacity) :
    c.prevIndex (cix c.capacity s (u + 1)) = cix c.capacity s u := by
  rw [prevIndex, show cix c.capacity s (u+1) + c.capacity - 1
      = cix c.capacity s (u+1) + (c.capacity - 1) from by omega]
  unfold cix
  rw [Nat.mod_add_mod, show s + (u+1) + (c.capacity - 1) = s + u + c.capacity from by omega,
    Nat.add_mod_right]

theorem prevIndex_cix_zero (c : Cache) (s : Nat) (hN : 0 < c.capacity) (hs : s < c.capacity) :
    c.prevIndex (cix c.capacity s 0) = cix c.capacity s (c.capacity - 1) := by
  rw [cix_zero hs, prevIndex]
  unfold cix
  rw [show s + c.capacity - 1 = s + (c.capacity - 1) from by omega]

/-- A cluster of the table: s is the start slot (its predecessor is empty),
slots s, s+1, ..., s+L-1 (circularly) are occupied, and the slot after the
last one is empty. -/
structure ClusterAt (c : Cache) (s L : Nat) : Prop where
  hs : s < c.capacity
  hL1 : 1 ≤ L
  hLN : L < c.capacity
  hocc : ∀ u, u < L → c.slot (cix c.capacity s u) ≠ none
  hend : c.slot (cix c.capacity s L) = none
  hprev : c.slot (cix c.capacity s (c.capacity - 1)) = none

theorem lt_capacity_of_slot_ne_none {c : Cache} (hwf : WF c) {i : Nat}
    (h : c.slot i ≠ none) : i < c.capacity := by
  by_contra hc
  refine h (c.slot_eq_none_of_ge ?_)
  rw [hwf.hLen]
  omega

theorem cix_add_N (N i w : Nat) : cix N i (N + w) = cix N i w := by
  unfold cix
  rw [show i + (N + w) = i + w + N from by omega, Nat.add_mod_right]

/-- Every occupied slot lies in a cluster (constructed by walking backward to
the first slot with an empty predecessor and forward to the first empty
slot). -/
theorem cluster_exists {c : Cache} (hwf : WF c) {i : Nat} (hi : c.slot i ≠ none) :
    ∃ s L, ClusterAt c s L ∧ cdist c.capacity s i < L := by
  set N := c.capacity with hNdef
  have hN : 0 < N := hwf.hCapPos
  have hiN : i < N := lt_capacity_of_slot_ne_none hwf hi
  obtain ⟨j, hjN, hjnone⟩ := hwf.exists_empty
  have hji : j ≠ i := fun h => hi (h ▸ hjnone)
  have hcdpos : 1 ≤ cdist N i j := by
    rcases Nat.eq_zero_or_pos (cdist N i j) with h0 | h0
    · exact absurd (by rw [← cix_cdist hiN hjN, h0, cix_zero hiN]) hji
    · omega
  have hcdlt := cdist_lt N hiN hjN
  -- the backward search: least back-distance m ≥ 1 whose slot is empty
  have hPb : ∃ m, 1 ≤ m ∧ c.slot (cix N i (N - m)) = none := by
    refine ⟨N - cdist N i j, by omega, ?_⟩
    rw [show N - (N - cdist N i j) = cdist N i j from by omega, cix_cdist hiN hjN]
    exact hjnone
  -- the forward search: least forward distance f ≥ 1 whose slot is empty
  have hQf : ∃ f, 1 ≤ f ∧ c.slot (cix N i f) = none := by
    refine ⟨cdist N i j, by omega, ?_⟩
    rw [cix_cdist hiN hjN]; exact hjnone
  obtain ⟨hm01, hm0none⟩ := Nat.find_spec hPb
  obtain ⟨hL'1, hL'none⟩ := Nat.find_spec hQf
  set m0 := Nat.find hPb with hm0def
  set L' := Nat.find hQf with hL'def
  have hm0N : m0 < N := by
    have h1 : m0 ≤ N - cdist N i j := Nat.find_min' hPb
      ⟨by omega, by
        rw [show N - (N - cdist N i j) = cdist N i j from by omega, cix_cdist hiN hjN]
        exact hjnone⟩
    omega
  have hL'N : L' < N := by
    have h1 : L' ≤ cdist N i j := Nat.find_min' hQf
      ⟨by omega, by rw [cix_cdist hiN hjN]; exact hjnone⟩
    omega
  set s := cix N i (N - (m0 - 1)) with hsdef
  have hsN : s < N := cix_lt hN _ _
  have hsi : cix N s (m0 - 1) = i := by
    rw [hsdef, cix_add, show N - (m0 - 1) + (m0 - 1) = N from by omega, cix_N hiN]
  set L := (m0 - 1) + L' with hLdef
  have hocc : ∀ v, v < L → c.slot (cix N s v) ≠ none := by
    intro v hv
    rcases Nat.lt_trichotomy v (m0 - 1) with h | h | h
    · -- backward part: back-distance m0 - 1 - v from i, which is in [1, m0)
      have hb : cix N s v = cix N i (N - (m0 - 1 - v)) := by
        rw [hsdef, cix_add, show N - (m0 - 1) + v = N - (m0 - 1 - v) from by omega]
      rw [hb]
      intro hnone
      have h2 := Nat.find_min hPb (m := m0 - 1 - v) (by omega)
      rw [not_and_or] at h2
      rcases h2 with h2 | h2
      · omega
      · exact h2 hnone
    · rw [h, hsi]; exact hi
    · -- forward part: forward distance v - (m0 - 1) from i, which is in [1, L')
      have hf : cix N s v = cix N i (v - (m0 - 1)) := by
        rw [hsdef, cix_add, show N - (m0 - 1) + v = N + (v - (m0 - 1)) from by omega, cix_add_N]
      rw [hf]
      intro hnone
      have h2 := Nat.find_min hQf (m := v - (m0 - 1)) (by omega)
      rw [not_and_or] at h2
      rcases h2 with h2 | h2
      · omega
      · exact h2 hnone
  have hend : c.slot (cix N s L) = none := by
    have : cix N s L = cix N i L' := by
      rw [hsdef, cix_add, show N - (m0 - 1) + ((m0 - 1) + L') = N + L' from by omega, cix_add_N]
    rw [this]; exact hL'none
  have hprev : c.slot (cix N s (N - 1)) = none := by
    have : cix N s (N - 1) = cix N i (N - m0) := by
      rw [hsdef, cix_add, show N - (m0 - 1) + (N - 1) = N + (N - m0) from by omega, cix_add_N]
    rw [this]; exact hm0none
  have hLN : L < N := by
    have hr : c.slot (cix N s (cdist N s j)) = none := by rw [cix_cdist hsN hjN]; exact hjnone
    have h2 : ¬ (cdist N s j < L) := fun h => hocc _ h hr
    have := cdist_lt N hsN hjN
    omega
  refine ⟨s, L, ⟨hsN, by omega, hLN, hocc, hend, hprev⟩, ?_⟩
  rw [← hsi, cdist_cix hsN (by omega)]
  omega

theorem findClusterStartAux_eq {c : Cache} {s L : Nat} (hcl : ClusterAt c s L) :
    ∀ u fuel, u < L → u < fuel → c.findClusterStartAux (cix c.capacity s u) fuel = s := by
  have hN : 0 < c.capacity := by have := hcl.hs; omega
  intro u
  induction u with
  | zero =>
    intro fuel _ hfuel
    obtain ⟨fuel, rfl⟩ : ∃ f, fuel = f + 1 := ⟨fuel - 1, by omega⟩
    rw [findClusterStartAux, prevIndex_cix_zero c s hN hcl.hs]
    have : c.isEmpty (cix c.capacity s (c.capacity - 1)) = true :=
      (c.isEmpty_eq_true_iff _).2 hcl.hprev
    simp [this, cix_zero hcl.hs]
  | succ u ih =>
    intro fuel hu hfuel
    obtain ⟨fuel, rfl⟩ : ∃ f, fuel = f + 1 := ⟨fuel - 1, by omega⟩
    rw [findClusterStartAux, prevIndex_cix_succ c s u hN]
    have : c.isEmpty (cix c.capacity s u) = false :=
      (c.isEmpty_eq_false_iff _).2 (hcl.hocc u (by omega))
    simp only [this, Bool.false_eq_true, if_false]
    exact ih fuel (by omega) (by omega)

theorem findClusterStart_eq {c : Cache} {s L u : Nat} (hcl : ClusterAt c s L)
    (hu : u < L) : c.findClusterStart (cix c.capacity s u) = s :=
  findClusterStartAux_eq hcl u c.capacity hu (by have := hcl.hLN; omega)

end Cache

/-! List lemmas about filterMap id and set, used to track the table's entry
multiset through removals, insertions and relocations. -/

theorem list_find?_congr {α : Type} {f g : α → Bool} :
    ∀ (l : List α), (∀ y ∈ l, f y = g y) → l.find? f = l.find? g
  | [], _ => rfl
  | a :: l, h => by
    rw [List.find?_cons, List.find?_cons, h a (by simp)]
    split
    · rfl
    · exact list_find?_congr l (fun y hy => h y (by simp [hy]))

theorem filterMap_set_none_perm {α : Type} :
    ∀ (t : List (Option α)) (i : Nat) (e : α),
      t[i]? = some (some e) →
      (t.filterMap id).Perm (e :: (t.set i none).filterMap id)
  | [], i, e, h => by simp at h
  | a :: t, 0, e, h => by
    simp at h
    simp [h, List.filterMap_cons]
  | a :: t, i+1, e, h => by
    simp only [List.getElem?_cons_succ] at h
    have ih := filterMap_set_none_perm t i e h
    cases a with
    | none => simpa [List.filterMap_cons] using ih
    | some x =>
      simp only [List.set_cons_succ, List.filterMap_cons, id]
      exact (ih.cons x).trans (List.Perm.swap e x _)

theorem filterMap_set_some_perm {α : Type} :
    ∀ (t : List (Option α)) (i : Nat) (e : α),
      t[i]? = some none →
      ((t.set i (some e)).filterMap id).Perm (e :: t.filterMap id)
  | [], i, e, h => by simp at h
  | a :: t, 0, e, h => by
    simp at h
    simp [h, List.filterMap_cons]
  | a :: t, i+1, e, h => by
    simp only [List.getElem?_cons_succ] at h
    have ih := filterMap_set_some_perm t i e h
    cases a with
    | none => simpa [List.filterMap_cons] using ih
    | some x =>
      simp only [List.set_cons_succ, List.filterMap_cons, id]
      exact (ih.cons x).trans (List.Perm.swap e x _)

namespace Cache

/-- The entry stored at a slot, as needed for getElem?-based reasoning. -/
theorem getElem?_of_slot {c : Cache} {i : Nat} (hi : i < c.table.length) :
    c.table[i]? = some (c.slot i) := by
  rw [c.slot_eq_getElem hi, List.getElem?_eq_getElem hi]

/-- What removeWithoutRelocations does, stated field by field. -/
theorem removeWithoutRelocations_spec {c : Cache} {i : Nat} {e : Entry}
    (hi : c.slot i = some e) (hiN : i < c.table.length) :
    (c.removeWithoutRelocations i).slot i = none ∧
    (∀ j, j ≠ i → (c.removeWithoutRelocations i).slot j = c.slot j) ∧
    (c.removeWithoutRelocations i).lru = c.lru.erase e.key ∧
    (c.removeWithoutRelocations i).size = c.size - 1 ∧
    c.entries.Perm (e :: (c.removeWithoutRelocations i).entries) ∧
    (c.removeWithoutRelocations i).capacity = c.capacity ∧
    (c.removeWithoutRelocations i).currentTime = c.currentTime ∧
    (c.removeWithoutRelocations i).hashFunction = c.hashFunction ∧
    (c.removeWithoutRelocations i).maxLoadFactor = c.maxLoadFactor ∧
    (c.removeWithoutRelocations i).maxEntries = c.maxEntries ∧
    (c.removeWithoutRelocations i).table.length = c.table.length := by
  unfold removeWithoutRelocations
  rw [hi]
  refine ⟨?_, ?_, rfl, rfl, ?_, rfl, rfl, rfl, rfl, rfl, by simp [setEmpty]⟩
  · show (c.setEmpty i).slot i = none
    exact c.slot_setSlot_self none hiN
  · intro j hj
    show (c.setEmpty i).slot j = c.slot j
    exact c.slot_setSlot_ne none (fun h => hj h.symm)
  · have h1 := filterMap_set_none_perm c.table i e (by rw [getElem?_of_slot hiN, hi])
    exact h1

theorem mem_entries_of_slot {c : Cache} {i : Nat} {e : Entry}
    (hi : c.slot i = some e) : e ∈ c.entries := by
  have hiN : i < c.table.length := by
    by_contra hc
    rw [c.slot_eq_none_of_ge (by omega)] at hi
    exact Option.noConfusion hi
  rw [entries, List.mem_filterMap]
  refine ⟨some e, ?_, rfl⟩
  have := getElem?_of_slot hiN
  rw [hi] at this
  exact List.getElem?_mem this

/-- The expired entries among coordinates [a, L) of the cluster starting at s,
in walk order: the entries that pass 1 of fixCluster removes. -/
def expiredEntriesIn (c : Cache) (s a L : Nat) : List Entry :=
  (List.range' a (L - a)).filterMap (fun v =>
    match c.slot (cix c.capacity s v) with
    | some e => if e.expireTime ≤ c.currentTime then some e else none
    | none => none)

/-- The keys of the expired entries among coordinates [a, L), in walk order. -/
def expiredKeysIn (c : Cache) (s a L : Nat) : List Nat :=
  (c.expiredEntriesIn s a L).map Entry.key

/-- The first expired coordinate in [a, L), if any. -/
def firstExpiredIn (c : Cache) (s a L : Nat) : Option Nat :=
  (List.range' a (L - a)).find? (fun v => c.isExpired (cix c.capacity s v))

theorem expiredEntriesIn_nil {c : Cache} {s a L : Nat} (h : L ≤ a) :
    c.expiredEntriesIn s a L = [] := by
  unfold expiredEntriesIn
  rw [show L - a = 0 from by omega]
  rfl

theorem firstExpiredIn_nil {c : Cache} {s a L : Nat} (h : L ≤ a) :
    c.firstExpiredIn s a L = none := by
  unfold firstExpiredIn
  rw [show L - a = 0 from by omega]
  rfl

theorem expiredEntriesIn_cons {c : Cache} {s a L : Nat} (h : a < L) :
    c.expiredEntriesIn s a L =
      (match c.slot (cix c.capacity s a) with
       | some e => if e.expireTime ≤ c.currentTime then [e] else []
       | none => []) ++ c.expiredEntriesIn s (a + 1) L := by
  unfold expiredEntriesIn
  rw [show L - a = (L - (a + 1)) + 1 from by omega, List.range'_succ, List.filterMap_cons]
  rcases hs : c.slot (cix c.capacity s a) with _ | e
  · simp
  · by_cases he : e.expireTime ≤ c.currentTime <;> simp [he]

theorem firstExpiredIn_cons {c : Cache} {s a L : Nat} (h : a < L) :
    c.firstExpiredIn s a L =
      if c.isExpired (cix c.capacity s a) = true then some a
      else c.firstExpiredIn s (a + 1) L := by
  unfold firstExpiredIn
  rw [show L - a = (L - (a + 1)) + 1 from by omega, List.range'_succ, List.find?_cons]
  by_cases he : c.isExpired (cix c.capacity s a) = true <;> simp [he]

theorem expiredEntriesIn_congr {c c2 : Cache} {s a L : Nat}
    (hcap : c2.capacity = c.capacity) (ht : c2.currentTime = c.currentTime)
    (hslot : ∀ v, a ≤ v → v < L → c2.slot (cix c.capacity s v) = c.slot (cix c.capacity s v)) :
    c2.expiredEntriesIn s a L = c.expiredEntriesIn s a L := by
  unfold expiredEntriesIn
  refine List.filterMap_congr ?_
  intro v hv
  rw [List.mem_range'_1] at hv
  rw [hcap, ht, hslot v hv.1 (by omega)]

theorem firstExpiredIn_congr {c c2 : Cache} {s a L : Nat}
    (hcap : c2.capacity = c.capacity) (ht : c2.currentTime = c.currentTime)
    (hslot : ∀ v, a ≤ v → v < L → c2.slot (cix c.capacity s v) = c.slot (cix c.capacity s v)) :
    c2.firstExpiredIn s a L = c.firstExpiredIn s a L := by
  unfold firstExpiredIn
  refine list_find?_congr _ ?_
  intro v hv
  rw [List.mem_range'_1] at hv
  unfold isExpired
  rw [hcap, ht, hslot v hv.1 (by omega)]

/-- Everything pass 1 of fixCluster guarantees about its result r, walking the
cluster s, s+1, ... from coordinate a: r.1 is the cache with the expired slots
of [a, L) emptied, r.2.1 the firstRemovedIndex accumulator, and r.2.2 the
cluster-end slot. -/
structure Pass1Out (N s a L : Nat) (c1 : Cache) (frIn : Nat)
    (r : Cache × Nat × Nat) : Prop where
  hend : r.2.2 = cix N s L
  hfr : r.2.1 = if frIn ≠ N then frIn else
      (match c1.firstExpiredIn s a L with
       | some v => cix N s v
       | none => frIn)
  hslot : ∀ v, v < N → r.1.slot (cix N s v) =
      if a ≤ v ∧ v < L ∧ c1.isExpired (cix N s v) = true then none
      else c1.slot (cix N s v)
  hsize : r.1.size + (c1.expiredEntriesIn s a L).length = c1.size
  hszOut : r.1.size = r.1.entries.length
  hlru : r.1.lru = (c1.expiredKeysIn s a L).foldl List.erase c1.lru
  hperm : c1.entries.Perm (c1.expiredEntriesIn s a L ++ r.1.entries)
  hcap : r.1.capacity = c1.capacity
  htime : r.1.currentTime = c1.currentTime
  hhf : r.1.hashFunction = c1.hashFunction
  hmlf : r.1.maxLoadFactor = c1.maxLoadFactor
  hme : r.1.maxEntries = c1.maxEntries
  hlen : r.1.table.length = c1.table.length
  hid : c1.expiredEntriesIn s a L = [] → r.1 = c1

theorem lt_length_of_slot_ne_none {c : Cache} {i : Nat} (h : c.slot i ≠ none) :
    i < c.table.length := by
  by_contra hc
  exact h (c.slot_eq_none_of_ge (by omega))

theorem isExpired_congr {c c2 : Cache} {i : Nat} (hslot : c2.slot i = c.slot i)
    (ht : c2.currentTime = c.currentTime) : c2.isExpired i = c.isExpired i := by
  unfold isExpired
  rw [hslot, ht]

theorem fixClusterPass1_go {N s L : Nat} (hN : 0 < N) (hs : s < N) (hLN : L < N) :
    ∀ (fuel a : Nat) (c1 : Cache) (frIn : Nat),
      c1.capacity = N →
      (∀ v, a ≤ v → v < L → c1.slot (cix N s v) ≠ none) →
      c1.slot (cix N s L) = none →
      c1.size = c1.entries.length →
      a ≤ L → L - a < fuel →
      Pass1Out N s a L c1 frIn (fixClusterPass1 c1 (cix N s a) frIn fuel) := by
  intro fuel
  induction fuel with
  | zero => intro a c1 frIn _ _ _ _ _ h; omega
  | succ fuel ih =>
    intro a c1 frIn hcap hocc hend hsz haL hfuel
    rcases Nat.eq_or_lt_of_le haL with rfl | haL2
    · -- a = L: the walk stops at the cluster-end empty slot
      have hmt : c1.isEmpty (cix N s a) = true := (c1.isEmpty_eq_true_iff _).2 hend
      simp only [fixClusterPass1, hmt, if_true]
      refine ⟨rfl, ?_, ?_, ?_, hsz, ?_, ?_, rfl, rfl, rfl, rfl, rfl, rfl, fun _ => rfl⟩
      · rw [firstExpiredIn_nil (le_refl a)]
        by_cases h : frIn ≠ N <;> simp [h]
      · intro v _
        rw [if_neg (by rintro ⟨h1, h2, _⟩; omega)]
      · rw [expiredEntriesIn_nil (le_refl a)]
        rfl
      · unfold expiredKeysIn
        rw [expiredEntriesIn_nil (le_refl a)]
        rfl
      · rw [expiredEntriesIn_nil (le_refl a)]
        exact List.Perm.refl _
    · -- a < L: the walk processes the occupied slot at coordinate a
      have hocc_a : c1.slot (cix N s a) ≠ none := hocc a (le_refl a) haL2
      have haN : a < N := by omega
      have hmt : c1.isEmpty (cix N s a) = false := (c1.isEmpty_eq_false_iff _).2 hocc_a
      have hnext : c1.nextIndex (cix N s a) = cix N s (a + 1) := by
        rw [nextIndex, hcap, cix_succ]
      rcases hslot_a : c1.slot (cix N s a) with _ | e
      · exact absurd hslot_a hocc_a
      have hcixne : ∀ v, v < N → v ≠ a → cix N s v ≠ cix N s a :=
        fun v hv hva h => hva (cix_inj hs hv haN h)
      simp only [fixClusterPass1, hmt, Bool.false_eq_true, if_false]
      by_cases hx : c1.isExpired (cix N s a) = true
      · -- the slot is expired: it is removed and the walk continues
        have he : e.expireTime ≤ c1.currentTime := by
          unfold isExpired at hx
          rw [hslot_a] at hx
          exact of_decide_eq_true hx
        rw [if_pos hx, hnext]
        have hiN : cix N s a < c1.table.length := lt_length_of_slot_ne_none hocc_a
        obtain ⟨r1, r2, r3, r4, r5, r6, r7, r8, r9, r10, r11⟩ :=
          removeWithoutRelocations_spec hslot_a hiN
        set c2 := c1.removeWithoutRelocations (cix N s a) with hc2
        have hslot2 : ∀ v, v < N → v ≠ a → c2.slot (cix N s v) = c1.slot (cix N s v) :=
          fun v hv hva => r2 _ (hcixne v hv hva)
        have hcap2 : c2.capacity = N := by rw [r6, hcap]
        have hEcongr : c2.expiredEntriesIn s (a + 1) L = c1.expiredEntriesIn s (a + 1) L := by
          refine expiredEntriesIn_congr r6 r7 ?_
          intro v hv1 hv2
          rw [hcap]
          exact hslot2 v (by omega) (by omega)
        have hFcongr : c2.firstExpiredIn s (a + 1) L = c1.firstExpiredIn s (a + 1) L := by
          refine firstExpiredIn_congr r6 r7 ?_
          intro v hv1 hv2
          rw [hcap]
          exact hslot2 v (by omega) (by omega)
        have hEcons : c1.expiredEntriesIn s a L = e :: c1.expiredEntriesIn s (a + 1) L := by
          rw [expiredEntriesIn_cons haL2, hcap, hslot_a]
          simp [he]
        have hFcons : c1.firstExpiredIn s a L = some a := by
          rw [firstExpiredIn_cons haL2, hcap, if_pos hx]
        -- the recursive call
        have hocc2 : ∀ v, a + 1 ≤ v → v < L → c2.slot (cix N s v) ≠ none := by
          intro v hv1 hv2
          rw [hslot2 v (by omega) (by omega)]
          exact hocc v (by omega) hv2
        have hend2 : c2.slot (cix N s L) = none := by
          rw [hslot2 L (by omega) (by omega)]
          exact hend
        have hlp := r5.length_eq
        simp only [List.length_cons] at hlp
        have hsz2 : c2.size = c2.entries.length := by
          rw [r4]
          omega
        have hout := ih (a + 1) c2 (if frIn = c1.invalidIndex then cix N s a else frIn)
          hcap2 hocc2 hend2 hsz2 (by omega) (by omega)
        obtain ⟨o1, o2, o3, o4, o5, o6, o7, o8, o9, o10, o11, o12, o13, o14⟩ := hout
        set r := fixClusterPass1 c2 (cix N s (a + 1))
          (if frIn = c1.invalidIndex then cix N s a else frIn) fuel with hr
        have hinv : c1.invalidIndex = N := by rw [invalidIndex, hcap]
        refine ⟨o1, ?_, ?_, ?_, o5, ?_, ?_, o8.trans r6, o9.trans r7, o10.trans r8,
          o11.trans r9, o12.trans r10, o13.trans r11, ?_⟩
        · rw [o2, hFcongr, hFcons, hinv]
          by_cases hf : frIn = N
          · have hca : cix N s a ≠ N := by have := cix_lt hN s a; omega
            simp [hf, hca]
          · simp [hf]
        · intro v hv
          by_cases hva : v = a
          · subst hva
            rw [o3 v hv, if_neg (by rintro ⟨h1, _, _⟩; omega), r1,
              if_pos ⟨le_refl v, haL2, hx⟩]
          · have hsv := hslot2 v hv hva
            rw [o3 v hv, hsv]
            have hexp : c2.isExpired (cix N s v) = c1.isExpired (cix N s v) :=
              isExpired_congr hsv r7
            rw [hexp]
            by_cases hcond : a + 1 ≤ v ∧ v < L ∧ c1.isExpired (cix N s v) = true
            · rw [if_pos hcond, if_pos ⟨by omega, hcond.2⟩]
            · rw [if_neg hcond, if_neg (by
                rintro ⟨h1, h2, h3⟩
                exact hcond ⟨by omega, h2, h3⟩)]
        · rw [hEcons]
          rw [hEcongr] at o4
          simp only [List.length_cons]
          omega
        · unfold expiredKeysIn at o6 ⊢
          rw [hEcongr, r3] at o6
          rw [hEcons]
          simp only [List.map_cons, List.foldl_cons]
          exact o6
        · rw [hEcons, List.cons_append]
          rw [hEcongr] at o7
          exact r5.trans (o7.cons e)
        · intro hnil
          rw [hEcons] at hnil
          exact absurd hnil (List.cons_ne_nil _ _)
      · -- the slot is not expired: the walk continues unchanged
        have hxf : c1.isExpired (cix N s a) = false := Bool.eq_false_iff.mpr hx
        rw [hxf]
        simp only [Bool.false_eq_true, if_false]
        rw [hnext]
        have hEcons : c1.expiredEntriesIn s a L = c1.expiredEntriesIn s (a + 1) L := by
          rw [expiredEntriesIn_cons haL2, hcap, hslot_a]
          have he : ¬ e.expireTime ≤ c1.currentTime := by
            unfold isExpired at hxf
            rw [hslot_a] at hxf
            exact of_decide_eq_false hxf
          simp [he]
        have hFcons : c1.firstExpiredIn s a L = c1.firstExpiredIn s (a + 1) L := by
          rw [firstExpiredIn_cons haL2, hcap, hxf]
          simp
        have hout := ih (a + 1) c1 frIn hcap
          (fun v hv1 hv2 => hocc v (by omega) hv2) hend hsz (by omega) (by omega)
        obtain ⟨o1, o2, o3, o4, o5, o6, o7, o8, o9, o10, o11, o12, o13, o14⟩ := hout
        refine ⟨o1, ?_, ?_, ?_, o5, ?_, ?_, o8, o9, o10, o11, o12, o13, ?_⟩
        · rw [o2, hFcons]
        · intro v hv
          rw [o3 v hv]
          by_cases hva : v = a
          · subst hva
            rw [if_neg (by rintro ⟨h1, _, _⟩; omega), if_neg (by
              rintro ⟨_, _, h3⟩
              rw [hxf] at h3
              exact Bool.false_ne_true h3)]
          · by_cases hcond : a + 1 ≤ v ∧ v < L ∧ c1.isExpired (cix N s v) = true
            · rw [if_pos hcond, if_pos ⟨by omega, hcond.2⟩]
            · rw [if_neg hcond, if_neg (by
                rintro ⟨h1, h2, h3⟩
                exact hcond ⟨by omega, h2, h3⟩)]
        · rw [hEcons]; exact o4
        · unfold expiredKeysIn at o6 ⊢
          rw [hEcons]
          exact o6
        · rw [hEcons]; exact o7
        · intro hnil
          rw [hEcons] at hnil
          exact o14 hnil

/-- What the relocation scan of pass 2 returns: the first coordinate q in
[d, p] (for a scan from ideal coordinate d towards current coordinate p) that
is either p itself or an empty slot; every slot strictly before it is
occupied. -/
theorem relocateScan_go {N s : Nat} (hN : 0 < N) (hs : s < N) (cur : Cache)
    (hcap : cur.capacity = N) :
    ∀ (fuel d p : Nat), d ≤ p → p < N → p - d < fuel →
      ∃ q, d ≤ q ∧ q ≤ p ∧
        cur.relocateScan (cix N s d) (cix N s p) fuel = cix N s q ∧
        (∀ r, d ≤ r → r < q → cur.slot (cix N s r) ≠ none) ∧
        (q = p ∨ cur.slot (cix N s q) = none) := by
  intro fuel
  induction fuel with
  | zero => intro d p _ _ h; omega
  | succ fuel ih =>
    intro d p hdp hpN hfuel
    by_cases hdeq : d = p
    · subst hdeq
      exact ⟨d, le_refl d, le_refl d, by rw [relocateScan, if_pos rfl],
        fun r h1 h2 => by omega, Or.inl rfl⟩
    · have hdN : d < N := by omega
      have hne : cix N s d ≠ cix N s p := fun h => hdeq (cix_inj hs hdN hpN h)
      rw [relocateScan, if_neg hne]
      by_cases hemp : cur.isEmpty (cix N s d) = true
      · rw [if_pos hemp]
        exact ⟨d, le_refl d, by omega, rfl, fun r h1 h2 => by omega,
          Or.inr ((cur.isEmpty_eq_true_iff _).1 hemp)⟩
      · rw [if_neg hemp]
        have hocc_d : cur.slot (cix N s d) ≠ none :=
          (cur.isEmpty_eq_false_iff _).1 (Bool.eq_false_iff.mpr hemp)
        have hstep : cur.nextIndex (cix N s d) = cix N s (d + 1) := by
          rw [nextIndex, hcap, cix_succ]
        rw [hstep]
        obtain ⟨q, hq1, hq2, hq3, hq4, hq5⟩ := ih (d + 1) p (by omega) hpN (by omega)
        refine ⟨q, by omega, hq2, hq3, ?_, hq5⟩
        intro r h1 h2
        rcases Nat.eq_or_lt_of_le h1 with rfl | h
        · exact hocc_d
        · exact hq4 r (by omega) h2

/-- The ideal coordinate of an entry relative to cluster start s: the distance
from s to the entry's ideal slot hash % N. -/
def dcoord (N s : Nat) (e : Entry) : Nat := cdist N s (e.hash % N)

/-- What moveEntryFromTo does when it moves an entry into an empty slot. -/
theorem moveEntryFromTo_spec {c : Cache} {i j : Nat} {e : Entry}
    (hi : c.slot i = some e) (hj : c.slot j = none) (hij : i ≠ j)
    (hiN : i < c.table.length) (hjN : j < c.table.length) :
    (c.moveEntryFromTo i j).slot j = some e ∧
    (c.moveEntryFromTo i j).slot i = none ∧
    (∀ l, l ≠ i → l ≠ j → (c.moveEntryFromTo i j).slot l = c.slot l) ∧
    (c.moveEntryFromTo i j).entries.Perm c.entries ∧
    (c.moveEntryFromTo i j).capacity = c.capacity ∧
    (c.moveEntryFromTo i j).currentTime = c.currentTime ∧
    (c.moveEntryFromTo i j).hashFunction = c.hashFunction ∧
    (c.moveEntryFromTo i j).maxLoadFactor = c.maxLoadFactor ∧
    (c.moveEntryFromTo i j).maxEntries = c.maxEntries ∧
    (c.moveEntryFromTo i j).size = c.size ∧
    (c.moveEntryFromTo i j).lru = c.lru ∧
    (c.moveEntryFromTo i j).table.length = c.table.length := by
  have hstep : c.moveEntryFromTo i j = (c.setSlot j (some e)).setSlot i none := by
    rw [moveEntryFromTo, hi]
    rfl
  have hmidlen : (c.setSlot j (some e)).table.length = c.table.length := by simp
  have hmid_i : (c.setSlot j (some e)).slot i = some e := by
    rw [c.slot_setSlot_ne (some e) (fun h => hij h.symm), hi]
  constructor
  · rw [hstep, (c.setSlot j (some e)).slot_setSlot_ne none hij,
      c.slot_setSlot_self (some e) hjN]
  constructor
  · rw [hstep]
    exact (c.setSlot j (some e)).slot_setSlot_self none (by simpa using hiN)
  constructor
  · intro l hli hlj
    rw [hstep, (c.setSlot j (some e)).slot_setSlot_ne none (fun h => hli h.symm),
      c.slot_setSlot_ne (some e) (fun h => hlj h.symm)]
  constructor
  · have h1 : (c.setSlot j (some e)).entries.Perm (e :: c.entries) :=
      filterMap_set_some_perm c.table j e (by rw [getElem?_of_slot hjN, hj])
    have h2 : (c.setSlot j (some e)).entries.Perm
        (e :: ((c.setSlot j (some e)).setSlot i none).entries) := by
      refine filterMap_set_none_perm _ i e ?_
      show (c.setSlot j (some e)).table[i]? = some (some e)
      rw [getElem?_of_slot (by simpa using hiN), hmid_i]
    rw [hstep]
    exact (h2.symm.trans h1).cons_inv
  refine ⟨rfl, rfl, rfl, rfl, rfl, rfl, rfl, by rw [hstep]; simp⟩

/-- The loop invariant of fixCluster pass 2 over the state cur it reaches at
coordinate p, relative to the state c1 that pass 1 produced: coordinates from
p on are untouched, entries below p have only moved toward their ideal slot
(never past it, and never duplicated or lost), and every relocated entry
already satisfies the open-addressing condition in cur. -/
structure Pass2Inv (N s : Nat) (c1 cur : Cache) (p : Nat) : Prop where
  hcap : cur.capacity = N
  hlen : cur.table.length = c1.table.length
  htime : cur.currentTime = c1.currentTime
  hsizef : cur.size = c1.size
  hlruf : cur.lru = c1.lru
  hhf : cur.hashFunction = c1.hashFunction
  hmlf : cur.maxLoadFactor = c1.maxLoadFactor
  hme : cur.maxEntries = c1.maxEntries
  hentries : cur.entries.Perm c1.entries
  huntouched : ∀ v, p ≤ v → v < N → cur.slot (cix N s v) = c1.slot (cix N s v)
  hfrom : ∀ v, v < p → ∀ e, cur.slot (cix N s v) = some e →
      dcoord N s e ≤ v ∧ ∃ w, v ≤ w ∧ w < p ∧ c1.slot (cix N s w) = some e
  hto : ∀ w, w < p → ∀ e, c1.slot (cix N s w) = some e →
      ∃ v, dcoord N s e ≤ v ∧ v ≤ w ∧ cur.slot (cix N s v) = some e
  hinj : ∀ v1 v2, v1 < p → v2 < p → v1 ≠ v2 → ∀ e1 e2,
      cur.slot (cix N s v1) = some e1 → cur.slot (cix N s v2) = some e2 →
      e1.key ≠ e2.key
  hoa : ∀ v, v < p → ∀ e, cur.slot (cix N s v) = some e →
      ∀ r, dcoord N s e ≤ r → r < v → cur.slot (cix N s r) ≠ none

/-- Advancing the pass-2 invariant over an empty slot. -/
theorem Pass2Inv.step_none {N s : Nat} {c1 cur : Cache} {p : Nat}
    (inv : Pass2Inv N s c1 cur p) (hpN : p < N)
    (hsp : cur.slot (cix N s p) = none) :
    Pass2Inv N s c1 cur (p + 1) where
  hcap := inv.hcap
  hlen := inv.hlen
  htime := inv.htime
  hsizef := inv.hsizef
  hlruf := inv.hlruf
  hhf := inv.hhf
  hmlf := inv.hmlf
  hme := inv.hme
  hentries := inv.hentries
  huntouched := fun v hv hvN => inv.huntouched v (by omega) hvN
  hfrom := by
    intro v hv e he
    rcases Nat.lt_or_ge v p with h | h
    · obtain ⟨h1, w, h2, h3, h4⟩ := inv.hfrom v h e he
      exact ⟨h1, w, h2, by omega, h4⟩
    · have hvp : v = p := by omega
      rw [hvp, hsp] at he
      exact Option.noConfusion he
  hto := by
    intro w hw e he
    rcases Nat.lt_or_ge w p with h | h
    · obtain ⟨v, h1, h2, h3⟩ := inv.hto w h e he
      exact ⟨v, h1, h2, h3⟩
    · have hwp : w = p := by omega
      rw [hwp, ← inv.huntouched p (le_refl p) hpN, hsp] at he
      exact Option.noConfusion he
  hinj := by
    intro v1 v2 hv1 hv2 hne e1 e2 he1 he2
    rcases Nat.lt_or_ge v1 p with h1 | h1
    · rcases Nat.lt_or_ge v2 p with h2 | h2
      · exact inv.hinj v1 v2 h1 h2 hne e1 e2 he1 he2
      · have hvp : v2 = p := by omega
        rw [hvp, hsp] at he2
        exact absurd he2 (Option.noConfusion)
    · have hvp : v1 = p := by omega
      rw [hvp, hsp] at he1
      exact absurd he1 (Option.noConfusion)
  hoa := by
    intro v hv e he r hr1 hr2
    rcases Nat.lt_or_ge v p with h | h
    · exact inv.hoa v h e he r hr1 hr2
    · have hvp : v = p := by omega
      rw [hvp, hsp] at he
      exact absurd he (Option.noConfusion)

/-- Advancing the pass-2 invariant over an occupied slot that stays in place,
given that the scan certified the slots between its ideal coordinate and p. -/
theorem Pass2Inv.step_stay {N s : Nat} {c1 cur : Cache} {p : Nat} {e : Entry}
    (inv : Pass2Inv N s c1 cur p) (hpN : p < N)
    (hANodup : ∀ w1 w2, w1 < N → w2 < N → w1 ≠ w2 → ∀ e1 e2,
      c1.slot (cix N s w1) = some e1 → c1.slot (cix N s w2) = some e2 →
      e1.key ≠ e2.key)
    (hsp : cur.slot (cix N s p) = some e) (hdp : dcoord N s e ≤ p)
    (hoa_p : ∀ r, dcoord N s e ≤ r → r < p → cur.slot (cix N s r) ≠ none) :
    Pass2Inv N s c1 cur (p + 1) where
  hcap := inv.hcap
  hlen := inv.hlen
  htime := inv.htime
  hsizef := inv.hsizef
  hlruf := inv.hlruf
  hhf := inv.hhf
  hmlf := inv.hmlf
  hme := inv.hme
  hentries := inv.hentries
  huntouched := fun v hv hvN => inv.huntouched v (by omega) hvN
  hfrom := by
    intro v hv e2 he2
    rcases Nat.lt_or_ge v p with h | h
    · obtain ⟨h1, w, h2, h3, h4⟩ := inv.hfrom v h e2 he2
      exact ⟨h1, w, h2, by omega, h4⟩
    · have hvp : v = p := by omega
      rw [hvp, hsp] at he2
      injection he2 with he2
      subst he2
      rw [hvp]
      exact ⟨hdp, p, le_refl p, by omega,
        by rw [← inv.huntouched p (le_refl p) hpN]; exact hsp⟩
  hto := by
    intro w hw e2 he2
    rcases Nat.lt_or_ge w p with h | h
    · obtain ⟨v, h1, h2, h3⟩ := inv.hto w h e2 he2
      exact ⟨v, h1, h2, h3⟩
    · have hwp : w = p := by omega
      rw [hwp, ← inv.huntouched p (le_refl p) hpN, hsp] at he2
      injection he2 with he2
      subst he2
      exact ⟨p, hdp, by omega, hsp⟩
  hinj := by
    intro v1 v2 hv1 hv2 hne e1 e2 he1 he2
    have hkey : ∀ v' e', v' < p → cur.slot (cix N s v') = some e' → e'.key ≠ e.key := by
      intro v' e' hv' he'
      obtain ⟨_, w', hw1, hw2, hw3⟩ := inv.hfrom v' hv' e' he'
      exact hANodup w' p (by omega) hpN (by omega) e' e hw3
        (by rw [← inv.huntouched p (le_refl p) hpN]; exact hsp)
    rcases Nat.lt_or_ge v1 p with h1 | h1
    · rcases Nat.lt_or_ge v2 p with h2 | h2
      · exact inv.hinj v1 v2 h1 h2 hne e1 e2 he1 he2
      · have hv2p : v2 = p := by omega
        rw [hv2p, hsp] at he2
        injection he2 with he2
        subst he2
        exact hkey v1 e1 h1 he1
    · have hv1p : v1 = p := by omega
      rw [hv1p, hsp] at he1
      injection he1 with he1
      subst he1
      rcases Nat.lt_or_ge v2 p with h2 | h2
      · exact fun h => (hkey v2 e2 h2 he2) h.symm
      · omega
  hoa := by
    intro v hv e2 he2 r hr1 hr2
    rcases Nat.lt_or_ge v p with h | h
    · exact inv.hoa v h e2 he2 r hr1 hr2
    · have hvp : v = p := by omega
      rw [hvp, hsp] at he2
      injection he2 with he2
      subst he2
      exact hoa_p r hr1 (by omega)

/-- Advancing the pass-2 invariant over a relocation: the entry at coordinate
p moves back to the empty slot at coordinate q, the first free slot at or
after its ideal coordinate. -/
theorem Pass2Inv.step_move {N s : Nat} {c1 cur : Cache} {p q : Nat} {e : Entry}
    (hN : 0 < N) (hs : s < N)
    (inv : Pass2Inv N s c1 cur p) (hpN : p < N)
    (hlen : cur.table.length = N)
    (hANodup : ∀ w1 w2, w1 < N → w2 < N → w1 ≠ w2 → ∀ e1 e2,
      c1.slot (cix N s w1) = some e1 → c1.slot (cix N s w2) = some e2 →
      e1.key ≠ e2.key)
    (hqp : q < p)
    (hsp : cur.slot (cix N s p) = some e)
    (hq : cur.slot (cix N s q) = none)
    (hdq : dcoord N s e ≤ q)
    (hoa_q : ∀ r, dcoord N s e ≤ r → r < q → cur.slot (cix N s r) ≠ none) :
    Pass2Inv N s c1 (cur.moveEntryFromTo (cix N s p) (cix N s q)) (p + 1) := by
  have hqN : q < N := by omega
  have hpq : cix N s p ≠ cix N s q := fun h => (by omega : p ≠ q) (cix_inj hs hpN hqN h)
  obtain ⟨m1, m2, m3, m4, m5, m6, m7, m8, m9, m10, m11, m12⟩ :=
    moveEntryFromTo_spec hsp hq hpq (by rw [hlen]; exact cix_lt hN s p)
      (by rw [hlen]; exact cix_lt hN s q)
  set c2 := cur.moveEntryFromTo (cix N s p) (cix N s q) with hc2
  have hslot2 : ∀ v, v < N → v ≠ p → v ≠ q → c2.slot (cix N s v) = cur.slot (cix N s v) := by
    intro v hv hvp hvq
    exact m3 _ (fun h => hvp (cix_inj hs hv hpN h)) (fun h => hvq (cix_inj hs hv hqN h))
  refine ⟨m5.trans inv.hcap, m12.trans inv.hlen, m6.trans inv.htime,
    m10.trans inv.hsizef, m11.trans inv.hlruf, m7.trans inv.hhf,
    m8.trans inv.hmlf, m9.trans inv.hme, m4.trans inv.hentries, ?_, ?_, ?_, ?_, ?_⟩
  · -- untouched region
    intro v hv hvN
    rw [hslot2 v hvN (by omega) (by omega)]
    exact inv.huntouched v (by omega) hvN
  · -- every entry below p + 1 came from c1, moved only leftward, not past ideal
    intro v hv e2 he2
    by_cases hvq : v = q
    · rw [hvq, m1] at he2
      injection he2 with he2
      subst he2
      refine ⟨by rw [hvq]; exact hdq, p, by omega, by omega, ?_⟩
      rw [← inv.huntouched p (le_refl p) hpN]
      exact hsp
    · by_cases hvp : v = p
      · rw [hvp, m2] at he2
        exact Option.noConfusion he2
      · have hvN : v < N := by omega
        rw [hslot2 v hvN hvp hvq] at he2
        obtain ⟨h1, w, h2, h3, h4⟩ := inv.hfrom v (by omega) e2 he2
        exact ⟨h1, w, h2, by omega, h4⟩
  · -- every surviving c1 entry below p + 1 is still present
    intro w hw e2 he2
    by_cases hwp : w = p
    · refine ⟨q, ?_, by omega, ?_⟩
      · have he2e : e2 = e := by
          have h5 := inv.huntouched p (le_refl p) hpN
          rw [hwp] at he2
          rw [he2, hsp] at h5
          injection h5 with h5
          exact h5.symm
        rw [he2e]
        exact hdq
      · have he2e : e2 = e := by
          have h5 := inv.huntouched p (le_refl p) hpN
          rw [hwp] at he2
          rw [he2, hsp] at h5
          injection h5 with h5
          exact h5.symm
        rw [he2e]
        exact m1
    · obtain ⟨v, h1, h2, h3⟩ := inv.hto w (by omega) e2 he2
      have hvp : v ≠ p := by
        intro h
        rw [h] at h3
        omega
      have hvq : v ≠ q := by
        intro h
        rw [h, hq] at h3
        exact Option.noConfusion h3
      refine ⟨v, h1, h2, ?_⟩
      rw [hslot2 v (by omega) hvp hvq]
      exact h3
  · -- distinct occupied slots below p + 1 hold distinct keys
    intro v1 v2 hv1 hv2 hne e1 e2 he1 he2
    have horigin : ∀ v' e', v' < p + 1 → v' ≠ p → c2.slot (cix N s v') = some e' →
        ∃ w', w' < N ∧ (v' = q → w' = p) ∧ (v' ≠ q → w' < p) ∧
          c1.slot (cix N s w') = some e' := by
      intro v' e' hv' hv'p he'
      by_cases hv'q : v' = q
      · rw [hv'q, m1] at he'
        injection he' with he'
        subst he'
        refine ⟨p, hpN, fun _ => rfl, fun h => absurd hv'q h, ?_⟩
        rw [← inv.huntouched p (le_refl p) hpN]
        exact hsp
      · rw [hslot2 v' (by omega) hv'p hv'q] at he'
        obtain ⟨_, w', hw1, hw2, hw3⟩ := inv.hfrom v' (by omega) e' he'
        exact ⟨w', by omega, fun h => absurd h hv'q, fun _ => by omega, hw3⟩
    by_cases h1p : v1 = p
    · rw [h1p, m2] at he1
      exact absurd he1 (Option.noConfusion)
    · by_cases h2p : v2 = p
      · rw [h2p, m2] at he2
        exact absurd he2 (Option.noConfusion)
      · obtain ⟨w1, hw1N, hw1q, hw1nq, hw1s⟩ := horigin v1 e1 hv1 h1p he1
        obtain ⟨w2, hw2N, hw2q, hw2nq, hw2s⟩ := horigin v2 e2 hv2 h2p he2
        have hw12 : w1 ≠ w2 := by
          by_cases h1q : v1 = q
          · by_cases h2q : v2 = q
            · exact absurd (h1q.trans h2q.symm) hne
            · have := hw1q h1q
              have := hw2nq h2q
              omega
          · by_cases h2q : v2 = q
            · have := hw1nq h1q
              have := hw2q h2q
              omega
            · -- both come from the old region; distinct old positions
              have hv1q : v1 ≠ q := h1q
              have hv2q : v2 ≠ q := h2q
              rw [hslot2 v1 (by omega) h1p hv1q] at he1
              rw [hslot2 v2 (by omega) h2p hv2q] at he2
              intro h
              subst h
              -- same origin slot gives the same entry, so distinct current
              -- slots would duplicate it; rule that out with inv.hinj
              rw [hw1s] at hw2s
              injection hw2s with hw2s
              exact inv.hinj v1 v2 (by omega) (by omega) hne e1 e2 he1 he2
                (by rw [hw2s])
        exact hANodup w1 w2 hw1N hw2N hw12 e1 e2 hw1s hw2s
  · -- the open-addressing condition for the processed region
    intro v hv e2 he2 r hr1 hr2
    have hrnp : r ≠ p := by omega
    by_cases hvq : v = q
    · rw [hvq, m1] at he2
      injection he2 with he2
      subst he2
      by_cases hrq : r = q
      · rw [hrq, m1]
        exact fun h => Option.noConfusion h
      · rw [hslot2 r (by omega) (by omega) hrq]
        exact hoa_q r hr1 (by omega)
    · by_cases hvp : v = p
      · rw [hvp, m2] at he2
        exact absurd he2 (Option.noConfusion)
      · rw [hslot2 v (by omega) hvp hvq] at he2
        by_cases hrq : r = q
        · rw [hrq, m1]
          exact fun h => Option.noConfusion h
        · rw [hslot2 r (by omega) hrnp hrq]
          exact inv.hoa v (by omega) e2 he2 r hr1 hr2

/-- Running fixCluster pass 2 from any coordinate p carries its invariant to
the cluster end L. -/
theorem fixClusterPass2_go {N s L : Nat} (hN : 0 < N) (hs : s < N) (hLN : L < N)
    {c1 : Cache} (hc1len : c1.table.length = N)
    (hANodup : ∀ w1 w2, w1 < N → w2 < N → w1 ≠ w2 → ∀ e1 e2,
      c1.slot (cix N s w1) = some e1 → c1.slot (cix N s w2) = some e2 →
      e1.key ≠ e2.key)
    (hAideal : ∀ w, w < L → ∀ e, c1.slot (cix N s w) = some e → dcoord N s e ≤ w) :
    ∀ (fuel p : Nat) (cur : Cache), p ≤ L → L - p < fuel →
      Pass2Inv N s c1 cur p →
      Pass2Inv N s c1 (cur.fixClusterPass2 (cix N s p) (cix N s L) fuel) L := by
  intro fuel
  induction fuel with
  | zero => intro p cur _ h _; omega
  | succ fuel ih =>
    intro p cur hpL hfuel inv
    by_cases hpeq : p = L
    · rw [hpeq] at inv ⊢
      simp only [fixClusterPass2]
      simpa using inv
    · have hpL2 : p < L := by omega
      have hpN : p < N := by omega
      have hne : cix N s p ≠ cix N s L := fun h => hpeq (cix_inj hs hpN (by omega) h)
      simp only [fixClusterPass2]
      rw [if_neg hne]
      have hnext : cur.nextIndex (cix N s p) = cix N s (p + 1) := by
        rw [nextIndex, inv.hcap, cix_succ]
      have hcurlen : cur.table.length = N := by rw [inv.hlen, hc1len]
      rcases hsp : cur.slot (cix N s p) with _ | e
      · simp only [hsp]
        rw [hnext]
        exact ih (p + 1) cur (by omega) (by omega) (inv.step_none hpN hsp)
      · simp only [hsp]
        rw [hnext]
        have hc1p : c1.slot (cix N s p) = some e := by
          rw [← inv.huntouched p (le_refl p) hpN]
          exact hsp
        have hdp : dcoord N s e ≤ p := hAideal p hpL2 e hc1p
        have hdN : dcoord N s e < N := cdist_lt N hs (Nat.mod_lt _ hN)
        have hie : cur.hashToIndex e.hash = cix N s (dcoord N s e) := by
          rw [hashToIndex, inv.hcap, dcoord]
          exact (cix_cdist hs (Nat.mod_lt _ hN)).symm
        rw [hie]
        by_cases hdeq : dcoord N s e = p
        · rw [hdeq, if_pos rfl]
          exact ih (p + 1) cur (by omega) (by omega)
            (inv.step_stay hpN hANodup hsp hdp (fun r h1 h2 => by omega))
        · have hneq : cix N s (dcoord N s e) ≠ cix N s p :=
            fun h => hdeq (cix_inj hs hdN hpN h)
          rw [if_neg hneq]
          obtain ⟨q, hq1, hq2, hq3, hq4, hq5⟩ :=
            relocateScan_go hN hs cur inv.hcap cur.capacity (dcoord N s e) p hdp hpN
              (by rw [inv.hcap]; omega)
          rw [hq3]
          by_cases hqp : q = p
          · rw [hqp, if_pos rfl]
            refine ih (p + 1) cur (by omega) (by omega)
              (inv.step_stay hpN hANodup hsp hdp ?_)
            intro r h1 h2
            exact hq4 r h1 (by omega)
          · have hq5n : cur.slot (cix N s q) = none := by
              rcases hq5 with h | h
              · exact absurd h hqp
              · exact h
            have hneq2 : cix N s q ≠ cix N s p := fun h => hqp (cix_inj hs (by omega) hpN h)
            rw [if_neg hneq2]
            exact ih (p + 1) _ (by omega) (by omega)
              (inv.step_move hN hs hpN hcurlen hANodup (by omega) hsp hq5n hq1 hq4)

theorem isExpired_eq_true_of {c : Cache} {i : Nat} {e : Entry}
    (hi : c.slot i = some e) :
    c.isExpired i = true ↔ e.expireTime ≤ c.currentTime := by
  unfold isExpired
  rw [hi]
  exact decide_eq_true_iff

theorem isExpired_eq_false_of {c : Cache} {i : Nat} {e : Entry}
    (hi : c.slot i = some e) :
    c.isExpired i = false ↔ c.currentTime < e.expireTime := by
  rw [← Bool.not_eq_true, not_iff_comm, isExpired_eq_true_of hi]
  omega

/-- If firstExpiredIn finds a coordinate, it is the least expired one. -/
theorem firstExpiredIn_spec {c : Cache} {s L : Nat} :
    ∀ {a v0 : Nat}, c.firstExpiredIn s a L = some v0 →
      a ≤ v0 ∧ v0 < L ∧ c.isExpired (cix c.capacity s v0) = true ∧
        ∀ u, a ≤ u → u < v0 → c.isExpired (cix c.capacity s u) = false := by
  intro a
  have hgen : ∀ n a v0, L - a ≤ n → c.firstExpiredIn s a L = some v0 →
      a ≤ v0 ∧ v0 < L ∧ c.isExpired (cix c.capacity s v0) = true ∧
        ∀ u, a ≤ u → u < v0 → c.isExpired (cix c.capacity s u) = false := by
    intro n
    induction n with
    | zero =>
      intro a v0 hn h
      rw [firstExpiredIn_nil (by omega)] at h
      exact Option.noConfusion h
    | succ n ih =>
      intro a v0 hn h
      rcases Nat.lt_or_ge a L with haL | haL
      · rw [firstExpiredIn_cons haL] at h
        by_cases hx : c.isExpired (cix c.capacity s a) = true
        · rw [if_pos hx] at h
          injection h with h
          subst h
          exact ⟨le_refl a, haL, hx, fun u h1 h2 => by omega⟩
        · rw [if_neg hx] at h
          obtain ⟨h1, h2, h3, h4⟩ := ih (a + 1) v0 (by omega) h
          refine ⟨by omega, h2, h3, ?_⟩
          intro u hu1 hu2
          rcases Nat.eq_or_lt_of_le hu1 with rfl | hu3
          · exact Bool.eq_false_iff.mpr hx
          · exact h4 u (by omega) hu2
      · rw [firstExpiredIn_nil (by omega)] at h
        exact Option.noConfusion h
  intro v0 h
  exact hgen (L - a) a v0 (le_refl _) h

/-- firstExpiredIn finds nothing exactly when nothing in the range is
expired, which is also exactly when expiredEntriesIn is empty. -/
theorem firstExpiredIn_eq_none_iff {c : Cache} {s a L : Nat} :
    c.firstExpiredIn s a L = none ↔ c.expiredEntriesIn s a L = [] := by
  unfold firstExpiredIn expiredEntriesIn
  rw [List.find?_eq_none, List.filterMap_eq_nil]
  constructor
  · intro h v hv
    have h2 := h v hv
    unfold isExpired at h2
    rcases hs2 : c.slot (cix c.capacity s v) with _ | e
    · simp [hs2]
    · rw [hs2] at h2
      simp only [decide_eq_true_eq] at h2
      simp [hs2, h2]
  · intro h v hv
    have h2 := h v hv
    unfold isExpired
    rcases hs2 : c.slot (cix c.capacity s v) with _ | e
    · simp [hs2]
    · rw [hs2] at h2
      simp only [hs2, decide_eq_true_eq]
      intro hc
      simp [hc] at h2

/-- The open-addressing invariant forces every cluster entry's ideal slot to
lie at or before the entry, in cluster coordinates: probing cannot cross the
empty slot before the cluster start. -/
theorem cluster_ideal_bound {c : Cache} (hwf : WF c) {s L : Nat}
    (hcl : ClusterAt c s L) :
    ∀ w, w < L → ∀ e, c.slot (cix c.capacity s w) = some e →
      dcoord c.capacity s e ≤ w := by
  intro w hw e he
  by_contra hlt
  push_neg at hlt
  have hN : 0 < c.capacity := hwf.hCapPos
  have hs := hcl.hs
  have hwN : w < c.capacity := by have := hcl.hLN; omega
  have hhN : e.hash % c.capacity < c.capacity := Nat.mod_lt _ hN
  have hiid : c.hashToIndex e.hash = cix c.capacity s (dcoord c.capacity s e) := by
    rw [hashToIndex, dcoord]
    exact (cix_cdist hs hhN).symm
  have hdN : dcoord c.capacity s e < c.capacity := cdist_lt _ hs hhN
  refine hwf.hOA (cix c.capacity s w) e (cix_lt hN s w) he
    (cix c.capacity s (c.capacity - 1)) (cix_lt hN s _) ?_ hcl.hprev
  rw [hiid, cdist_cix_cix hs hdN (by omega), cdist_cix_cix hs hdN hwN]
  unfold cdist
  split_ifs <;> omega

/-- Everything a fixCluster call guarantees about the cluster [s, s+L) it
repaired: outside slots are untouched; the cluster region afterwards holds
exactly the unexpired entries it held before, each with all fields intact and
moved only toward (never past) its ideal slot; removed entries are accounted
in size and unlinked from the LRU list in walk order; and the region satisfies
the open-addressing condition again. -/
structure FixOut (c : Cache) (s L : Nat) (c2 : Cache) : Prop where
  houtside : ∀ v, L ≤ v → v < c.capacity →
      c2.slot (cix c.capacity s v) = c.slot (cix c.capacity s v)
  hin : ∀ v, v < L → ∀ e, c2.slot (cix c.capacity s v) = some e →
      c.currentTime < e.expireTime ∧ dcoord c.capacity s e ≤ v ∧
      ∃ w, v ≤ w ∧ w < L ∧ c.slot (cix c.capacity s w) = some e
  hsurv : ∀ w, w < L → ∀ e, c.slot (cix c.capacity s w) = some e →
      c.currentTime < e.expireTime →
      ∃ v, dcoord c.capacity s e ≤ v ∧ v ≤ w ∧
        c2.slot (cix c.capacity s v) = some e
  hsize : c2.size + (c.expiredEntriesIn s 0 L).length = c.size
  hlru : c2.lru = (c.expiredKeysIn s 0 L).foldl List.erase c.lru
  hperm : c.entries.Perm (c.expiredEntriesIn s 0 L ++ c2.entries)
  hinj2 : ∀ v1 v2, v1 < L → v2 < L → v1 ≠ v2 → ∀ e1 e2,
      c2.slot (cix c.capacity s v1) = some e1 →
      c2.slot (cix c.capacity s v2) = some e2 → e1.key ≠ e2.key
  hoa2 : ∀ v, v < L → ∀ e, c2.slot (cix c.capacity s v) = some e →
      ∀ r, dcoord c.capacity s e ≤ r → r < v →
        c2.slot (cix c.capacity s r) ≠ none
  hcap : c2.capacity = c.capacity
  htime : c2.currentTime = c.currentTime
  hhf : c2.hashFunction = c.hashFunction
  hmlf : c2.maxLoadFactor = c.maxLoadFactor
  hme : c2.maxEntries = c.maxEntries
  hlen : c2.table.length = c.table.length
  hszOut : c2.size = c2.entries.length

/-- fixCluster on an empty slot does nothing. -/
theorem fixCluster_empty {c : Cache} {i : Nat} (hi : c.slot i = none) :
    c.fixCluster i = c := by
  rw [fixCluster, if_pos ((c.isEmpty_eq_true_iff i).2 hi)]

/-- Erasing, one by one, the left part of a permutation-split leaves the right
part, up to permutation. -/
theorem foldl_erase_perm {α : Type} [DecidableEq α] :
    ∀ (ks l l2 : List α), l.Perm (ks ++ l2) →
      (ks.foldl List.erase l).Perm l2
  | [], l, l2, h => h
  | k :: ks, l, l2, h => by
    have h1 : (l.erase k).Perm (ks ++ l2) := by
      rw [List.cons_append] at h
      have h2 := h.erase k
      rw [List.erase_cons_head] at h2
      exact h2
    exact foldl_erase_perm ks (l.erase k) l2 h1

/-- The master theorem about fixCluster on an occupied slot: it repairs
exactly the cluster of that slot, as summarized by FixOut. -/
theorem fixCluster_spec {c : Cache} (hwf : WF c) {i : Nat} (hi : c.slot i ≠ none) :
    ∃ s L, ClusterAt c s L ∧ cdist c.capacity s i < L ∧
      FixOut c s L (c.fixCluster i) := by
  obtain ⟨s, L, hcl, hdi⟩ := cluster_exists hwf hi
  have hN : 0 < c.capacity := hwf.hCapPos
  have hs := hcl.hs
  have hLN := hcl.hLN
  have hiN : i < c.capacity := lt_capacity_of_slot_ne_none hwf hi
  refine ⟨s, L, hcl, hdi, ?_⟩
  have hfcs : c.findClusterStart i = s := by
    have h1 := findClusterStart_eq hcl hdi
    rw [cix_cdist hs hiN] at h1
    exact h1
  have hemp : c.isEmpty i = false := (c.isEmpty_eq_false_iff i).2 hi
  have P := fixClusterPass1_go hN hs hLN c.capacity 0 c c.invalidIndex rfl
    (fun v _ hvL => hcl.hocc v hvL) hcl.hend hwf.hSize (by omega) (by omega)
  rw [cix_zero hs] at P
  have hinv : c.invalidIndex = c.capacity := rfl
  have hfix : c.fixCluster i =
      (if (fixClusterPass1 c s c.invalidIndex c.capacity).2.1 = c.invalidIndex then
        (fixClusterPass1 c s c.invalidIndex c.capacity).1
      else
        fixClusterPass2 (fixClusterPass1 c s c.invalidIndex c.capacity).1
          ((fixClusterPass1 c s c.invalidIndex c.capacity).1.nextIndex
            (fixClusterPass1 c s c.invalidIndex c.capacity).2.1)
          (fixClusterPass1 c s c.invalidIndex c.capacity).2.2
          (fixClusterPass1 c s c.invalidIndex c.capacity).1.capacity) := by
    rw [fixCluster, hfcs]
    simp only [hemp, Bool.false_eq_true, if_false]
  rcases hfe : c.firstExpiredIn s 0 L with _ | v0
  · -- nothing in the cluster is expired: pass 1 removed nothing and the call
    -- is the identity
    have hEnil : c.expiredEntriesIn s 0 L = [] := firstExpiredIn_eq_none_iff.1 hfe
    have hnoexp : ∀ v, v < L → c.isExpired (cix c.capacity s v) = false := by
      intro v hv
      unfold firstExpiredIn at hfe
      rw [List.find?_eq_none] at hfe
      exact Bool.eq_false_iff.mpr (hfe v (by rw [List.mem_range'_1]; omega))
    have hid : (fixClusterPass1 c s c.invalidIndex c.capacity).1 = c := P.hid hEnil
    have hfr : (fixClusterPass1 c s c.invalidIndex c.capacity).2.1 = c.invalidIndex := by
      rw [P.hfr, hfe]
      by_cases h : c.invalidIndex ≠ c.capacity <;> simp [h]
    have hres : c.fixCluster i = c := by
      rw [hfix, if_pos hfr, hid]
    rw [hres]
    have hcoordOA : ∀ v, v < L → ∀ e, c.slot (cix c.capacity s v) = some e →
        ∀ r, dcoord c.capacity s e ≤ r → r < v → c.slot (cix c.capacity s r) ≠ none := by
      intro v hv e he r hr1 hr2
      have hd := cluster_ideal_bound hwf hcl v hv e he
      have hvN : v < c.capacity := by omega
      have hrN : r < c.capacity := by omega
      have hhN : e.hash % c.capacity < c.capacity := Nat.mod_lt _ hN
      have hdN : dcoord c.capacity s e < c.capacity := cdist_lt _ hs hhN
      have hiid : c.hashToIndex e.hash = cix c.capacity s (dcoord c.capacity s e) := by
        rw [hashToIndex, dcoord]
        exact (cix_cdist hs hhN).symm
      refine hwf.hOA (cix c.capacity s v) e (cix_lt hN s v) he
        (cix c.capacity s r) (cix_lt hN s r) ?_
      rw [hiid, cdist_cix_cix hs hdN hrN, cdist_cix_cix hs hdN hvN]
      exact (cdist_lt_iff hvN hrN hd).2 ⟨hr1, hr2⟩
    refine ⟨fun v _ _ => rfl, ?_, ?_, ?_, ?_, ?_, ?_, hcoordOA, rfl, rfl, rfl, rfl, rfl,
      rfl, hwf.hSize⟩
    · intro v hv e he
      refine ⟨?_, cluster_ideal_bound hwf hcl v hv e he, v, le_refl v, hv, he⟩
      exact (isExpired_eq_false_of he).1 (hnoexp v hv)
    · intro w hw e he _
      exact ⟨w, cluster_ideal_bound hwf hcl w hw e he, le_refl w, he⟩
    · simp [hEnil]
    · simp [expiredKeysIn, hEnil]
    · rw [hEnil]
      exact List.Perm.refl _
    · intro v1 v2 hv1 hv2 hne e1 e2 he1 he2
      exact hwf.hNodup (cix c.capacity s v1) (cix c.capacity s v2)
        (cix_lt hN s v1) (cix_lt hN s v2)
        (fun h => hne (cix_inj hs (by omega) (by omega) h)) e1 e2 he1 he2
  · -- the first expired coordinate is v0: pass 1 purged, pass 2 compacts
    obtain ⟨hv00, hv0L, hv0x, hv0min⟩ := firstExpiredIn_spec hfe
    have hfr : (fixClusterPass1 c s c.invalidIndex c.capacity).2.1 =
        cix c.capacity s v0 := by
      rw [P.hfr, hfe, hinv]
      simp
    have hfrne : (fixClusterPass1 c s c.invalidIndex c.capacity).2.1 ≠ c.invalidIndex := by
      rw [hfr, hinv]
      have := cix_lt hN s v0
      omega
    set c1 := (fixClusterPass1 c s c.invalidIndex c.capacity).1 with hc1def
    have hnext : c1.nextIndex (cix c.capacity s v0) = cix c.capacity s (v0 + 1) := by
      rw [nextIndex, P.hcap, cix_succ]
    have hres : c.fixCluster i =
        fixClusterPass2 c1 (cix c.capacity s (v0 + 1)) (cix c.capacity s L) c.capacity := by
      rw [hfix, if_neg hfrne, hfr, hnext, P.hend, P.hcap]
    have hc1len : c1.table.length = c.capacity := by rw [P.hlen, hwf.hLen]
    have hc1slot : ∀ v, v < c.capacity → c1.slot (cix c.capacity s v) =
        if 0 ≤ v ∧ v < L ∧ c.isExpired (cix c.capacity s v) = true then none
        else c.slot (cix c.capacity s v) := P.hslot
    have hc1of : ∀ v, v < c.capacity → ∀ e, c1.slot (cix c.capacity s v) = some e →
        c.slot (cix c.capacity s v) = some e := by
      intro v hv e he
      rw [hc1slot v hv] at he
      split_ifs at he
      exact he
    have hANodup1 : ∀ w1 w2, w1 < c.capacity → w2 < c.capacity → w1 ≠ w2 → ∀ e1 e2,
        c1.slot (cix c.capacity s w1) = some e1 →
        c1.slot (cix c.capacity s w2) = some e2 → e1.key ≠ e2.key := by
      intro w1 w2 h1 h2 hne e1 e2 he1 he2
      exact hwf.hNodup (cix c.capacity s w1) (cix c.capacity s w2)
        (cix_lt hN s w1) (cix_lt hN s w2)
        (fun h => hne (cix_inj hs h1 h2 h)) e1 e2 (hc1of w1 h1 e1 he1) (hc1of w2 h2 e2 he2)
    have hAideal1 : ∀ w, w < L → ∀ e, c1.slot (cix c.capacity s w) = some e →
        dcoord c.capacity s e ≤ w := by
      intro w hw e he
      exact cluster_ideal_bound hwf hcl w hw e (hc1of w (by omega) e he)
    have hv0none : c1.slot (cix c.capacity s v0) = none := by
      rw [hc1slot v0 (by omega), if_pos ⟨by omega, hv0L, hv0x⟩]
    have inv0 : Pass2Inv c.capacity s c1 c1 (v0 + 1) := by
      refine ⟨P.hcap, rfl, rfl, rfl, rfl, rfl, rfl, rfl, List.Perm.refl _,
        fun v _ _ => rfl, ?_, ?_, ?_, ?_⟩
      · intro v hv e he
        exact ⟨hAideal1 v (by omega) e he, v, le_refl v, hv, he⟩
      · intro w hw e he
        exact ⟨w, hAideal1 w (by omega) e he, le_refl w, he⟩
      · intro v1 v2 hv1 hv2 hne e1 e2 he1 he2
        exact hANodup1 v1 v2 (by omega) (by omega) hne e1 e2 he1 he2
      · intro v hv e he r hr1 hr2
        have hvne : v ≠ v0 := by
          intro h
          rw [h, hv0none] at he
          exact Option.noConfusion he
        have hvlt : v < v0 := by omega
        rw [hc1slot r (by omega)]
        rw [if_neg (by
          rintro ⟨_, _, hx⟩
          rw [hv0min r (by omega) (by omega)] at hx
          exact Bool.false_ne_true hx)]
        exact hcl.hocc r (by omega)
    have out := fixClusterPass2_go hN hs hLN hc1len hANodup1 hAideal1
      c.capacity (v0 + 1) c1 (by omega) (by omega) inv0
    rw [hres]
    set cf := fixClusterPass2 c1 (cix c.capacity s (v0 + 1)) (cix c.capacity s L)
      c.capacity with hcfdef
    have hEcongr : ∀ v, v < L →
        (c.isExpired (cix c.capacity s v) = false →
          c1.slot (cix c.capacity s v) = c.slot (cix c.capacity s v)) := by
      intro v hv hx
      rw [hc1slot v (by omega), if_neg (by
        rintro ⟨_, _, h3⟩
        rw [hx] at h3
        exact Bool.false_ne_true h3)]
    refine ⟨?_, ?_, ?_, ?_, ?_, ?_, ?_, ?_, out.hcap, ?_, ?_, ?_, ?_, ?_, ?_⟩
    · -- outside slots untouched
      intro v hv hvN
      rw [out.huntouched v (by omega) hvN, hc1slot v hvN,
        if_neg (by rintro ⟨_, h2, _⟩; omega)]
    · -- region entries: unexpired survivors, moved only leftward
      intro v hv e he
      obtain ⟨hd, w, hvw, hwL, hw⟩ := out.hfrom v hv e he
      have hcw : c.slot (cix c.capacity s w) = some e := hc1of w (by omega) e hw
      rw [hc1slot w (by omega)] at hw
      split_ifs at hw with hcond
      have hx : c.isExpired (cix c.capacity s w) = false := by
        rcases Bool.eq_false_or_eq_true (c.isExpired (cix c.capacity s w)) with h | h
        · exact absurd ⟨by omega, by omega, h⟩ hcond
        · exact h
      exact ⟨(isExpired_eq_false_of hcw).1 hx, hd, w, hvw, by omega, hcw⟩
    · -- unexpired entries survive
      intro w hw e he hunexp
      have hw1 : c1.slot (cix c.capacity s w) = some e := by
        rw [hc1slot w (by omega), if_neg (by
          rintro ⟨_, _, h3⟩
          have h4 := (isExpired_eq_true_of he).1 h3
          omega)]
        exact he
      obtain ⟨v, h1, h2, h3⟩ := out.hto w hw e hw1
      exact ⟨v, h1, h2, h3⟩
    · rw [out.hsizef]
      exact P.hsize
    · rw [out.hlruf]
      exact P.hlru
    · refine P.hperm.trans ?_
      exact List.Perm.append_left _ out.hentries.symm
    · exact out.hinj
    · exact out.hoa
    · exact out.htime.trans P.htime
    · exact out.hhf.trans P.hhf
    · exact out.hmlf.trans P.hmlf
    · exact out.hme.trans P.hme
    · exact out.hlen.trans P.hlen
    · rw [out.hsizef, out.hentries.length_eq]
      exact P.hszOut

/-- A repaired cluster preserves every component of well-formedness, in
particular the open-addressing invariant. -/
theorem WF_of_FixOut {c c2 : Cache} (hwf : WF c) {s L : Nat}
    (hcl : ClusterAt c s L) (F : FixOut c s L c2) : WF c2 := by
  have hN : 0 < c.capacity := hwf.hCapPos
  have hs := hcl.hs
  have hLN := hcl.hLN
  -- split any occupied c2 slot into the repaired region and the untouched rest
  have hsplit : ∀ j, j < c.capacity → ∀ e, c2.slot j = some e →
      (cdist c.capacity s j < L ∧ c.currentTime < e.expireTime ∧
        dcoord c.capacity s e ≤ cdist c.capacity s j ∧
        ∃ w, cdist c.capacity s j ≤ w ∧ w < L ∧ c.slot (cix c.capacity s w) = some e) ∨
      (L ≤ cdist c.capacity s j ∧ c.slot j = some e) := by
    intro j hj e he
    have hveq : cix c.capacity s (cdist c.capacity s j) = j := cix_cdist hs hj
    have hvN : cdist c.capacity s j < c.capacity := cdist_lt _ hs hj
    rcases Nat.lt_or_ge (cdist c.capacity s j) L with hv | hv
    · obtain ⟨h1, h2, h3⟩ := F.hin _ hv e (by rw [hveq]; exact he)
      exact Or.inl ⟨hv, h1, h2, h3⟩
    · refine Or.inr ⟨hv, ?_⟩
      rw [← hveq]
      rw [← F.houtside _ hv hvN, hveq]
      exact he
  have hc2len : c2.table.length = c.capacity := by rw [F.hlen, hwf.hLen]
  refine ⟨?_, ?_, ?_, ?_, ?_, F.hszOut, ?_, ?_, ?_, ?_, ?_⟩
  · rw [F.hcap]
    exact hc2len
  · rw [F.hcap]; exact hN
  · rw [F.hmlf]; exact hwf.hMLF
  · rw [F.hmlf, F.hcap]; exact hwf.hCap2
  · rw [F.hmlf, F.hcap]
    have h1 : c2.size ≤ c.size := by have := F.hsize; omega
    calc (c2.size : ℚ) ≤ (c.size : ℚ) := by exact_mod_cast h1
      _ ≤ c.maxLoadFactor * (c.capacity : ℚ) := hwf.hLoad
  · -- pairwise distinct keys
    rw [F.hcap]
    intro i j hi hj hij e1 e2 he1 he2
    have hieq : cix c.capacity s (cdist c.capacity s i) = i := cix_cdist hs hi
    have hjeq : cix c.capacity s (cdist c.capacity s j) = j := cix_cdist hs hj
    have hvne : cdist c.capacity s i ≠ cdist c.capacity s j := by
      intro h
      rw [← hieq, ← hjeq, h] at hij
      exact hij rfl
    rcases hsplit i hi e1 he1 with ⟨hv1, _, _, w1, hw1a, hw1b, hw1c⟩ | ⟨hv1, hc1⟩
    · rcases hsplit j hj e2 he2 with ⟨hv2, _, _, w2, hw2a, hw2b, hw2c⟩ | ⟨hv2, hc2⟩
      · exact F.hinj2 _ _ hv1 hv2 hvne e1 e2 (by rw [hieq]; exact he1)
          (by rw [hjeq]; exact he2)
      · refine hwf.hNodup (cix c.capacity s w1) j (cix_lt hN s w1) hj ?_ e1 e2 hw1c hc2
        intro h
        rw [← hjeq] at h
        have := cix_inj hs (by omega) (cdist_lt _ hs hj) h
        omega
    · rcases hsplit j hj e2 he2 with ⟨hv2, _, _, w2, hw2a, hw2b, hw2c⟩ | ⟨hv2, hc2⟩
      · refine hwf.hNodup i (cix c.capacity s w2) hi (cix_lt hN s w2) ?_ e1 e2 hc1 hw2c
        intro h
        rw [← hieq] at h
        have := cix_inj hs (cdist_lt _ hs hi) (by omega) h
        omega
      · exact hwf.hNodup i j hi hj hij e1 e2 hc1 hc2
  · -- the LRU list still matches the table keys
    rw [F.hlru]
    have hkeys : c.tableKeys.Perm (c.expiredKeysIn s 0 L ++ c2.tableKeys) := by
      have h1 := F.hperm.map Entry.key
      rw [List.map_append] at h1
      exact h1
    exact foldl_erase_perm _ _ _ (hwf.hLru.trans hkeys)
  · -- the cached hashes
    intro j e he
    rw [F.hhf]
    have hj : j < c.capacity := by
      by_contra hc
      rw [c2.slot_eq_none_of_ge (by rw [hc2len]; omega)] at he
      exact Option.noConfusion he
    rcases hsplit j hj e he with ⟨_, _, _, w, _, _, hw⟩ | ⟨_, hc⟩
    · exact hwf.hHash _ e hw
    · exact hwf.hHash j e hc
  · -- the open-addressing invariant
    rw [F.hcap]
    intro j e hj he j2 hj2 hcond
    have hieq : cix c.capacity s (cdist c.capacity s j) = j := cix_cdist hs hj
    have hjeq : cix c.capacity s (cdist c.capacity s j2) = j2 := cix_cdist hs hj2
    set v := cdist c.capacity s j with hvdef
    set r := cdist c.capacity s j2 with hrdef
    have hvN : v < c.capacity := cdist_lt _ hs hj
    have hrN : r < c.capacity := cdist_lt _ hs hj2
    have hhN : e.hash % c.capacity < c.capacity := Nat.mod_lt _ hN
    have hdN : dcoord c.capacity s e < c.capacity := cdist_lt _ hs hhN
    have hiid : c2.hashToIndex e.hash = cix c.capacity s (dcoord c.capacity s e) := by
      rw [hashToIndex, F.hcap, dcoord]
      exact (cix_cdist hs hhN).symm
    have hiidc : c.hashToIndex e.hash = cix c.capacity s (dcoord c.capacity s e) := by
      rw [hashToIndex, dcoord]
      exact (cix_cdist hs hhN).symm
    rw [hiid, ← hieq, ← hjeq, cdist_cix_cix hs hdN hrN, cdist_cix_cix hs hdN hvN] at hcond
    rcases hsplit j hj e he with ⟨hv, _, hd, _⟩ | ⟨hv, hc⟩
    · have hrange := (cdist_lt_iff hvN hrN hd).1 hcond
      rw [← hjeq]
      exact F.hoa2 v hv e (by rw [hieq]; exact he) r hrange.1 hrange.2
    · -- the entry sits outside the repaired region; its probe range cannot
      -- enter the region, because the region's end slot was empty before
      have hvL : L < v := by
        rcases Nat.eq_or_lt_of_le hv with h | h
        · exfalso
          have hvL2 : v = L := by rw [hvdef, ← h]
          rw [← hieq, hvL2, F.houtside L (le_refl L) (by omega), hcl.hend] at he
          exact Option.noConfusion he
        · exact h
      rcases Nat.lt_or_ge r L with hr | hr
      · exfalso
        have hcondL : cdist c.capacity (dcoord c.capacity s e) L <
            cdist c.capacity (dcoord c.capacity s e) v :=
          cdist_between (by omega) hvN hr hvL hcond
        refine hwf.hOA j e hj hc (cix c.capacity s L) (cix_lt hN s L) ?_ hcl.hend
        rw [hiidc, ← hieq, cdist_cix_cix hs hdN (by omega), cdist_cix_cix hs hdN hvN]
        exact hcondL
      · have h2 := hwf.hOA j e hj hc j2 hj2 (by
          rw [hiidc, ← hieq, ← hjeq, cdist_cix_cix hs hdN hrN, cdist_cix_cix hs hdN hvN]
          exact hcond)
        rw [← hjeq, F.houtside r hr hrN, hjeq]
        exact h2
  · rw [F.htime]; exact hwf.hTime

theorem slot_of_mem_entries {c : Cache} {e : Entry} (h : e ∈ c.entries) :
    ∃ j, j < c.table.length ∧ c.slot j = some e := by
  rw [entries, List.mem_filterMap] at h
  obtain ⟨o, ho, hoe⟩ := h
  obtain ⟨j, hj, hje⟩ := List.mem_iff_getElem.1 ho
  refine ⟨j, hj, ?_⟩
  rw [c.slot_eq_getElem hj, hje]
  exact hoe

theorem inTable_some {c : Cache} {k : Nat} {e : Entry}
    (h : c.inTable k = some e) :
    e.key = k ∧ ∃ j, j < c.table.length ∧ c.slot j = some e := by
  have h1 := List.find?_some h
  have h2 := List.mem_of_find?_eq_some h
  simp only [beq_iff_eq] at h1
  exact ⟨h1, slot_of_mem_entries h2⟩

theorem inTable_eq_none_iff {c : Cache} {k : Nat} :
    c.inTable k = none ↔ ∀ j e, c.slot j = some e → e.key ≠ k := by
  rw [inTable, List.find?_eq_none]
  constructor
  · intro h j e he
    have h2 := h e (mem_entries_of_slot he)
    simpa using h2
  · intro h e he
    obtain ⟨j, _, hj⟩ := slot_of_mem_entries he
    simpa using h j e hj

theorem inTable_of_slot {c : Cache} (hwf : WF c) {j : Nat} {e : Entry}
    (he : c.slot j = some e) : c.inTable e.key = some e := by
  rcases hfind : c.inTable e.key with _ | e2
  · rw [inTable_eq_none_iff] at hfind
    exact absurd rfl (hfind j e he)
  · obtain ⟨hk2, j2, hj2, he2⟩ := inTable_some hfind
    have hjN : j < c.capacity := lt_capacity_of_slot_ne_none hwf (by rw [he]; exact fun h => Option.noConfusion h)
    have hj2N : j2 < c.capacity := by rw [← hwf.hLen]; exact hj2
    by_cases hjj : j = j2
    · rw [hjj, he2] at he
      injection he with he
      rw [he]
    · exact absurd hk2 (hwf.hNodup j2 j hj2N hjN (fun h => hjj h.symm) e2 e he2 he)

theorem WF.fixCluster_WF {c : Cache} (hwf : WF c) (i : Nat) : WF (c.fixCluster i) := by
  rcases hi : c.slot i with _ | e
  · rw [fixCluster_empty hi]
    exact hwf
  · obtain ⟨s, L, hcl, _, F⟩ := fixCluster_spec hwf (by rw [hi]; exact fun h => Option.noConfusion h)
    exact WF_of_FixOut hwf hcl F

/-- fixCluster never invents entries: anything in the table afterwards was in
the table before, with identical fields. -/
theorem fixCluster_inTable_sub {c : Cache} (hwf : WF c) (i : Nat) {k : Nat} {e : Entry}
    (h : (c.fixCluster i).inTable k = some e) : c.inTable k = some e := by
  rcases hi : c.slot i with _ | e0
  · rw [fixCluster_empty hi] at h
    exact h
  · obtain ⟨s, L, hcl, _, F⟩ := fixCluster_spec hwf
      (by rw [hi]; exact fun hx => Option.noConfusion hx)
    obtain ⟨hk, j, hjlen, hj⟩ := inTable_some h
    have hjN : j < c.capacity := by
      rw [← hwf.hLen, ← F.hlen]
      exact hjlen
    have hjeq : cix c.capacity s (cdist c.capacity s j) = j :=
      cix_cdist hcl.hs hjN
    rcases Nat.lt_or_ge (cdist c.capacity s j) L with hv | hv
    · obtain ⟨_, _, w, _, _, hw⟩ := F.hin _ hv e (by rw [hjeq]; exact hj)
      rw [← hk]
      exact inTable_of_slot hwf hw
    · rw [← hjeq, F.houtside _ hv (cdist_lt _ hcl.hs hjN)] at hj
      rw [← hk]
      exact inTable_of_slot hwf hj

/-- fixCluster keeps every unexpired entry, wherever its cluster is. -/
theorem fixCluster_inTable_unexpired {c : Cache} (hwf : WF c) (i : Nat) {k : Nat} {e : Entry}
    (hk : c.inTable k = some e) (hunexp : c.currentTime < e.expireTime) :
    (c.fixCluster i).inTable k = some e := by
  rcases hi : c.slot i with _ | e0
  · rw [fixCluster_empty hi]
    exact hk
  · obtain ⟨s, L, hcl, _, F⟩ := fixCluster_spec hwf
      (by rw [hi]; exact fun hx => Option.noConfusion hx)
    have hwf2 := WF_of_FixOut hwf hcl F
    obtain ⟨hkk, j, hjlen, hj⟩ := inTable_some hk
    have hjN : j < c.capacity := by rw [← hwf.hLen]; exact hjlen
    have hjeq : cix c.capacity s (cdist c.capacity s j) = j :=
      cix_cdist hcl.hs hjN
    rcases Nat.lt_or_ge (cdist c.capacity s j) L with hv | hv
    · obtain ⟨v, _, _, hv2⟩ := F.hsurv _ hv e (by rw [hjeq]; exact hj) hunexp
      rw [← hkk]
      exact inTable_of_slot hwf2 hv2
    · rw [← hkk]
      refine inTable_of_slot hwf2 (j := j) ?_
      rw [← hjeq, F.houtside _ hv (cdist_lt _ hcl.hs hjN), hjeq]
      exact hj

/-- An occupied slot forces its ideal slot to be occupied too (via the
open-addressing invariant). -/
theorem ideal_nonempty_of_slot {c : Cache} (hwf : WF c) {j : Nat} {e : Entry}
    (hj : j < c.capacity) (he : c.slot j = some e) :
    c.slot (c.hashToIndex e.hash) ≠ none := by
  have hN : 0 < c.capacity := hwf.hCapPos
  have haN : c.hashToIndex e.hash < c.capacity := Nat.mod_lt _ hN
  by_cases hja : j = c.hashToIndex e.hash
  · rw [← hja, he]
    exact fun h => Option.noConfusion h
  · refine hwf.hOA j e hj he (c.hashToIndex e.hash) haN ?_
    rw [cdist_self]
    rcases Nat.eq_zero_or_pos (cdist c.capacity (c.hashToIndex e.hash) j) with h0 | h0
    · exfalso
      refine hja ?_
      rw [← cix_cdist haN hj, h0, cix_zero haN]
    · exact h0

/-- The entry of a key, when expired, sits inside the cluster of its ideal
slot, so fixCluster at the ideal slot removes it. -/
theorem fixCluster_removes_expired {c : Cache} (hwf : WF c) {k : Nat} {e : Entry}
    (hk : c.inTable k = some e) (hexp : e.expireTime ≤ c.currentTime) :
    (c.fixCluster (c.hashToIndex (c.hashFunction k))).inTable k = none := by
  obtain ⟨hkk, j, hjlen, hj⟩ := inTable_some hk
  have hjN : j < c.capacity := by rw [← hwf.hLen]; exact hjlen
  have hN : 0 < c.capacity := hwf.hCapPos
  have hhash : e.hash = c.hashFunction k := by
    rw [hwf.hHash j e hj, hkk]
  have hane : c.slot (c.hashToIndex (c.hashFunction k)) ≠ none := by
    rw [← hhash]
    exact ideal_nonempty_of_slot hwf hjN hj
  obtain ⟨s, L, hcl, hda, F⟩ := fixCluster_spec hwf hane
  have hwf2 := WF_of_FixOut hwf hcl F
  -- the coordinate of the key's slot is inside the cluster
  have haN : c.hashToIndex (c.hashFunction k) < c.capacity := Nat.mod_lt _ hN
  have hvL : cdist c.capacity s j < L := by
    by_contra hge
    push_neg at hge
    have hjeq : cix c.capacity s (cdist c.capacity s j) = j := cix_cdist hcl.hs hjN
    have hvne : cdist c.capacity s j ≠ L := by
      intro h
      rw [← hjeq, h, hcl.hend] at hj
      exact Option.noConfusion hj
    have hLv : L < cdist c.capacity s j := by omega
    -- the empty cluster-end slot would lie inside the probe range of j
    refine hwf.hOA j e hjN hj (cix c.capacity s L) (cix_lt hN s L) ?_ hcl.hend
    have hiid : c.hashToIndex e.hash =
        cix c.capacity s (cdist c.capacity s (c.hashToIndex e.hash)) :=
      (cix_cdist hcl.hs (Nat.mod_lt _ hN)).symm
    have hdN : cdist c.capacity s (c.hashToIndex e.hash) < c.capacity :=
      cdist_lt _ hcl.hs (Nat.mod_lt _ hN)
    have hdaL : cdist c.capacity s (c.hashToIndex e.hash) < L := by
      rw [hhash]
      exact hda
    have hvN : cdist c.capacity s j < c.capacity := cdist_lt _ hcl.hs hjN
    rw [hiid, ← hjeq, cdist_cix_cix hcl.hs hdN (by omega),
      cdist_cix_cix hcl.hs hdN hvN]
    have hLN := hcl.hLN
    exact (cdist_lt_iff hvN (by omega) (by omega)).2 ⟨by omega, hLv⟩
  -- now suppose the key were still present afterwards
  rcases hres : (c.fixCluster (c.hashToIndex (c.hashFunction k))).inTable k with _ | e2
  · rfl
  · exfalso
    have he2 : c.inTable k = some e2 := fixCluster_inTable_sub hwf _ hres
    rw [hk] at he2
    injection he2 with he2
    obtain ⟨hk2, j2, hj2len, hj2⟩ := inTable_some hres
    have hj2N : j2 < c.capacity := by
      rw [← hwf.hLen, ← F.hlen]
      exact hj2len
    have hj2eq : cix c.capacity s (cdist c.capacity s j2) = j2 := cix_cdist hcl.hs hj2N
    rcases Nat.lt_or_ge (cdist c.capacity s j2) L with hv2 | hv2
    · obtain ⟨hunexp, _, _⟩ := F.hin _ hv2 e2 (by rw [hj2eq]; exact hj2)
      rw [he2] at hexp
      omega
    · -- the entry would sit outside the cluster, but j is inside: two c slots
      -- with the same key
      rw [← hj2eq, F.houtside _ hv2 (cdist_lt _ hcl.hs hj2N), hj2eq] at hj2
      have hne : j ≠ j2 := by
        intro h
        rw [← h] at hv2
        omega
      exact hwf.hNodup j j2 hjN hj2N hne e e2 hj hj2 (by rw [hkk, hk2])

theorem isKeyAtIndex_true_iff {c : Cache} {k h i : Nat} {e : Entry}
    (hi : c.slot i = some e) :
    c.isKeyAtIndex k h i = true ↔ e.hash = h ∧ e.key = k := by
  unfold isKeyAtIndex
  rw [hi]
  simp

/-- findKey locates the slot of a stored key when probing with that key's
hash. -/
theorem findKey_found {c : Cache} (hwf : WF c) {k j : Nat} {e : Entry}
    (hj : j < c.capacity) (he : c.slot j = some e) (hek : e.key = k) :
    c.findKey k (c.hashFunction k) = j := by
  have hN : 0 < c.capacity := hwf.hCapPos
  have hhe : e.hash = c.hashFunction k := by rw [hwf.hHash j e he, hek]
  have haN : c.hashToIndex (c.hashFunction k) < c.capacity := Nat.mod_lt _ hN
  set a := c.hashToIndex (c.hashFunction k) with hadef
  have haeq : c.hashToIndex e.hash = a := by rw [hhe]
  have hDN : cdist c.capacity a j < c.capacity := cdist_lt _ haN hj
  have hgo : ∀ fuel t, t ≤ cdist c.capacity a j →
      cdist c.capacity a j - t < fuel →
      c.findKeyAux k (c.hashFunction k) (cix c.capacity a t) fuel = j := by
    intro fuel
    induction fuel with
    | zero => intro t _ h; omega
    | succ fuel ih =>
      intro t ht hfuel
      by_cases htD : t = cdist c.capacity a j
      · rw [htD, cix_cdist haN hj]
        rw [findKeyAux]
        rw [if_neg (by
          rw [c.isEmpty_eq_true_iff, he]
          exact fun hx => Option.noConfusion hx), if_pos ((isKeyAtIndex_true_iff he).2 ⟨hhe, hek⟩)]
      · have htD2 : t < cdist c.capacity a j := by omega
        have hxne : c.slot (cix c.capacity a t) ≠ none := by
          refine hwf.hOA j e hj he (cix c.capacity a t) (cix_lt hN a t) ?_
          rw [haeq, cdist_cix haN (by omega)]
          exact htD2
        rcases hx : c.slot (cix c.capacity a t) with _ | e2
        · exact absurd hx hxne
        have hxj : cix c.capacity a t ≠ j := by
          intro hc
          rw [← cix_cdist haN hj] at hc
          have := cix_inj haN (by omega) hDN hc
          omega
        have hkey2 : e2.key ≠ k := by
          intro hc
          exact hwf.hNodup _ j (cix_lt hN a t) hj hxj e2 e hx he (by rw [hc, hek])
        rw [findKeyAux]
        rw [if_neg (by
          rw [c.isEmpty_eq_true_iff, hx]
          exact fun hc => Option.noConfusion hc)]
        rw [if_neg (by
          rw [isKeyAtIndex_true_iff hx]
          rintro ⟨_, h2⟩
          exact hkey2 h2)]
        rw [show c.nextIndex (cix c.capacity a t) = cix c.capacity a (t + 1) from by
          rw [nextIndex, cix_succ]]
        exact ih (t + 1) (by omega) (by omega)
  have h0 := hgo c.capacity 0 (by omega) (by omega)
  rw [cix_zero haN] at h0
  exact h0

/-- findKey misses exactly like the source: probing for an absent key stops at
the first empty slot with invalidIndex. -/
theorem findKey_none {c : Cache} (hwf : WF c) {k h : Nat}
    (habs : ∀ j e, c.slot j = some e → e.key ≠ k) :
    c.findKey k h = c.invalidIndex := by
  have hN : 0 < c.capacity := hwf.hCapPos
  have haN : c.hashToIndex h < c.capacity := Nat.mod_lt _ hN
  set a := c.hashToIndex h with hadef
  have hPex : ∃ f, c.slot (cix c.capacity a f) = none := by
    obtain ⟨j, hjN, hjnone⟩ := hwf.exists_empty
    exact ⟨cdist c.capacity a j, by rw [cix_cdist haN hjN]; exact hjnone⟩
  set F := Nat.find hPex with hFdef
  have hFnone : c.slot (cix c.capacity a F) = none := Nat.find_spec hPex
  have hgo : ∀ fuel t, t ≤ F → F - t < fuel →
      c.findKeyAux k h (cix c.capacity a t) fuel = c.invalidIndex := by
    intro fuel
    induction fuel with
    | zero => intro t _ hf; omega
    | succ fuel ih =>
      intro t ht hfuel
      by_cases htF : t = F
      · rw [htF, findKeyAux, if_pos ((c.isEmpty_eq_true_iff _).2 hFnone)]
      · have htF2 : t < F := by omega
        have hxne : c.slot (cix c.capacity a t) ≠ none := Nat.find_min hPex htF2
        rcases hx : c.slot (cix c.capacity a t) with _ | e2
        · exact absurd hx hxne
        rw [findKeyAux]
        rw [if_neg (by
          rw [c.isEmpty_eq_true_iff, hx]
          exact fun hc => Option.noConfusion hc)]
        rw [if_neg (by
          rw [isKeyAtIndex_true_iff hx]
          rintro ⟨_, h2⟩
          exact habs _ e2 hx h2)]
        rw [show c.nextIndex (cix c.capacity a t) = cix c.capacity a (t + 1) from by
          rw [nextIndex, cix_succ]]
        exact ih (t + 1) (by omega) (by omega)
  have h0 := hgo c.capacity 0 (by omega) (by
    obtain ⟨j, hjN, hjnone⟩ := hwf.exists_empty
    have : F ≤ cdist c.capacity a j := Nat.find_min' hPex (by rw [cix_cdist haN hjN]; exact hjnone)
    have := cdist_lt c.capacity haN hjN
    omega)
  rw [cix_zero haN] at h0
  exact h0

/-- When findKey returns a valid index, that slot holds a matching entry. -/
theorem findKey_found_slot (c : Cache) {k h : Nat}
    (hne : c.findKey k h ≠ c.invalidIndex) :
    ∃ e, c.slot (c.findKey k h) = some e ∧ e.hash = h ∧ e.key = k := by
  have hgo : ∀ fuel i, c.findKeyAux k h i fuel = c.invalidIndex ∨
      ∃ e, c.slot (c.findKeyAux k h i fuel) = some e ∧ e.hash = h ∧ e.key = k := by
    intro fuel
    induction fuel with
    | zero => intro i; exact Or.inl rfl
    | succ fuel ih =>
      intro i
      rw [findKeyAux]
      by_cases hemp : c.isEmpty i = true
      · rw [if_pos hemp]
        exact Or.inl rfl
      · rw [if_neg hemp]
        rcases hx : c.slot i with _ | e2
        · exact absurd ((c.isEmpty_eq_true_iff i).2 hx) hemp
        by_cases hkey : c.isKeyAtIndex k h i = true
        · rw [if_pos hkey]
          obtain ⟨h1, h2⟩ := (isKeyAtIndex_true_iff hx).1 hkey
          exact Or.inr ⟨e2, hx, h1, h2⟩
        · rw [if_neg hkey]
          exact ih (c.nextIndex i)
  rcases hgo c.capacity (c.hashToIndex h) with hc | hc
  · exact absurd hc hne
  · exact hc

/-- nextEmpty finds the first empty slot in probe order. -/
theorem nextEmpty_spec {c : Cache} (hwf : WF c) {a : Nat} (haN : a < c.capacity) :
    ∃ f, f < c.capacity ∧ c.nextEmpty a = cix c.capacity a f ∧
      c.slot (cix c.capacity a f) = none ∧
      ∀ t, t < f → c.slot (cix c.capacity a t) ≠ none := by
  have hN : 0 < c.capacity := hwf.hCapPos
  have hPex : ∃ f, c.slot (cix c.capacity a f) = none := by
    obtain ⟨j, hjN, hjnone⟩ := hwf.exists_empty
    exact ⟨cdist c.capacity a j, by rw [cix_cdist haN hjN]; exact hjnone⟩
  set F := Nat.find hPex with hFdef
  have hFnone : c.slot (cix c.capacity a F) = none := Nat.find_spec hPex
  have hFN : F < c.capacity := by
    obtain ⟨j, hjN, hjnone⟩ := hwf.exists_empty
    have h1 : F ≤ cdist c.capacity a j := Nat.find_min' hPex (by rw [cix_cdist haN hjN]; exact hjnone)
    have := cdist_lt c.capacity haN hjN
    omega
  refine ⟨F, hFN, ?_, hFnone, fun t ht => Nat.find_min hPex ht⟩
  have hgo : ∀ fuel t, t ≤ F → F - t < fuel →
      c.nextEmptyAux (cix c.capacity a t) fuel = cix c.capacity a F := by
    intro fuel
    induction fuel with
    | zero => intro t _ hf; omega
    | succ fuel ih =>
      intro t ht hfuel
      by_cases htF : t = F
      · rw [htF, nextEmptyAux, if_pos ((c.isEmpty_eq_true_iff _).2 hFnone)]
      · have hxne : c.slot (cix c.capacity a t) ≠ none := Nat.find_min hPex (by omega)
        rw [nextEmptyAux, if_neg (by
          rw [c.isEmpty_eq_true_iff]
          exact hxne)]
        rw [show c.nextIndex (cix c.capacity a t) = cix c.capacity a (t + 1) from by
          rw [nextIndex, cix_succ]]
        exact ih (t + 1) (by omega) (by omega)
  have h0 := hgo c.capacity 0 (by omega) (by omega)
  rw [cix_zero haN] at h0
  exact h0

/-! Field bookkeeping for the remaining state transformers. -/

@[simp] theorem table_moveToNewest (c : Cache) (k : Nat) :
    (c.LRU_moveToNewest k).table = c.table := by
  unfold LRU_moveToNewest
  split <;> rfl

@[simp] theorem slot_moveToNewest (c : Cache) (k i : Nat) :
    (c.LRU_moveToNewest k).slot i = c.slot i := by
  unfold LRU_moveToNewest
  split <;> rfl

@[simp] theorem size_moveToNewest (c : Cache) (k : Nat) :
    (c.LRU_moveToNewest k).size = c.size := by
  unfold LRU_moveToNewest
  split <;> rfl

@[simp] theorem capacity_moveToNewest (c : Cache) (k : Nat) :
    (c.LRU_moveToNewest k).capacity = c.capacity := by
  unfold LRU_moveToNewest
  split <;> rfl

@[simp] theorem currentTime_moveToNewest (c : Cache) (k : Nat) :
    (c.LRU_moveToNewest k).currentTime = c.currentTime := by
  unfold LRU_moveToNewest
  split <;> rfl

@[simp] theorem hashFunction_moveToNewest (c : Cache) (k : Nat) :
    (c.LRU_moveToNewest k).hashFunction = c.hashFunction := by
  unfold LRU_moveToNewest
  split <;> rfl

@[simp] theorem maxLoadFactor_moveToNewest (c : Cache) (k : Nat) :
    (c.LRU_moveToNewest k).maxLoadFactor = c.maxLoadFactor := by
  unfold LRU_moveToNewest
  split <;> rfl

@[simp] theorem maxEntries_moveToNewest (c : Cache) (k : Nat) :
    (c.LRU_moveToNewest k).maxEntries = c.maxEntries := by
  unfold LRU_moveToNewest
  split <;> rfl

theorem lru_moveToNewest (c : Cache) (k : Nat) :
    (c.LRU_moveToNewest k).lru =
      if c.lru.getLast? = some k then c.lru else c.lru.erase k ++ [k] := by
  unfold LRU_moveToNewest
  split <;> simp_all [LRU_removeFromList, LRU_insertNewest]

theorem getLast_moveToNewest (c : Cache) (k : Nat) :
    (c.LRU_moveToNewest k).lru.getLast? = some k := by
  rw [lru_moveToNewest]
  split
  · assumption
  · rw [List.getLast?_append]
    rfl

/-- Two caches with the same table store the same entries under every key. -/
theorem inTable_eq_of_table {c c2 : Cache} (h : c2.table = c.table) (k : Nat) :
    c2.inTable k = c.inTable k := by
  unfold inTable entries
  rw [h]

theorem WF_setTime {c : Cache} (hwf : WF c) {t : Int} (ht : 0 ≤ t) :
    WF { c with currentTime := t } :=
  ⟨hwf.hLen, hwf.hCapPos, hwf.hMLF, hwf.hCap2, hwf.hLoad, hwf.hSize, hwf.hNodup,
   hwf.hLru, hwf.hHash, hwf.hOA, ht⟩

theorem WF_moveToNewest {c : Cache} (hwf : WF c) {k : Nat} (hk : k ∈ c.lru) :
    WF (c.LRU_moveToNewest k) := by
  unfold LRU_moveToNewest
  split
  · exact hwf
  · refine ⟨hwf.hLen, hwf.hCapPos, hwf.hMLF, hwf.hCap2, hwf.hLoad, hwf.hSize,
      hwf.hNodup, ?_, hwf.hHash, hwf.hOA, hwf.hTime⟩
    show (c.lru.erase k ++ [k]).Perm c.tableKeys
    refine List.Perm.trans List.perm_append_comm ?_
    exact List.Perm.trans (List.perm_cons_erase hk).symm hwf.hLru

/-- A key stored in the table is on the LRU list. -/
theorem mem_lru_of_inTable {c : Cache} (hwf : WF c) {k : Nat} {e : Entry}
    (hk : c.inTable k = some e) : k ∈ c.lru := by
  have h1 := List.mem_of_find?_eq_some hk
  have h2 := List.find?_some hk
  simp only [beq_iff_eq] at h2
  refine (hwf.hLru.mem_iff).2 ?_
  rw [tableKeys, List.mem_map]
  exact ⟨e, h1, h2⟩

theorem fixCluster_fields {c : Cache} (hwf : WF c) (i : Nat) :
    (c.fixCluster i).hashFunction = c.hashFunction ∧
    (c.fixCluster i).capacity = c.capacity ∧
    (c.fixCluster i).maxLoadFactor = c.maxLoadFactor ∧
    (c.fixCluster i).maxEntries = c.maxEntries ∧
    (c.fixCluster i).currentTime = c.currentTime ∧
    (c.fixCluster i).table.length = c.table.length ∧
    (c.fixCluster i).size ≤ c.size := by
  rcases hi : c.slot i with _ | e
  · rw [fixCluster_empty hi]
    exact ⟨rfl, rfl, rfl, rfl, rfl, rfl, le_refl _⟩
  · obtain ⟨s, L, hcl, _, F⟩ := fixCluster_spec hwf
      (by rw [hi]; exact fun h => Option.noConfusion h)
    refine ⟨F.hhf, F.hcap, F.hmlf, F.hme, F.htime, F.hlen, ?_⟩
    have := F.hsize
    omega

/-- fixCluster is the identity when its cluster holds no expired entry (the
firstRemovedIndex accumulator stays invalid and pass 2 is skipped). -/
theorem fixCluster_cluster_id {c : Cache} (hwf : WF c) {i s L : Nat}
    (hcl : ClusterAt c s L) (hiN : i < c.capacity)
    (hdi : cdist c.capacity s i < L)
    (hunexp : ∀ v, v < L → c.isExpired (cix c.capacity s v) = false) :
    c.fixCluster i = c := by
  have hN : 0 < c.capacity := hwf.hCapPos
  have hs := hcl.hs
  have hLN := hcl.hLN
  have hi : c.slot i ≠ none := by
    rw [← cix_cdist hs hiN]
    exact hcl.hocc _ hdi
  have hfcs : c.findClusterStart i = s := by
    have h1 := findClusterStart_eq hcl hdi
    rw [cix_cdist hs hiN] at h1
    exact h1
  have hemp : c.isEmpty i = false := (c.isEmpty_eq_false_iff i).2 hi
  have P := fixClusterPass1_go hN hs hLN c.capacity 0 c c.invalidIndex rfl
    (fun v _ hvL => hcl.hocc v hvL) hcl.hend hwf.hSize (by omega) (by omega)
  rw [cix_zero hs] at P
  have hfe : c.firstExpiredIn s 0 L = none := by
    unfold firstExpiredIn
    rw [List.find?_eq_none]
    intro v hv
    rw [List.mem_range'_1] at hv
    rw [hunexp v (by omega)]
    exact Bool.false_ne_true
  have hEnil : c.expiredEntriesIn s 0 L = [] := firstExpiredIn_eq_none_iff.1 hfe
  have hid : (fixClusterPass1 c s c.invalidIndex c.capacity).1 = c := P.hid hEnil
  have hfr : (fixClusterPass1 c s c.invalidIndex c.capacity).2.1 = c.invalidIndex := by
    rw [P.hfr, hfe]
    by_cases h : c.invalidIndex ≠ c.capacity <;> simp [h]
  rw [fixCluster, hfcs]
  simp only [hemp, Bool.false_eq_true, if_false]
  rw [if_pos hfr, hid]

/-- fixCluster is the identity on a cache with no expired entry anywhere. -/
theorem fixCluster_id_of_unexpired {c : Cache} (hwf : WF c) (i : Nat)
    (hall : ∀ j e, c.slot j = some e → c.currentTime < e.expireTime) :
    c.fixCluster i = c := by
  rcases hi : c.slot i with _ | e
  · exact fixCluster_empty hi
  · have hine : c.slot i ≠ none := by rw [hi]; exact fun h => Option.noConfusion h
    obtain ⟨s, L, hcl, hdi⟩ := cluster_exists hwf hine
    refine fixCluster_cluster_id hwf hcl (lt_capacity_of_slot_ne_none hwf hine) hdi ?_
    intro v _
    unfold isExpired
    rcases hsv : c.slot (cix c.capacity s v) with _ | e2
    · rfl
    · exact decide_eq_false (by have := hall _ _ hsv; omega)

/-- Calling fixCluster at the slot of an expired entry removes that entry. -/
theorem fixCluster_removes_expired_self {c : Cache} (hwf : WF c) {j : Nat} {e : Entry}
    (hj : c.slot j = some e) (hexp : e.expireTime ≤ c.currentTime) :
    (c.fixCluster j).inTable e.key = none := by
  have hjne : c.slot j ≠ none := by rw [hj]; exact fun h => Option.noConfusion h
  have hjN : j < c.capacity := lt_capacity_of_slot_ne_none hwf hjne
  obtain ⟨s, L, hcl, hvL, F⟩ := fixCluster_spec hwf hjne
  rcases hres : (c.fixCluster j).inTable e.key with _ | e2
  · rfl
  · exfalso
    have he2 : c.inTable e.key = some e2 := fixCluster_inTable_sub hwf _ hres
    rw [inTable_of_slot hwf hj] at he2
    injection he2 with he2
    obtain ⟨hk2, j2, hj2len, hj2⟩ := inTable_some hres
    have hj2N : j2 < c.capacity := by
      rw [← hwf.hLen, ← F.hlen]
      exact hj2len
    have hj2eq : cix c.capacity s (cdist c.capacity s j2) = j2 := cix_cdist hcl.hs hj2N
    rcases Nat.lt_or_ge (cdist c.capacity s j2) L with hv2 | hv2
    · obtain ⟨hunexp, _, _⟩ := F.hin _ hv2 e2 (by rw [hj2eq]; exact hj2)
      rw [he2] at hexp
      omega
    · rw [← hj2eq, F.houtside _ hv2 (cdist_lt _ hcl.hs hj2N), hj2eq] at hj2
      have hne : j ≠ j2 := by
        intro h
        rw [← h] at hv2
        omega
      exact hwf.hNodup j j2 hjN hj2N hne e e2 hj hj2 (by rw [hk2, he2])

theorem filterMap_eq_single {α β : Type} (f : α → Option β) :
    ∀ {l : List α} {a : α} {b : β}, l.Nodup → a ∈ l → f a = some b →
      (∀ x ∈ l, x ≠ a → f x = none) → l.filterMap f = [b] := by
  intro l
  induction l with
  | nil => intro a b _ ha; cases ha
  | cons x l ih =>
    intro a b hnd ha hfa hother
    rcases List.mem_cons.1 ha with rfl | ha2
    · rw [List.filterMap_cons, hfa]
      have hnil : l.filterMap f = [] := by
        rw [List.filterMap_eq_nil_iff]
        intro y hy
        exact hother y (List.mem_cons_of_mem _ hy)
          (fun h => (List.nodup_cons.1 hnd).1 (h ▸ hy))
      rw [hnil]
    · have hxa : x ≠ a := fun h => (List.nodup_cons.1 hnd).1 (h ▸ ha2)
      rw [List.filterMap_cons, hother x (List.mem_cons_self x l) hxa]
      exact ih (List.nodup_cons.1 hnd).2 ha2 hfa
        (fun y hy => hother y (List.mem_cons_of_mem _ hy))

/-- Exact effect of fixCluster when the entry at the call slot is the only
expired one: that entry alone is removed, from the table, the LRU list and the
count. -/
theorem fixCluster_single_expired {c : Cache} (hwf : WF c) {j : Nat} {e : Entry}
    (hj : c.slot j = some e) (hexp : e.expireTime ≤ c.currentTime)
    (hothers : ∀ j2 e2, c.slot j2 = some e2 → e2.key ≠ e.key →
      c.currentTime < e2.expireTime) :
    (c.fixCluster j).lru = c.lru.erase e.key ∧
    (c.fixCluster j).size + 1 = c.size := by
  have hjne : c.slot j ≠ none := by rw [hj]; exact fun h => Option.noConfusion h
  have hjN : j < c.capacity := lt_capacity_of_slot_ne_none hwf hjne
  have hN : 0 < c.capacity := hwf.hCapPos
  obtain ⟨s, L, hcl, hvL, F⟩ := fixCluster_spec hwf hjne
  have hjeq : cix c.capacity s (cdist c.capacity s j) = j := cix_cdist hcl.hs hjN
  have hsingle : c.expiredEntriesIn s 0 L = [e] := by
    unfold expiredEntriesIn
    rw [Nat.sub_zero]
    have hLN := hcl.hLN
    refine filterMap_eq_single _ (a := cdist c.capacity s j) ?_ ?_ ?_ ?_
    · exact List.nodup_range' 0 L
    · rw [List.mem_range'_1]
      omega
    · rw [hjeq, hj]
      show (if e.expireTime ≤ c.currentTime then some e else none) = some e
      rw [if_pos hexp]
    · intro v hv hvne
      rw [List.mem_range'_1] at hv
      rcases hsv : c.slot (cix c.capacity s v) with _ | e2
      · rfl
      · show (if e2.expireTime ≤ c.currentTime then some e2 else none) = none
        have hne : cix c.capacity s v ≠ j := by
          rw [← hjeq]
          intro hcontra
          exact hvne (cix_inj hcl.hs (by omega) (cdist_lt _ hcl.hs hjN) hcontra)
        have hkne : e2.key ≠ e.key :=
          hwf.hNodup _ j (cix_lt hN s v) hjN hne e2 e hsv hj
        have := hothers _ e2 hsv hkne
        rw [if_neg (by omega)]
  constructor
  · rw [F.hlru]
    unfold expiredKeysIn
    rw [hsingle]
    rfl
  · have h1 := F.hsize
    rw [hsingle] at h1
    simpa using h1

/-- Overwriting an occupied slot with an entry of the same key and hash (as
insert's in-place update and LRU_evictOldest's sentinel stamp do) preserves
well-formedness. -/
theorem WF_overwrite {c : Cache} (hwf : WF c) {j : Nat} {e e2 : Entry}
    (hj : c.slot j = some e) (hk : e2.key = e.key) (hh : e2.hash = e.hash) :
    WF (c.setSlot j (some e2)) := by
  have hjlen : j < c.table.length :=
    lt_length_of_slot_ne_none (by rw [hj]; exact fun h => Option.noConfusion h)
  have hjN : j < c.capacity := by rw [← hwf.hLen]; exact hjlen
  have hslotj : (c.setSlot j (some e2)).slot j = some e2 := c.slot_setSlot_self _ hjlen
  have hslot_ne : ∀ i, i ≠ j → (c.setSlot j (some e2)).slot i = c.slot i :=
    fun i hi => c.slot_setSlot_ne _ (fun h => hi h.symm)
  have hperm_old : c.entries.Perm (e :: (c.table.set j none).filterMap id) :=
    filterMap_set_none_perm c.table j e (by rw [getElem?_of_slot hjlen, hj])
  have hperm_new : (c.setSlot j (some e2)).entries.Perm
      (e2 :: (c.table.set j none).filterMap id) := by
    have h1 := filterMap_set_some_perm (c.table.set j none) j e2
      (by rw [List.getElem?_set_self (by simpa using hjlen)])
    rw [List.set_set] at h1
    exact h1
  have hlen2 : (c.setSlot j (some e2)).entries.length = c.entries.length := by
    rw [hperm_new.length_eq, hperm_old.length_eq]
    rfl
  refine ⟨by simpa using hwf.hLen, hwf.hCapPos, hwf.hMLF, hwf.hCap2, hwf.hLoad,
    ?_, ?_, ?_, ?_, ?_, hwf.hTime⟩
  · show c.size = _
    rw [hlen2]
    exact hwf.hSize
  · intro i1 i2 hi1 hi2 hne e3 e4 he3 he4
    by_cases h1 : i1 = j
    · subst h1
      rw [hslotj] at he3
      injection he3 with he3
      rw [hslot_ne i2 (fun h => hne h.symm)] at he4
      rw [← he3, hk]
      exact hwf.hNodup i1 i2 hi1 hi2 hne e e4 hj he4
    · rw [hslot_ne i1 h1] at he3
      by_cases h2 : i2 = j
      · subst h2
        rw [hslotj] at he4
        injection he4 with he4
        rw [← he4, hk]
        exact hwf.hNodup i1 i2 hi1 hi2 hne e3 e he3 hj
      · rw [hslot_ne i2 h2] at he4
        exact hwf.hNodup i1 i2 hi1 hi2 hne e3 e4 he3 he4
  · show c.lru.Perm _
    refine hwf.hLru.trans ?_
    show c.tableKeys.Perm (c.setSlot j (some e2)).tableKeys
    unfold tableKeys
    refine (hperm_old.map Entry.key).trans (List.Perm.trans ?_ (hperm_new.map Entry.key).symm)
    simp only [List.map_cons, hk]
    exact List.Perm.refl _
  · intro i e3 he3
    by_cases h1 : i = j
    · subst h1
      rw [hslotj] at he3
      injection he3 with he3
      rw [← he3, hh, hk]
      exact hwf.hHash i e hj
    · rw [hslot_ne i h1] at he3
      exact hwf.hHash i e3 he3
  · intro i e3 hi he3 j2 hj2 hcond
    have hne2 : (c.slot j2 ≠ none) → (c.setSlot j (some e2)).slot j2 ≠ none := by
      intro h
      by_cases h2 : j2 = j
      · rw [h2, hslotj]
        exact fun hx => Option.noConfusion hx
      · rw [hslot_ne j2 h2]
        exact h
    by_cases h1 : i = j
    · subst h1
      rw [hslotj] at he3
      injection he3 with he3
      rw [← he3, hh] at hcond
      exact hne2 (hwf.hOA i e hi hj j2 hj2 hcond)
    · rw [hslot_ne i h1] at he3
      exact hne2 (hwf.hOA i e3 hi he3 j2 hj2 hcond)

/-- The inTable view of a same-key slot overwrite. -/
theorem inTable_overwrite {c : Cache} (hwf : WF c) {j : Nat} {e e2 : Entry}
    (hj : c.slot j = some e) (hk : e2.key = e.key) (hh : e2.hash = e.hash) :
    (c.setSlot j (some e2)).inTable e.key = some e2 ∧
    ∀ k2, k2 ≠ e.key → (c.setSlot j (some e2)).inTable k2 = c.inTable k2 := by
  have hwf2 := WF_overwrite hwf hj hk hh
  have hjlen : j < c.table.length :=
    lt_length_of_slot_ne_none (by rw [hj]; exact fun h => Option.noConfusion h)
  have hslotj : (c.setSlot j (some e2)).slot j = some e2 := c.slot_setSlot_self _ hjlen
  have hslot_ne : ∀ i, i ≠ j → (c.setSlot j (some e2)).slot i = c.slot i :=
    fun i hi => c.slot_setSlot_ne _ (fun h => hi h.symm)
  constructor
  · have h1 := inTable_of_slot hwf2 hslotj
    rw [hk] at h1
    exact h1
  · intro k2 hk2
    rcases hold : c.inTable k2 with _ | e3
    · rw [inTable_eq_none_iff] at hold ⊢
      intro j4 e4 he4
      by_cases h4 : j4 = j
      · rw [h4, hslotj] at he4
        injection he4 with he4
        rw [← he4, hk]
        exact fun h => hk2 h.symm
      · rw [hslot_ne j4 h4] at he4
        exact hold j4 e4 he4
    · obtain ⟨hk3, j3, hj3len, hj3⟩ := inTable_some hold
      have hj3ne : j3 ≠ j := by
        intro h
        rw [h, hj] at hj3
        injection hj3 with hj3
        exact hk2 (by rw [← hk3, hj3])
      have h1 := inTable_of_slot hwf2 (by rw [hslot_ne j3 hj3ne]; exact hj3)
      rw [hk3] at h1
      exact h1

/-- The fresh-placement tail of insert: a new entry is written to
nextEmpty(idealIndex), appended at LRU-newest, and counted. -/
theorem insert_fresh_state {c : Cache} (hwf : WF c) {k v : Nat} {x : Int}
    {c2 : Cache} (hnotin : c.inTable k = none)
    (hload : (c.size : ℚ) + 1 ≤ c.maxLoadFactor * (c.capacity : ℚ))
    (hc2 : c2 = { (c.setSlot (c.nextEmpty (c.hashToIndex (c.hashFunction k)))
        (some ⟨k, v, c.hashFunction k, x⟩)).LRU_insertNewest k
        with size := c.size + 1 }) :
    WF c2 ∧ c2.inTable k = some ⟨k, v, c.hashFunction k, x⟩ ∧
    (∀ k2, k2 ≠ k → c2.inTable k2 = c.inTable k2) ∧
    c2.lru = c.lru ++ [k] ∧ c2.size = c.size + 1 ∧
    c2.currentTime = c.currentTime ∧ c2.hashFunction = c.hashFunction ∧
    c2.capacity = c.capacity ∧ c2.maxLoadFactor = c.maxLoadFactor ∧
    c2.maxEntries = c.maxEntries ∧
    (∀ j2 e2, c2.slot j2 = some e2 →
      e2 = ⟨k, v, c.hashFunction k, x⟩ ∨ ∃ j3, c.slot j3 = some e2) := by
  have hN : 0 < c.capacity := hwf.hCapPos
  have haN : c.hashToIndex (c.hashFunction k) < c.capacity := Nat.mod_lt _ hN
  obtain ⟨f, hfN, hne, hnone, hocc⟩ := nextEmpty_spec hwf haN
  set aI := c.hashToIndex (c.hashFunction k) with haI
  set i := c.nextEmpty aI with hi
  have hiN : i < c.capacity := by rw [hne]; exact cix_lt hN aI f
  have hilen : i < c.table.length := by rw [hwf.hLen]; exact hiN
  have hinone : c.slot i = none := by rw [hne]; exact hnone
  set E : Entry := ⟨k, v, c.hashFunction k, x⟩ with hE
  have hslotI : c2.slot i = some E := by
    rw [hc2]
    show (c.setSlot i (some E)).slot i = some E
    exact c.slot_setSlot_self _ hilen
  have hslots : ∀ j, j ≠ i → c2.slot j = c.slot j := by
    intro j hj
    rw [hc2]
    show (c.setSlot i (some E)).slot j = c.slot j
    exact c.slot_setSlot_ne _ (fun h => hj h.symm)
  have hkeys : ∀ j e3, c.slot j = some e3 → e3.key ≠ k := inTable_eq_none_iff.1 hnotin
  have hperm : c2.entries.Perm (E :: c.entries) := by
    have h1 := filterMap_set_some_perm c.table i E
      (by rw [getElem?_of_slot hilen, hinone])
    rw [hc2]
    exact h1
  have hne2 : ∀ j2, c.slot j2 ≠ none → c2.slot j2 ≠ none := by
    intro j2 h
    by_cases h2 : j2 = i
    · rw [h2, hslotI]
      exact fun hx => Option.noConfusion hx
    · rw [hslots j2 h2]
      exact h
  have hfields : c2.capacity = c.capacity ∧ c2.currentTime = c.currentTime ∧
      c2.hashFunction = c.hashFunction ∧ c2.maxLoadFactor = c.maxLoadFactor ∧
      c2.maxEntries = c.maxEntries ∧ c2.size = c.size + 1 ∧
      c2.lru = c.lru ++ [k] ∧ c2.table.length = c.table.length := by
    rw [hc2]
    refine ⟨rfl, rfl, rfl, rfl, rfl, rfl, rfl, ?_⟩
    show (c.table.set i (some E)).length = c.table.length
    simp
  obtain ⟨f1, f2, f3, f4, f5, f6, f7, f8⟩ := hfields
  have hwf2 : WF c2 := by
    refine ⟨by rw [f8, f1]; exact hwf.hLen, by rw [f1]; exact hN,
      by rw [f4]; exact hwf.hMLF, by rw [f4, f1]; exact hwf.hCap2,
      ?_, ?_, ?_, ?_, ?_, ?_, by rw [f2]; exact hwf.hTime⟩
    · rw [f6, f4, f1]
      push_cast
      linarith
    · rw [f6, hperm.length_eq, List.length_cons, hwf.hSize]
    · intro i1 i2 hi1 hi2 hne12 e3 e4 he3 he4
      rw [f1] at hi1 hi2
      by_cases h1 : i1 = i
      · rw [h1, hslotI] at he3
        injection he3 with he3
        rw [hslots i2 (by rw [← h1]; exact fun h => hne12 h.symm)] at he4
        rw [← he3]
        exact fun h => hkeys i2 e4 he4 h.symm
      · rw [hslots i1 h1] at he3
        by_cases h2 : i2 = i
        · rw [h2, hslotI] at he4
          injection he4 with he4
          rw [← he4]
          exact hkeys i1 e3 he3
        · rw [hslots i2 h2] at he4
          exact hwf.hNodup i1 i2 hi1 hi2 hne12 e3 e4 he3 he4
    · rw [f7]
      show (c.lru ++ [k]).Perm c2.tableKeys
      refine List.Perm.trans List.perm_append_comm ?_
      show (k :: c.lru).Perm c2.tableKeys
      refine List.Perm.trans (List.Perm.cons k hwf.hLru) ?_
      show (k :: c.tableKeys).Perm c2.tableKeys
      unfold tableKeys
      exact List.Perm.trans (List.Perm.refl _) (hperm.map Entry.key).symm
    · intro j e3 he3
      rw [f3]
      by_cases h1 : j = i
      · rw [h1, hslotI] at he3
        injection he3 with he3
        rw [← he3]
      · rw [hslots j h1] at he3
        exact hwf.hHash j e3 he3
    · intro j e3 hj he3 j2 hj2 hcond
      unfold hashToIndex at hcond
      rw [f1] at hj hj2 hcond
      have haIdef : aI = c.hashFunction k % c.capacity := rfl
      by_cases h1 : j = i
      · rw [h1, hslotI] at he3
        injection he3 with he3
        rw [← he3] at hcond
        refine hne2 j2 ?_
        have hfi : cdist c.capacity aI i = f := by rw [hne]; exact cdist_cix haN hfN
        have ht2 : cdist c.capacity aI j2 < f := by
          rw [← hfi, ← h1, haIdef]
          exact hcond
        have hj2eq : cix c.capacity aI (cdist c.capacity aI j2) = j2 := cix_cdist haN hj2
        rw [← hj2eq]
        exact hocc _ ht2
      · rw [hslots j h1] at he3
        exact hne2 j2 (hwf.hOA j e3 hj he3 j2 hj2 hcond)
  have hintk : c2.inTable k = some E := inTable_of_slot hwf2 hslotI
  refine ⟨hwf2, hintk, ?_, f7, f6, f2, f3, f1, f4, f5, ?_⟩
  · intro k2 hk2
    rcases hold : c.inTable k2 with _ | e3
    · rw [inTable_eq_none_iff] at hold ⊢
      intro j4 e4 he4
      by_cases h4 : j4 = i
      · rw [h4, hslotI] at he4
        injection he4 with he4
        rw [← he4]
        exact fun h => hk2 h.symm
      · rw [hslots j4 h4] at he4
        exact hold j4 e4 he4
    · obtain ⟨hk3, j3, hj3len, hj3⟩ := inTable_some hold
      have hj3ne : j3 ≠ i := by
        intro h
        rw [h, hinone] at hj3
        exact Option.noConfusion hj3
      have h1 := inTable_of_slot hwf2 (by rw [hslots j3 hj3ne]; exact hj3)
      rw [hk3] at h1
      exact h1
  · intro j2 e2 he2
    by_cases h2 : j2 = i
    · rw [h2, hslotI] at he2
      injection he2 with he2
      exact Or.inl he2.symm
    · rw [hslots j2 h2] at he2
      exact Or.inr ⟨j2, he2⟩

/-- What LRU_evictOldest does: the LRU-oldest key's slot is stamped with the
sentinel and reclaimed by fixCluster, so the oldest key disappears, no entry
appears, unexpired other entries survive, and the count drops; when every
other entry is unexpired, exactly the oldest is removed and the LRU list
loses exactly its head. -/
theorem evictOldest_spec {c : Cache} (hwf : WF c) {oldest : Nat} {rest : List Nat}
    (hlru : c.lru = oldest :: rest) :
    WF c.LRU_evictOldest ∧
    c.LRU_evictOldest.inTable oldest = none ∧
    (∀ k2 e2, c.LRU_evictOldest.inTable k2 = some e2 → c.inTable k2 = some e2) ∧
    (∀ k2 e2, k2 ≠ oldest → c.inTable k2 = some e2 → c.currentTime < e2.expireTime →
      c.LRU_evictOldest.inTable k2 = some e2) ∧
    c.LRU_evictOldest.size < c.size ∧
    c.LRU_evictOldest.currentTime = c.currentTime ∧
    c.LRU_evictOldest.hashFunction = c.hashFunction ∧
    c.LRU_evictOldest.capacity = c.capacity ∧
    c.LRU_evictOldest.maxLoadFactor = c.maxLoadFactor ∧
    c.LRU_evictOldest.maxEntries = c.maxEntries ∧
    ((∀ k2 e2, k2 ≠ oldest → c.inTable k2 = some e2 → c.currentTime < e2.expireTime) →
      c.LRU_evictOldest.lru = rest ∧ c.LRU_evictOldest.size + 1 = c.size) := by
  have hmem : oldest ∈ c.tableKeys := by
    refine hwf.hLru.mem_iff.1 ?_
    rw [hlru]
    exact List.mem_cons_self _ _
  rw [tableKeys, List.mem_map] at hmem
  obtain ⟨e0, he0mem, hkey0⟩ := hmem
  obtain ⟨j0, hj0len, hj0⟩ := slot_of_mem_entries he0mem
  have hj0N : j0 < c.capacity := by rw [← hwf.hLen]; exact hj0len
  have hfk : c.findKey oldest (c.hashFunction oldest) = j0 :=
    findKey_found hwf hj0N hj0 hkey0
  set eF : Entry := { e0 with expireTime := LRU_EVICTED_FLAG } with heF
  have hres : c.LRU_evictOldest = (c.setSlot j0 (some eF)).fixCluster j0 := by
    unfold LRU_evictOldest
    rw [hlru]
    simp only [List.head?_cons]
    rw [hfk, hj0]
  set cF := c.setSlot j0 (some eF) with hcF
  have hwfF : WF cF := WF_overwrite hwf hj0 rfl rfl
  have hslotF : cF.slot j0 = some eF := c.slot_setSlot_self _ hj0len
  have hslotF_ne : ∀ i, i ≠ j0 → cF.slot i = c.slot i :=
    fun i hi => c.slot_setSlot_ne _ (fun h => hi h.symm)
  have hFtime : cF.currentTime = c.currentTime := rfl
  have hexpF : eF.expireTime ≤ cF.currentTime := by
    rw [hFtime]
    have := hwf.hTime
    show LRU_EVICTED_FLAG ≤ c.currentTime
    unfold LRU_EVICTED_FLAG
    omega
  obtain ⟨hIF1, hIF2⟩ := inTable_overwrite hwf hj0 (rfl : eF.key = e0.key) rfl
  have hsub : ∀ k2 e2, c.LRU_evictOldest.inTable k2 = some e2 → c.inTable k2 = some e2 := by
    intro k2 e2 h2
    rw [hres] at h2
    have h3 := fixCluster_inTable_sub hwfF j0 h2
    by_cases hk2 : k2 = oldest
    · rw [hk2, ← hkey0, hIF1] at h3
      injection h3 with h3
      rw [← h3] at h2
      have h4 : (cF.fixCluster j0).inTable eF.key = none :=
        fixCluster_removes_expired_self hwfF hslotF hexpF
      rw [show eF.key = k2 from by rw [hk2, ← hkey0]] at h4
      rw [h2] at h4
      exact Option.noConfusion h4
    · rw [hIF2 k2 (by rw [hkey0]; exact hk2)] at h3
      exact h3
  have hgone : c.LRU_evictOldest.inTable oldest = none := by
    rw [hres]
    have h4 : (cF.fixCluster j0).inTable eF.key = none :=
      fixCluster_removes_expired_self hwfF hslotF hexpF
    rw [show eF.key = oldest from hkey0] at h4
    exact h4
  have hkeep : ∀ k2 e2, k2 ≠ oldest → c.inTable k2 = some e2 →
      c.currentTime < e2.expireTime → c.LRU_evictOldest.inTable k2 = some e2 := by
    intro k2 e2 hk2 h2 hunexp
    rw [hres]
    refine fixCluster_inTable_unexpired hwfF j0 ?_ ?_
    · rw [hIF2 k2 (by rw [hkey0]; exact hk2)]
      exact h2
    · rw [hFtime]
      exact hunexp
  obtain ⟨s, L, hcl, hdj, F⟩ := fixCluster_spec hwfF
    (i := j0) (by rw [hslotF]; exact fun h => Option.noConfusion h)
  have hcapF : cF.capacity = c.capacity := rfl
  have hmemExp : eF ∈ cF.expiredEntriesIn s 0 L := by
    unfold expiredEntriesIn
    rw [List.mem_filterMap]
    refine ⟨cdist cF.capacity s j0, ?_, ?_⟩
    · rw [List.mem_range'_1]
      constructor
      · omega
      · simpa using hdj
    · rw [cix_cdist hcl.hs (by rw [hcapF]; exact hj0N), hslotF]
      show (if eF.expireTime ≤ cF.currentTime then some eF else none) = some eF
      rw [if_pos hexpF]
  have hsizeF : cF.size = c.size := rfl
  have hsizelt : c.LRU_evictOldest.size < c.size := by
    have h1 := F.hsize
    have h2 : 0 < (cF.expiredEntriesIn s 0 L).length := List.length_pos.2 (by
      intro h
      rw [h] at hmemExp
      cases hmemExp)
    rw [hsizeF] at h1
    rw [hres]
    omega
  have hfieldsF := fixCluster_fields hwfF j0
  refine ⟨by rw [hres]; exact WF.fixCluster_WF hwfF j0, hgone, hsub, hkeep, hsizelt,
    by rw [hres]; rw [hfieldsF.2.2.2.2.1]; rfl,
    by rw [hres]; rw [hfieldsF.1]; rfl,
    by rw [hres]; rw [hfieldsF.2.1]; rfl,
    by rw [hres]; rw [hfieldsF.2.2.1]; rfl,
    by rw [hres]; rw [hfieldsF.2.2.2.1]; rfl, ?_⟩
  intro hall
  have hothersF : ∀ j2 e2, cF.slot j2 = some e2 → e2.key ≠ eF.key →
      cF.currentTime < e2.expireTime := by
    intro j2 e2 h2 hk2
    by_cases hj2 : j2 = j0
    · rw [hj2, hslotF] at h2
      injection h2 with h2
      exact absurd (by rw [h2]) hk2
    · rw [hslotF_ne j2 hj2] at h2
      rw [hFtime]
      refine hall e2.key e2 ?_ (inTable_of_slot hwf h2)
      rw [← hkey0]
      exact hk2
  obtain ⟨hlruF, hsizeF2⟩ := fixCluster_single_expired hwfF hslotF hexpF hothersF
  constructor
  · rw [hres, hlruF]
    show c.lru.erase e0.key = rest
    rw [hlru, hkey0, List.erase_cons_head]
  · rw [hres, hsizeF2]
    exact hsizeF

/-- How get unfolds on a valid timestamp: the clock advances, the ideal
cluster is purged, and the probe outcome decides between a miss and a hit
with an LRU touch. -/
theorem get_result {c : Cache} (hwf : WF c) {k : Nat} {t : Int} (ht : c.currentTime ≤ t) :
    ((({ c with currentTime := t } : Cache).fixCluster
        (c.hashToIndex (c.hashFunction k))).inTable k = none →
      c.get k t = Except.ok (none, ({ c with currentTime := t } : Cache).fixCluster
        (c.hashToIndex (c.hashFunction k)))) ∧
    (∀ e, (({ c with currentTime := t } : Cache).fixCluster
        (c.hashToIndex (c.hashFunction k))).inTable k = some e →
      c.get k t = Except.ok (some e.value,
        ((({ c with currentTime := t } : Cache).fixCluster
          (c.hashToIndex (c.hashFunction k))).LRU_moveToNewest k))) := by
  have hnotlt : ¬ t < c.currentTime := not_lt.2 ht
  set ct : Cache := { c with currentTime := t } with hct
  set cp := ct.fixCluster (c.hashToIndex (c.hashFunction k)) with hcp
  have hwfct : WF ct := WF_setTime hwf (le_trans hwf.hTime ht)
  have hwfcp : WF cp := hwfct.fixCluster_WF _
  have hhf : cp.hashFunction = c.hashFunction := by
    rw [hcp]
    exact (fixCluster_fields hwfct _).1
  have hunf : c.get k t = (match cp.slot (cp.findKey k (c.hashFunction k)) with
      | some e => Except.ok (some e.value, cp.LRU_moveToNewest e.key)
      | none => Except.ok (none, cp)) := by
    unfold get
    rw [if_neg hnotlt]
  constructor
  · intro hnone
    have hfind : cp.findKey k (c.hashFunction k) = cp.invalidIndex :=
      findKey_none hwfcp (inTable_eq_none_iff.1 hnone)
    have hslotnone : cp.slot cp.invalidIndex = none :=
      cp.slot_eq_none_of_ge (by rw [hwfcp.hLen]; exact le_refl _)
    rw [hunf, hfind, hslotnone]
  · intro e he
    obtain ⟨hek, j, hjlen, hj⟩ := inTable_some he
    have hjN : j < cp.capacity := by rw [← hwfcp.hLen]; exact hjlen
    have hfind : cp.findKey k (c.hashFunction k) = j := by
      rw [← hhf]
      exact findKey_found hwfcp hjN hj hek
    rw [hunf, hfind, hj]
    show Except.ok (some e.value, cp.LRU_moveToNewest e.key) = _
    rw [hek]

/-- The input/output relation of a successful get: the probed value is
exactly the stored, unexpired value; no entry appears, and unexpired entries
survive. -/
theorem get_ok {c : Cache} (hwf : WF c) (k : Nat) (t : Int) (ht : c.currentTime ≤ t) :
    ∃ res c2, c.get k t = Except.ok (res, c2) ∧ WF c2 ∧
      c2.currentTime = t ∧ c2.hashFunction = c.hashFunction ∧
      c2.capacity = c.capacity ∧ c2.maxLoadFactor = c.maxLoadFactor ∧
      c2.maxEntries = c.maxEntries ∧ c2.size ≤ c.size ∧
      res = (c.inTable k).bind (fun e => if t < e.expireTime then some e.value else none) ∧
      (∀ k2 e2, c2.inTable k2 = some e2 → c.inTable k2 = some e2) ∧
      (∀ k2 e2, c.inTable k2 = some e2 → t < e2.expireTime → c2.inTable k2 = some e2) ∧
      (∀ e, c.inTable k = some e → e.expireTime ≤ t → c2.inTable k = none) := by
  set ct : Cache := { c with currentTime := t } with hct
  set cp := ct.fixCluster (c.hashToIndex (c.hashFunction k)) with hcp
  have hwfct : WF ct := WF_setTime hwf (le_trans hwf.hTime ht)
  have hwfcp : WF cp := hwfct.fixCluster_WF _
  have hctint : ∀ k2, ct.inTable k2 = c.inTable k2 := fun _ => rfl
  have hcpfields := fixCluster_fields hwfct (c.hashToIndex (c.hashFunction k))
  have hcpf1 : cp.hashFunction = c.hashFunction := hcpfields.1
  have hcpf2 : cp.capacity = c.capacity := hcpfields.2.1
  have hcpf3 : cp.maxLoadFactor = c.maxLoadFactor := hcpfields.2.2.1
  have hcpf4 : cp.maxEntries = c.maxEntries := hcpfields.2.2.2.1
  have hcpf5 : cp.currentTime = t := hcpfields.2.2.2.2.1
  have hcpf6 : cp.size ≤ c.size := hcpfields.2.2.2.2.2.2
  have hsub : ∀ k2 e2, cp.inTable k2 = some e2 → c.inTable k2 = some e2 := by
    intro k2 e2 h
    rw [← hctint k2]
    exact fixCluster_inTable_sub hwfct _ h
  have hkeep : ∀ k2 e2, c.inTable k2 = some e2 → t < e2.expireTime →
      cp.inTable k2 = some e2 := by
    intro k2 e2 h hx
    exact fixCluster_inTable_unexpired hwfct _ (by rw [hctint]; exact h) hx
  obtain ⟨G1, G2⟩ := get_result hwf (k := k) ht
  rcases hint : c.inTable k with _ | e
  · have hcpnone : cp.inTable k = none := by
      rcases h2 : cp.inTable k with _ | e2
      · rfl
      · rw [hsub k e2 h2] at hint
        exact Option.noConfusion hint
    refine ⟨none, cp, G1 hcpnone, hwfcp, hcpf5, hcpf1, hcpf2, hcpf3, hcpf4, hcpf6,
      rfl, hsub, hkeep, ?_⟩
    intro e he
    exact Option.noConfusion he
  · by_cases hexp : t < e.expireTime
    · have hcpsome : cp.inTable k = some e := hkeep k e hint hexp
      have hmem : k ∈ cp.lru := mem_lru_of_inTable hwfcp hcpsome
      refine ⟨some e.value, cp.LRU_moveToNewest k, G2 e hcpsome,
        WF_moveToNewest hwfcp hmem, ?_, ?_, ?_, ?_, ?_, ?_, ?_, ?_, ?_, ?_⟩
      · rw [currentTime_moveToNewest]; exact hcpf5
      · rw [hashFunction_moveToNewest]; exact hcpf1
      · rw [capacity_moveToNewest]; exact hcpf2
      · rw [maxLoadFactor_moveToNewest]; exact hcpf3
      · rw [maxEntries_moveToNewest]; exact hcpf4
      · rw [size_moveToNewest]; exact hcpf6
      · show some e.value = if t < e.expireTime then some e.value else none
        rw [if_pos hexp]
      · intro k2 e2 h
        refine hsub k2 e2 ?_
        rw [← inTable_eq_of_table (table_moveToNewest cp k) k2]
        exact h
      · intro k2 e2 h hx
        rw [inTable_eq_of_table (table_moveToNewest cp k) k2]
        exact hkeep k2 e2 h hx
      · intro e2 he2 hx
        injection he2 with he2
        rw [← he2] at hx
        omega
    · have hexp2 : e.expireTime ≤ t := by omega
      have hcpnone : cp.inTable k = none := by
        have hconv : ct.hashToIndex (ct.hashFunction k) = c.hashToIndex (c.hashFunction k) := rfl
        have h1 := fixCluster_removes_expired hwfct (k := k) (e := e)
          (by rw [hctint]; exact hint) hexp2
        rw [hconv] at h1
        exact h1
      refine ⟨none, cp, G1 hcpnone, hwfcp, hcpf5, hcpf1, hcpf2, hcpf3, hcpf4, hcpf6,
        ?_, hsub, hkeep, fun _ _ _ => hcpnone⟩
      show none = if t < e.expireTime then some e.value else none
      rw [if_neg hexp]

/-- The input/output relation of a successful insert: the key ends up stored
with the new value and expiry t + ttl, and any other stored entry was already
stored before the call. -/
theorem insert_ok {c : Cache} (hwf : WF c) (k v : Nat) (t ttl : Int)
    (ht : c.currentTime ≤ t) (httl : 0 < ttl) :
    ∃ c2, c.insert k v t ttl = Except.ok c2 ∧ WF c2 ∧
      c2.currentTime = t ∧ c2.hashFunction = c.hashFunction ∧
      c2.capacity = c.capacity ∧ c2.maxLoadFactor = c.maxLoadFactor ∧
      c2.maxEntries = c.maxEntries ∧
      c2.inTable k = some ⟨k, v, c.hashFunction k, t + ttl⟩ ∧
      (∀ k2 e2, k2 ≠ k → c2.inTable k2 = some e2 → c.inTable k2 = some e2) := by
  have hnotlt : ¬ t < c.currentTime := not_lt.2 ht
  have hnotttl : ¬ ttl ≤ 0 := by omega
  set ct : Cache := { c with currentTime := t } with hct
  set cp := ct.fixCluster (c.hashToIndex (c.hashFunction k)) with hcp
  have hwfct : WF ct := WF_setTime hwf (le_trans hwf.hTime ht)
  have hwfcp : WF cp := hwfct.fixCluster_WF _
  have hctint : ∀ k2, ct.inTable k2 = c.inTable k2 := fun _ => rfl
  have hcpfields := fixCluster_fields hwfct (c.hashToIndex (c.hashFunction k))
  have hcpsub : ∀ k2 e2, cp.inTable k2 = some e2 → c.inTable k2 = some e2 := by
    intro k2 e2 h
    rw [← hctint k2]
    exact fixCluster_inTable_sub hwfct _ h
  set c3 := if (cp.size : ℚ) + 1 > cp.maxLoadFactor * (cp.capacity : ℚ)
    then cp.LRU_evictOldest else cp with hc3
  have H3 : WF c3 ∧ c3.currentTime = t ∧ c3.hashFunction = c.hashFunction ∧
      c3.capacity = c.capacity ∧ c3.maxLoadFactor = c.maxLoadFactor ∧
      c3.maxEntries = c.maxEntries ∧
      (∀ k2 e2, c3.inTable k2 = some e2 → c.inTable k2 = some e2) ∧
      (c3.size : ℚ) + 1 ≤ c3.maxLoadFactor * (c3.capacity : ℚ) := by
    by_cases hfull : (cp.size : ℚ) + 1 > cp.maxLoadFactor * (cp.capacity : ℚ)
    · rw [if_pos hfull] at hc3
      have hsz2 : 2 ≤ cp.size := by
        have h1 := hwfcp.hCap2
        have h2 : (1 : ℚ) < (cp.size : ℚ) := by linarith
        exact_mod_cast h2
      rcases hlru : cp.lru with _ | ⟨oldest, rest⟩
      · exfalso
        have h1 : cp.lru.length = cp.size := by
          rw [hwfcp.hLru.length_eq, tableKeys, List.length_map, hwfcp.hSize]
        rw [hlru] at h1
        simp at h1
        omega
      · obtain ⟨E1, _, E3, _, E5, E6, E7, E8, E9, E10, _⟩ := evictOldest_spec hwfcp hlru
        rw [hc3]
        refine ⟨E1, by rw [E6]; exact hcpfields.2.2.2.2.1, by rw [E7]; exact hcpfields.1,
          by rw [E8]; exact hcpfields.2.1, by rw [E9]; exact hcpfields.2.2.1,
          by rw [E10]; exact hcpfields.2.2.2.1,
          fun k2 e2 h => hcpsub k2 e2 (E3 k2 e2 h), ?_⟩
        rw [E9, E8]
        have h1 := hwfcp.hLoad
        have h2 : (cp.LRU_evictOldest.size : ℚ) + 1 ≤ (cp.size : ℚ) := by
          exact_mod_cast E5
        linarith
    · rw [if_neg hfull] at hc3
      rw [hc3]
      refine ⟨hwfcp, hcpfields.2.2.2.2.1, hcpfields.1, hcpfields.2.1,
        hcpfields.2.2.1, hcpfields.2.2.2.1, hcpsub, by linarith⟩
  obtain ⟨hwf3, h3time, h3hf, h3cap, h3mlf, h3me, h3sub, h3load⟩ := H3
  have hunf : c.insert k v t ttl =
      (match c3.slot (c3.findKey k (c.hashFunction k)) with
       | some e => Except.ok ((c3.LRU_moveToNewest e.key).setSlot
           (c3.findKey k (c.hashFunction k))
           (some { e with value := v, expireTime := t + ttl }))
       | none => Except.ok
           { (c3.setSlot (c3.nextEmpty (c.hashToIndex (c.hashFunction k)))
               (some ⟨k, v, c.hashFunction k, t + ttl⟩)).LRU_insertNewest k
             with size := c3.size + 1 }) := by
    unfold insert
    rw [if_neg hnotlt, if_neg hnotttl]
    rfl
  have hhfk : c3.hashFunction k = c.hashFunction k := by rw [h3hf]
  rcases hfind : c3.inTable k with _ | e
  · -- fresh placement
    have hfk0 : c3.findKey k (c.hashFunction k) = c3.invalidIndex := by
      rw [← hhfk]
      exact findKey_none hwf3 (inTable_eq_none_iff.1 hfind)
    have hslot0 : c3.slot c3.invalidIndex = none :=
      c3.slot_eq_none_of_ge (by rw [hwf3.hLen]; exact le_refl _)
    have hideal : c3.hashToIndex (c3.hashFunction k) = c.hashToIndex (c.hashFunction k) := by
      unfold hashToIndex
      rw [h3cap, hhfk]
    obtain ⟨W1, W2, W3, W4, W5, W6, W7, W8, W9, W10, _⟩ :=
      insert_fresh_state hwf3 (k := k) (v := v) (x := t + ttl) hfind h3load rfl
    rw [hideal, hhfk] at W1 W2 W3 W4 W5 W6 W7 W8 W9 W10
    refine ⟨_, by rw [hunf, hfk0, hslot0], W1, by rw [W6, h3time], by rw [W7, h3hf],
      by rw [W8, h3cap], by rw [W9, h3mlf], by rw [W10, h3me], W2, ?_⟩
    intro k2 e2 hk2 h2
    rw [W3 k2 hk2] at h2
    exact h3sub k2 e2 h2
  · -- in-place update
    obtain ⟨hek, j, hjlen, hj⟩ := inTable_some hfind
    have hjN : j < c3.capacity := by rw [← hwf3.hLen]; exact hjlen
    have hfk : c3.findKey k (c.hashFunction k) = j := by
      rw [← hhfk]
      exact findKey_found hwf3 hjN hj hek
    have hmemk : e.key ∈ c3.lru := by
      rw [hek]
      exact mem_lru_of_inTable hwf3 hfind
    have hwf4 : WF (c3.LRU_moveToNewest e.key) := WF_moveToNewest hwf3 hmemk
    have hj4 : (c3.LRU_moveToNewest e.key).slot j = some e := by
      rw [slot_moveToNewest]
      exact hj
    have hwfU : WF ((c3.LRU_moveToNewest e.key).setSlot j
        (some { e with value := v, expireTime := t + ttl })) :=
      WF_overwrite hwf4 hj4 rfl rfl
    obtain ⟨O1, O2⟩ := inTable_overwrite hwf4 hj4
      (rfl : ({ e with value := v, expireTime := t + ttl } : Entry).key = e.key) rfl
    have hhash : e.hash = c.hashFunction k := by
      rw [hwf3.hHash j e hj, hek, h3hf]
    refine ⟨_, by rw [hunf, hfk, hj], hwfU, ?_, ?_, ?_, ?_, ?_, ?_, ?_⟩
    · rw [currentTime_setSlot, currentTime_moveToNewest, h3time]
    · rw [hashFunction_setSlot, hashFunction_moveToNewest, h3hf]
    · rw [capacity_setSlot, capacity_moveToNewest, h3cap]
    · rw [maxLoadFactor_setSlot, maxLoadFactor_moveToNewest, h3mlf]
    · rw [maxEntries_setSlot, maxEntries_moveToNewest, h3me]
    · rw [← hek, O1]
      show some (Entry.mk e.key v e.hash (t + ttl)) = some (Entry.mk e.key v (c.hashFunction e.key) (t + ttl))
      rw [hhash, hek]
    · intro k2 e2 hk2 h2
      rw [O2 k2 (by rw [hek]; exact hk2),
        inTable_eq_of_table (table_moveToNewest c3 e.key) k2] at h2
      exact h3sub k2 e2 h2

/-- A sampling round of removeExpired only runs fixCluster on sampled
clusters: nothing appears, unexpired entries survive, and the clock and the
configuration stay put. -/
theorem sampleRound_spec : ∀ (stream : List Nat) (c : Cache) (sample : List Nat),
    WF c →
    WF (c.sampleRound sample stream).1 ∧
    (c.sampleRound sample stream).1.currentTime = c.currentTime ∧
    (c.sampleRound sample stream).1.hashFunction = c.hashFunction ∧
    (c.sampleRound sample stream).1.capacity = c.capacity ∧
    (c.sampleRound sample stream).1.maxLoadFactor = c.maxLoadFactor ∧
    (c.sampleRound sample stream).1.maxEntries = c.maxEntries ∧
    (∀ k e, (c.sampleRound sample stream).1.inTable k = some e →
      c.inTable k = some e) ∧
    (∀ k e, c.inTable k = some e → c.currentTime < e.expireTime →
      (c.sampleRound sample stream).1.inTable k = some e) := by
  intro stream
  induction stream with
  | nil =>
    intro c sample hwf
    exact ⟨hwf, rfl, rfl, rfl, rfl, rfl, fun _ _ h => h, fun _ _ h _ => h⟩
  | cons r rest ih =>
    intro c sample hwf
    rw [sampleRound]
    by_cases hlen : sample.length < MIN_SAMPLE_SIZE
    · rw [if_pos hlen]
      by_cases hemp : c.isEmpty (r % c.capacity) = true
      · rw [if_pos hemp]
        exact ih c sample hwf
      · rw [if_neg hemp]
        by_cases hmem : r % c.capacity ∈ sample
        · rw [if_pos hmem]
          exact ih c sample hwf
        · rw [if_neg hmem]
          have hwf2 := hwf.fixCluster_WF (r % c.capacity)
          have hfields := fixCluster_fields hwf (r % c.capacity)
          obtain ⟨I1, I2, I3, I4, I5, I6, I7, I8⟩ :=
            ih (c.fixCluster (r % c.capacity)) (sample ++ c.clusterIndices (r % c.capacity)) hwf2
          refine ⟨I1, by rw [I2, hfields.2.2.2.2.1], by rw [I3, hfields.1],
            by rw [I4, hfields.2.1], by rw [I5, hfields.2.2.1],
            by rw [I6, hfields.2.2.2.1], ?_, ?_⟩
          · intro k e h
            exact fixCluster_inTable_sub hwf _ (I7 k e h)
          · intro k e h hx
            refine I8 k e (fixCluster_inTable_unexpired hwf _ h hx) ?_
            rw [hfields.2.2.2.2.1]
            exact hx
    · rw [if_neg hlen]
      exact ⟨hwf, rfl, rfl, rfl, rfl, rfl, fun _ _ h => h, fun _ _ h _ => h⟩

/-- The sampling loop of removeExpired: same preservation clauses, plus the
early exit when the cache is too sparse or too small to sample. -/
theorem removeExpiredLoop_spec (tr : ℚ) : ∀ (fuel : Nat) (c : Cache) (stream : List Nat),
    WF c →
    WF (removeExpiredLoop tr c stream fuel) ∧
    (removeExpiredLoop tr c stream fuel).currentTime = c.currentTime ∧
    (removeExpiredLoop tr c stream fuel).hashFunction = c.hashFunction ∧
    (removeExpiredLoop tr c stream fuel).capacity = c.capacity ∧
    (removeExpiredLoop tr c stream fuel).maxLoadFactor = c.maxLoadFactor ∧
    (removeExpiredLoop tr c stream fuel).maxEntries = c.maxEntries ∧
    (∀ k e, (removeExpiredLoop tr c stream fuel).inTable k = some e →
      c.inTable k = some e) ∧
    (∀ k e, c.inTable k = some e → c.currentTime < e.expireTime →
      (removeExpiredLoop tr c stream fuel).inTable k = some e) ∧
    (c.loadFactor < MIN_LOAD_FACTOR ∨ c.size < MIN_SAMPLE_SIZE →
      removeExpiredLoop tr c stream fuel = c) := by
  intro fuel
  induction fuel with
  | zero =>
    intro c stream hwf
    exact ⟨hwf, rfl, rfl, rfl, rfl, rfl, fun _ _ h => h, fun _ _ h _ => h, fun _ => rfl⟩
  | succ fuel ih =>
    intro c stream hwf
    rw [removeExpiredLoop]
    by_cases h1 : c.loadFactor < MIN_LOAD_FACTOR
    · rw [if_pos h1]
      exact ⟨hwf, rfl, rfl, rfl, rfl, rfl, fun _ _ h => h, fun _ _ h _ => h, fun _ => rfl⟩
    · rw [if_neg h1]
      by_cases h2 : c.size < MIN_SAMPLE_SIZE
      · rw [if_pos h2]
        exact ⟨hwf, rfl, rfl, rfl, rfl, rfl, fun _ _ h => h, fun _ _ h _ => h, fun _ => rfl⟩
      · rw [if_neg h2]
        obtain ⟨S1, S2, S3, S4, S5, S6, S7, S8⟩ := sampleRound_spec stream c [] hwf
        have heq : (let beforeSize := c.size;
            let r2 := c.sampleRound [] stream;
            let expiredCount := beforeSize - r2.1.size;
            let expiredRatio := (expiredCount : ℚ) / (r2.2.1.length : ℚ);
            if expiredRatio ≤ tr then r2.1 else removeExpiredLoop tr r2.1 r2.2.2 fuel) =
            (if ((c.size - (c.sampleRound [] stream).1.size : Nat) : ℚ) /
                ((c.sampleRound [] stream).2.1.length : ℚ) ≤ tr
             then (c.sampleRound [] stream).1
             else removeExpiredLoop tr (c.sampleRound [] stream).1
               (c.sampleRound [] stream).2.2 fuel) := rfl
        rw [heq]
        by_cases h3 : ((c.size - (c.sampleRound [] stream).1.size : Nat) : ℚ) /
            ((c.sampleRound [] stream).2.1.length : ℚ) ≤ tr
        · rw [if_pos h3]
          exact ⟨S1, S2, S3, S4, S5, S6, S7, S8, fun h => absurd h (fun hc => hc.elim h1 h2)⟩
        · rw [if_neg h3]
          obtain ⟨I1, I2, I3, I4, I5, I6, I7, I8, _⟩ :=
            ih (c.sampleRound [] stream).1 (c.sampleRound [] stream).2.2 S1
          refine ⟨I1, by rw [I2, S2], by rw [I3, S3], by rw [I4, S4], by rw [I5, S5],
            by rw [I6, S6], ?_, ?_, fun h => absurd h (fun hc => hc.elim h1 h2)⟩
          · intro k e h
            exact S7 k e (I7 k e h)
          · intro k e h hx
            refine I8 k e (S8 k e h hx) ?_
            rw [S2]
            exact hx

/-- The input/output relation of a successful removeExpired: for every random
stream, only expired entries disappear, and the call is a pure clock update
when the early exits fire. -/
theorem removeExpired_ok {c : Cache} (hwf : WF c) (t : Int) (r : ℚ)
    (stream : List Nat) (fuel : Nat) (ht : c.currentTime ≤ t) (hr : minTarget ≤ r) :
    ∃ c2, c.removeExpired t r stream fuel = Except.ok c2 ∧ WF c2 ∧
      c2.currentTime = t ∧ c2.hashFunction = c.hashFunction ∧
      c2.capacity = c.capacity ∧ c2.maxLoadFactor = c.maxLoadFactor ∧
      c2.maxEntries = c.maxEntries ∧
      (∀ k e, c2.inTable k = some e → c.inTable k = some e) ∧
      (∀ k e, c.inTable k = some e → t < e.expireTime → c2.inTable k = some e) ∧
      (c.loadFactor < MIN_LOAD_FACTOR ∨ c.size < MIN_SAMPLE_SIZE →
        c2 = { c with currentTime := t }) := by
  have hnotlt : ¬ t < c.currentTime := not_lt.2 ht
  have hnotr : ¬ r < minTarget := not_lt.2 hr
  set ct : Cache := { c with currentTime := t } with hct
  have hwfct : WF ct := WF_setTime hwf (le_trans hwf.hTime ht)
  have hres : c.removeExpired t r stream fuel =
      Except.ok (removeExpiredLoop r ct stream fuel) := by
    unfold removeExpired
    rw [if_neg hnotlt, if_neg hnotr]
  obtain ⟨L1, L2, L3, L4, L5, L6, L7, L8, L9⟩ := removeExpiredLoop_spec r fuel ct stream hwfct
  refine ⟨removeExpiredLoop r ct stream fuel, hres, L1, L2, L3, L4, L5, L6, L7, L8, L9⟩

theorem filterMap_id_replicate_none {α : Type} :
    ∀ n : Nat, (List.replicate n (none : Option α)).filterMap id = []
  | 0 => rfl
  | n + 1 => by
    rw [List.replicate_succ, List.filterMap_cons]
    exact filterMap_id_replicate_none n

/-- A successfully constructed cache is well-formed, empty, and has capacity
ceil(maxEntries / maxLoadFactor). -/
theorem WF_new {maxE : Nat} {mlf : ℚ} {hf : Nat → Nat} {c : Cache}
    (h : Cache.new maxE mlf hf = Except.ok c) :
    WF c ∧ c.maxEntries = maxE ∧ c.maxLoadFactor = mlf ∧ c.hashFunction = hf ∧
    c.currentTime = 0 ∧ c.size = 0 ∧ c.lru = [] ∧
    c.capacity = (⌈(maxE : ℚ) / mlf⌉).toNat ∧ (∀ k, c.inTable k = none) := by
  unfold new at h
  split_ifs at h with h1 h2 h3
  case _ =>
    push_neg at h1 h2 h3
    injection h with h
    subst h
    set cap := (⌈(maxE : ℚ) / mlf⌉).toNat with hcap
    have hmlf_pos : (0 : ℚ) < mlf := lt_of_lt_of_le (by norm_num) h2
    have hmaxE_pos : (0 : ℚ) < (maxE : ℚ) := by
      have : (2 : ℚ) ≤ (maxE : ℚ) := by exact_mod_cast h3
      linarith
    have hdiv_pos : (0 : ℚ) < (maxE : ℚ) / mlf := div_pos hmaxE_pos hmlf_pos
    have hceil_pos : 0 < ⌈(maxE : ℚ) / mlf⌉ := Int.ceil_pos.2 hdiv_pos
    have hcapQ : (maxE : ℚ) / mlf ≤ (cap : ℚ) := by
      have h4 : ((cap : ℤ) : ℚ) = ((⌈(maxE : ℚ) / mlf⌉ : ℤ) : ℚ) := by
        rw [hcap, Int.toNat_of_nonneg (by omega)]
      push_cast at h4
      rw [h4]
      exact Int.le_ceil _
    have hcap2 : (2 : ℚ) ≤ mlf * (cap : ℚ) := by
      have hme : (2 : ℚ) ≤ (maxE : ℚ) := by exact_mod_cast h3
      have h4 : mlf * ((maxE : ℚ) / mlf) ≤ mlf * (cap : ℚ) :=
        mul_le_mul_of_nonneg_left hcapQ (le_of_lt hmlf_pos)
      rw [mul_div_cancel₀ _ (ne_of_gt hmlf_pos)] at h4
      linarith
    have hcap_pos : 0 < cap := by
      by_contra hc
      push_neg at hc
      interval_cases cap
      simp at hcap2
      linarith
    have hslot : ∀ i, ({ hashFunction := hf, maxEntries := maxE,
                         maxLoadFactor := mlf, capacity := cap, currentTime := 0,
                         table := List.replicate cap none,
                         lru := [], size := 0 } : Cache).slot i = none := by
      intro i
      unfold slot
      rcases Nat.lt_or_ge i cap with hi | hi
      · show (List.replicate cap (none : Option Entry)).getD i none = none
        rw [List.getD_eq_getElem?_getD, List.getElem?_replicate]
        split <;> rfl
      · show (List.replicate cap (none : Option Entry)).getD i none = none
        rw [List.getD_eq_getElem?_getD, List.getElem?_replicate]
        split <;> rfl
    have hentries : ({ hashFunction := hf, maxEntries := maxE,
                       maxLoadFactor := mlf, capacity := cap, currentTime := 0,
                       table := List.replicate cap none,
                       lru := [], size := 0 } : Cache).entries = [] := by
      unfold entries
      exact filterMap_id_replicate_none cap
    refine ⟨⟨by simp, hcap_pos, h1, hcap2, by positivity, by rw [hentries]; rfl,
      ?_, by rw [tableKeys, hentries]; exact List.Perm.refl _, ?_, ?_, le_refl 0⟩,
      rfl, rfl, rfl, rfl, rfl, rfl, rfl, ?_⟩
    · intro i j _ _ _ e1 e2 he1
      rw [hslot i] at he1
      exact absurd he1 (fun hx => Option.noConfusion hx)
    · intro i e he
      rw [hslot i] at he
      exact absurd he (fun hx => Option.noConfusion hx)
    · intro i e _ he
      rw [hslot i] at he
      exact absurd he (fun hx => Option.noConfusion hx)
    · intro k
      rw [inTable, hentries]
      rfl

end Cache

/-! Trace-level reasoning: how runOps decomposes, and the invariants it
preserves. -/

theorem runOps_cons_ins {c : Cache} {k v : Nat} {t ttl : Int} {rest : List Op}
    {c2 : Cache} (h : runOps c (Op.ins k v t ttl :: rest) = Except.ok c2) :
    ∃ c1, c.insert k v t ttl = Except.ok c1 ∧ runOps c1 rest = Except.ok c2 := by
  rw [runOps] at h
  rcases hins : c.insert k v t ttl with e | c1
  · rw [hins] at h
    exact absurd h (by simp [Bind.bind, Except.bind])
  · rw [hins] at h
    refine ⟨c1, rfl, ?_⟩
    simpa [Bind.bind, Except.bind] using h

theorem runOps_cons_read {c : Cache} {k : Nat} {t : Int} {rest : List Op}
    {c2 : Cache} (h : runOps c (Op.read k t :: rest) = Except.ok c2) :
    ∃ res c1, c.get k t = Except.ok (res, c1) ∧ runOps c1 rest = Except.ok c2 := by
  rw [runOps] at h
  rcases hget : c.get k t with e | p
  · rw [hget] at h
    exact absurd h (by simp [Bind.bind, Except.bind])
  · rw [hget] at h
    refine ⟨p.1, p.2, rfl, ?_⟩
    simpa [Bind.bind, Except.bind] using h

theorem runOps_cons_expire {c : Cache} {t : Int} {r : ℚ} {stream : List Nat}
    {fuel : Nat} {rest : List Op} {c2 : Cache}
    (h : runOps c (Op.expire t r stream fuel :: rest) = Except.ok c2) :
    ∃ c1, c.removeExpired t r stream fuel = Except.ok c1 ∧
      runOps c1 rest = Except.ok c2 := by
  rw [runOps] at h
  rcases hrem : c.removeExpired t r stream fuel with e | c1
  · rw [hrem] at h
    exact absurd h (by simp [Bind.bind, Except.bind])
  · rw [hrem] at h
    refine ⟨c1, rfl, ?_⟩
    simpa [Bind.bind, Except.bind] using h

/-- A successful insert implies its validation passed. -/
theorem insert_ok_valid {c : Cache} {k v : Nat} {t ttl : Int} {c1 : Cache}
    (h : c.insert k v t ttl = Except.ok c1) : c.currentTime ≤ t ∧ 0 < ttl := by
  constructor
  · by_contra hc
    push_neg at hc
    rw [Cache.insert, if_pos hc] at h
    exact Except.noConfusion h
  · by_contra hc
    push_neg at hc
    rw [Cache.insert] at h
    split_ifs at h with h1 h2

/-- A successful get implies its validation passed. -/
theorem get_ok_valid {c : Cache} {k : Nat} {t : Int} {p : Option Nat × Cache}
    (h : c.get k t = Except.ok p) : c.currentTime ≤ t := by
  by_contra hc
  push_neg at hc
  rw [Cache.get, if_pos hc] at h
  exact Except.noConfusion h

/-- A successful removeExpired implies its validation passed. -/
theorem removeExpired_ok_valid {c : Cache} {t : Int} {r : ℚ} {stream : List Nat}
    {fuel : Nat} {c1 : Cache}
    (h : c.removeExpired t r stream fuel = Except.ok c1) :
    c.currentTime ≤ t ∧ Cache.minTarget ≤ r := by
  constructor
  · by_contra hc
    push_neg at hc
    rw [Cache.removeExpired, if_pos hc] at h
    exact Except.noConfusion h
  · by_contra hc
    push_neg at hc
    rw [Cache.removeExpired] at h
    split_ifs at h with h1 h2

/-- Well-formedness and the configuration survive any successful trace. -/
theorem runOps_wf : ∀ (ops : List Op) (c c2 : Cache), Cache.WF c →
    runOps c ops = Except.ok c2 →
    Cache.WF c2 ∧ c2.hashFunction = c.hashFunction ∧ c2.capacity = c.capacity ∧
    c2.maxLoadFactor = c.maxLoadFactor ∧ c2.maxEntries = c.maxEntries := by
  intro ops
  induction ops with
  | nil =>
    intro c c2 hwf h
    rw [runOps] at h
    injection h with h
    subst h
    exact ⟨hwf, rfl, rfl, rfl, rfl⟩
  | cons op rest ih =>
    intro c c2 hwf h
    rcases op with ⟨k, v, t, ttl⟩ | ⟨k, t⟩ | ⟨t, r, stream, fuel⟩
    · obtain ⟨c1, hins, hrest⟩ := runOps_cons_ins h
      obtain ⟨ht, httl⟩ := insert_ok_valid hins
      obtain ⟨c1', hins', hwf1, _, hf1, cap1, mlf1, me1, _, _⟩ :=
        Cache.insert_ok hwf k v t ttl ht httl
      rw [hins] at hins'
      injection hins' with hins'
      subst hins'
      obtain ⟨W1, W2, W3, W4, W5⟩ := ih c1 c2 hwf1 hrest
      exact ⟨W1, by rw [W2, hf1], by rw [W3, cap1], by rw [W4, mlf1], by rw [W5, me1]⟩
    · obtain ⟨res, c1, hget, hrest⟩ := runOps_cons_read h
      have ht := get_ok_valid hget
      obtain ⟨res', c1', hget', hwf1, _, hf1, cap1, mlf1, me1, _, _, _, _, _⟩ :=
        Cache.get_ok hwf k t ht
      rw [hget] at hget'
      injection hget' with hget'
      have hc1 : c1 = c1' := congrArg Prod.snd hget'
      subst hc1
      obtain ⟨W1, W2, W3, W4, W5⟩ := ih c1 c2 hwf1 hrest
      exact ⟨W1, by rw [W2, hf1], by rw [W3, cap1], by rw [W4, mlf1], by rw [W5, me1]⟩
    · obtain ⟨c1, hrem, hrest⟩ := runOps_cons_expire h
      obtain ⟨ht, hr⟩ := removeExpired_ok_valid hrem
      obtain ⟨c1', hrem', hwf1, _, hf1, cap1, mlf1, me1, _, _, _⟩ :=
        Cache.removeExpired_ok hwf t r stream fuel ht hr
      rw [hrem] at hrem'
      injection hrem' with hrem'
      subst hrem'
      obtain ⟨W1, W2, W3, W4, W5⟩ := ih c1 c2 hwf1 hrest
      exact ⟨W1, by rw [W2, hf1], by rw [W3, cap1], by rw [W4, mlf1], by rw [W5, me1]⟩

/-- Each entry stored after a trace carries the value and expiry of the most
recent insert of its key (relative to a history accumulator for the starting
state). -/
theorem runOps_hist : ∀ (ops : List Op) (c c2 : Cache) (A : Nat → Option (Nat × Int)),
    Cache.WF c →
    (∀ k e, c.inTable k = some e → A k = some (e.value, e.expireTime)) →
    runOps c ops = Except.ok c2 →
    ∀ k e, c2.inTable k = some e →
      List.foldl lastInsertStep A ops k = some (e.value, e.expireTime) := by
  intro ops
  induction ops with
  | nil =>
    intro c c2 A hwf hA h k e he
    rw [runOps] at h
    injection h with h
    subst h
    exact hA k e he
  | cons op rest ih =>
    intro c c2 A hwf hA h k e he
    rcases op with ⟨kI, v, t, ttl⟩ | ⟨kR, t⟩ | ⟨t, r, stream, fuel⟩
    · obtain ⟨c1, hins, hrest⟩ := runOps_cons_ins h
      obtain ⟨ht, httl⟩ := insert_ok_valid hins
      obtain ⟨c1', hins', hwf1, _, _, _, _, _, hintk, hsub⟩ :=
        Cache.insert_ok hwf kI v t ttl ht httl
      rw [hins] at hins'
      injection hins' with hins'
      subst hins'
      rw [List.foldl_cons]
      refine ih c1 c2 (lastInsertStep A (Op.ins kI v t ttl)) hwf1 ?_ hrest k e he
      intro k2 e2 h2
      by_cases hk2 : k2 = kI
      · rw [hk2, hintk] at h2
        injection h2 with h2
        have h3 : e2.value = v ∧ e2.expireTime = t + ttl := by
          rw [← h2]
          exact ⟨rfl, rfl⟩
        show (if k2 = kI then some (v, t + ttl) else A k2) = some (e2.value, e2.expireTime)
        rw [if_pos hk2, h3.1, h3.2]
      · have h3 := hsub k2 e2 hk2 h2
        have h4 := hA k2 e2 h3
        show (if k2 = kI then some (v, t + ttl) else A k2) = some (e2.value, e2.expireTime)
        rw [if_neg hk2]
        exact h4
    · obtain ⟨res, c1, hget, hrest⟩ := runOps_cons_read h
      have ht := get_ok_valid hget
      obtain ⟨res', c1', hget', hwf1, _, _, _, _, _, _, _, hsub, _, _⟩ :=
        Cache.get_ok hwf kR t ht
      rw [hget] at hget'
      injection hget' with hget'
      have hc1 : c1 = c1' := congrArg Prod.snd hget'
      subst hc1
      rw [List.foldl_cons]
      exact ih c1 c2 A hwf1 (fun k2 e2 h2 => hA k2 e2 (hsub k2 e2 h2)) hrest k e he
    · obtain ⟨c1, hrem, hrest⟩ := runOps_cons_expire h
      obtain ⟨ht, hr⟩ := removeExpired_ok_valid hrem
      obtain ⟨c1', hrem', hwf1, _, _, _, _, _, hsub, _, _⟩ :=
        Cache.removeExpired_ok hwf t r stream fuel ht hr
      rw [hrem] at hrem'
      injection hrem' with hrem'
      subst hrem'
      rw [List.foldl_cons]
      exact ih c1 c2 A hwf1 (fun k2 e2 h2 => hA k2 e2 (hsub k2 e2 h2)) hrest k e he

/-- The simulation relation of the automated correctness test: the dummy
cache's clock agrees and its save-everything map extends the cache's live
entries with identical values and expiry times. -/
def Coupled (c : Cache) (d : DummyCache) : Prop :=
  c.currentTime = d.currentTime ∧
  ∀ k e, c.inTable k = some e → d.kvMap k = some (e.value, e.expireTime)

/-- Running the same insert/get trace on both caches keeps them coupled, and
the dummy cache never throws when the real cache does not. -/
theorem runBoth_coupled : ∀ (ops : List Op),
    (∀ t r s f, Op.expire t r s f ∉ ops) →
    ∀ (c c2 : Cache) (d : DummyCache), Cache.WF c → Coupled c d →
    runOps c ops = Except.ok c2 →
    ∃ d2, runDummy d ops = Except.ok d2 ∧ Cache.WF c2 ∧ Coupled c2 d2 := by
  intro ops
  induction ops with
  | nil =>
    intro _ c c2 d hwf hcpl h
    rw [runOps] at h
    injection h with h
    subst h
    exact ⟨d, rfl, hwf, hcpl⟩
  | cons op rest ih =>
    intro hpure c c2 d hwf hcpl h
    have hpure2 : ∀ t r s f, Op.expire t r s f ∉ rest :=
      fun t r s f hm => hpure t r s f (List.mem_cons_of_mem _ hm)
    rcases op with ⟨kI, v, t, ttl⟩ | ⟨kR, t⟩ | ⟨t, r, stream, fuel⟩
    · obtain ⟨c1, hins, hrest⟩ := runOps_cons_ins h
      obtain ⟨ht, httl⟩ := insert_ok_valid hins
      obtain ⟨c1', hins', hwf1, h1time, _, _, _, _, hintk, hsub⟩ :=
        Cache.insert_ok hwf kI v t ttl ht httl
      rw [hins] at hins'
      injection hins' with hins'
      subst hins'
      have hdnot : ¬ t < d.currentTime := by rw [← hcpl.1]; exact not_lt.2 ht
      have hdins : d.insert kI v t ttl = Except.ok { currentTime := t, kvMap := fun k2 => if k2 = kI then some (v, t + ttl) else d.kvMap k2 } := by
        unfold DummyCache.insert
        rw [if_neg hdnot, if_neg (by omega)]
      have hcpl1 : Coupled c1 { currentTime := t, kvMap := fun k2 => if k2 = kI then some (v, t + ttl) else d.kvMap k2 } := by
        refine ⟨by rw [h1time], ?_⟩
        intro k2 e2 h2
        by_cases hk2 : k2 = kI
        · subst hk2
          rw [hintk] at h2
          injection h2 with h2
          rw [← h2]
          show (if k2 = k2 then some (v, t + ttl) else d.kvMap k2) = _
          rw [if_pos rfl]
        · have h3 := hcpl.2 k2 e2 (hsub k2 e2 hk2 h2)
          show (if k2 = kI then some (v, t + ttl) else d.kvMap k2) = _
          rw [if_neg hk2]
          exact h3
      obtain ⟨d2, hd2, hwf2, hcpl2⟩ := ih hpure2 c1 c2 _ hwf1 hcpl1 hrest
      refine ⟨d2, ?_, hwf2, hcpl2⟩
      rw [runDummy, hdins]
      simpa [Bind.bind, Except.bind] using hd2
    · obtain ⟨res, c1, hget, hrest⟩ := runOps_cons_read h
      have ht := get_ok_valid hget
      obtain ⟨res', c1', hget', hwf1, h1time, _, _, _, _, _, _, hsub, _, herase⟩ :=
        Cache.get_ok hwf kR t ht
      rw [hget] at hget'
      injection hget' with hget'
      have hc1 : c1 = c1' := congrArg Prod.snd hget'
      subst hc1
      have hdnot : ¬ t < d.currentTime := by rw [← hcpl.1]; exact not_lt.2 ht
      have hdunf : d.get kR t = (match d.kvMap kR with
          | some ve => if ve.2 < t
              then Except.ok ((none : Option Nat), ({ currentTime := t, kvMap := fun k2 => if k2 = kR then none else d.kvMap k2 } : DummyCache))
              else Except.ok (some ve.1, { d with currentTime := t })
          | none => Except.ok ((none : Option Nat), { d with currentTime := t })) := by
        unfold DummyCache.get
        rw [if_neg hdnot]
      have hkvsub : ∀ k2 e2, c1.inTable k2 = some e2 →
          c.inTable k2 = some e2 ∧ d.kvMap k2 = some (e2.value, e2.expireTime) := by
        intro k2 e2 h2
        have h3 := hsub k2 e2 h2
        exact ⟨h3, hcpl.2 k2 e2 h3⟩
      rcases hkv : d.kvMap kR with _ | ve
      · have hd1 : d.get kR t = Except.ok ((none : Option Nat), { d with currentTime := t }) := by
          rw [hdunf, hkv]
        have hcpl1 : Coupled c1 { d with currentTime := t } := by
          refine ⟨by rw [h1time], ?_⟩
          intro k2 e2 h2
          exact (hkvsub k2 e2 h2).2
        obtain ⟨d2, hd2, hwf2, hcpl2⟩ := ih hpure2 c1 c2 _ hwf1 hcpl1 hrest
        refine ⟨d2, ?_, hwf2, hcpl2⟩
        rw [runDummy, hd1]
        simpa [Bind.bind, Except.bind] using hd2
      · by_cases hvexp : ve.2 < t
        · have hd1 : d.get kR t = Except.ok ((none : Option Nat), ({ currentTime := t, kvMap := fun k2 => if k2 = kR then none else d.kvMap k2 } : DummyCache)) := by
            rw [hdunf, hkv]
            show (if ve.2 < t then _ else _) = _
            rw [if_pos hvexp]
          have hcpl1 : Coupled c1 { currentTime := t, kvMap := fun k2 => if k2 = kR then none else d.kvMap k2 } := by
            refine ⟨by rw [h1time], ?_⟩
            intro k2 e2 h2
            by_cases hk2 : k2 = kR
            · exfalso
              subst hk2
              obtain ⟨h3, h4⟩ := hkvsub k2 e2 h2
              rw [hkv] at h4
              injection h4 with h4
              have hexp2 : e2.expireTime ≤ t := by
                rw [h4] at hvexp
                exact le_of_lt hvexp
              have h5 := herase e2 h3 hexp2
              rw [h2] at h5
              exact Option.noConfusion h5
            · show (if k2 = kR then none else d.kvMap k2) = _
              rw [if_neg hk2]
              exact (hkvsub k2 e2 h2).2
          obtain ⟨d2, hd2, hwf2, hcpl2⟩ := ih hpure2 c1 c2 _ hwf1 hcpl1 hrest
          refine ⟨d2, ?_, hwf2, hcpl2⟩
          rw [runDummy, hd1]
          simpa [Bind.bind, Except.bind] using hd2
        · have hd1 : d.get kR t = Except.ok (some ve.1, { d with currentTime := t }) := by
            rw [hdunf, hkv]
            show (if ve.2 < t then _ else _) = _
            rw [if_neg hvexp]
          have hcpl1 : Coupled c1 { d with currentTime := t } := by
            refine ⟨by rw [h1time], ?_⟩
            intro k2 e2 h2
            exact (hkvsub k2 e2 h2).2
          obtain ⟨d2, hd2, hwf2, hcpl2⟩ := ih hpure2 c1 c2 _ hwf1 hcpl1 hrest
          refine ⟨d2, ?_, hwf2, hcpl2⟩
          rw [runDummy, hd1]
          simpa [Bind.bind, Except.bind] using hd2
    · exact absurd (List.mem_cons_self (Op.expire t r stream fuel) rest)
        (hpure t r stream fuel)

namespace Cache

/-- Any cluster of a cache that is empty at the two boundary slots of an arc
[s, s+L) and meets the arc lies entirely inside it. -/
theorem cluster_arc_sub {c : Cache} {s L s2 L2 : Nat} (hcl2 : ClusterAt c s2 L2)
    (hs : s < c.capacity) (hLN : L < c.capacity)
    (hend : c.slot (cix c.capacity s L) = none)
    (hprev : c.slot (cix c.capacity s (c.capacity - 1)) = none)
    {d : Nat} (hd : d < L)
    (hd2 : cdist c.capacity s2 (cix c.capacity s d) < L2) :
    ∀ v2, v2 < L2 → cdist c.capacity s (cix c.capacity s2 v2) < L := by
  have hN : 0 < c.capacity := by omega
  have hs2 := hcl2.hs
  set N := c.capacity with hNdef
  have hwlt : ∀ v2, cdist N s (cix N s2 v2) < N :=
    fun v2 => cdist_lt N hs (cix_lt hN s2 v2)
  have hweq : ∀ v2, cix N s (cdist N s (cix N s2 v2)) = cix N s2 v2 :=
    fun v2 => cix_cdist hs (cix_lt hN s2 v2)
  have hrel : ∀ u, cdist N s (cix N s2 u) + 1 < N →
      cdist N s (cix N s2 (u + 1)) = cdist N s (cix N s2 u) + 1 := by
    intro u hu
    have h1 : cix N s (cdist N s (cix N s2 u) + 1) = cix N s2 (u + 1) := by
      rw [← cix_add N s (cdist N s (cix N s2 u)) 1, hweq u, cix_add]
    rw [← h1, cdist_cix hs hu]
  have hwB : ∀ u, cdist N s (cix N s2 u) = N - 1 → c.slot (cix N s2 u) = none := by
    intro u hu
    rw [← hweq u, hu]
    exact hprev
  have hwL : ∀ u, cdist N s (cix N s2 u) = L → c.slot (cix N s2 u) = none := by
    intro u hu
    rw [← hweq u, hu]
    exact hend
  set d2 := cdist N s2 (cix N s d) with hd2def
  have hdN : d < N := by omega
  have hwd2 : cdist N s (cix N s2 d2) = d := by
    rw [hd2def, cix_cdist hs2 (cix_lt hN s d), cdist_cix hs hdN]
  have hup : ∀ m, d2 + m < L2 → cdist N s (cix N s2 (d2 + m)) < L := by
    intro m
    induction m with
    | zero =>
      intro _
      rw [Nat.add_zero, hwd2]
      exact hd
    | succ m ih =>
      intro hm
      have h1 := ih (by omega)
      have h3 := hrel (d2 + m) (by omega)
      rw [show d2 + (m + 1) = (d2 + m) + 1 from rfl, h3]
      rcases Nat.lt_or_ge (cdist N s (cix N s2 (d2 + m)) + 1) L with h4 | h4
      · exact h4
      · exfalso
        have h5 : cdist N s (cix N s2 ((d2 + m) + 1)) = L := by
          rw [h3]
          omega
        exact hcl2.hocc ((d2 + m) + 1) (by omega) (hwL _ h5)
  have hdown : d2 < L2 → ∀ m, m ≤ d2 → cdist N s (cix N s2 (d2 - m)) < L := by
    intro hd2L m
    induction m with
    | zero =>
      intro _
      rw [Nat.sub_zero, hwd2]
      exact hd
    | succ m ih =>
      intro hm
      have h1 := ih (by omega)
      by_cases hB : cdist N s (cix N s2 (d2 - (m + 1))) = N - 1
      · exact absurd (hwB _ hB) (hcl2.hocc (d2 - (m + 1)) (by omega))
      · have hlt := hwlt (d2 - (m + 1))
        have h2 := hrel (d2 - (m + 1)) (by omega)
        rw [show d2 - (m + 1) + 1 = d2 - m from by omega] at h2
        omega
  intro v2 hv2
  rcases Nat.lt_or_ge v2 d2 with hv | hv
  · have h1 := hdown hd2 (d2 - v2) (by omega)
    rw [show d2 - (d2 - v2) = v2 from by omega] at h1
    exact h1
  · have h1 := hup (v2 - d2) (by rw [show d2 + (v2 - d2) = v2 from by omega]; exact hv2)
    rw [show d2 + (v2 - d2) = v2 from by omega] at h1
    exact h1

/-- Purging a cluster is idempotent: a second fixCluster at the same slot (on
any cache sharing the purged table and clock) changes nothing, because the
surviving cluster holds only unexpired entries. -/
theorem fixCluster_again_id {c c2 : Cache} (hwf : WF c) (hwf2 : WF c2) {i : Nat}
    (hiN : i < c.capacity)
    (htab : c2.table = (c.fixCluster i).table)
    (htime : c2.currentTime = (c.fixCluster i).currentTime) :
    c2.fixCluster i = c2 := by
  have hfields := fixCluster_fields hwf i
  have hcap2 : c2.capacity = c.capacity := by
    rw [← hwf2.hLen, htab, hfields.2.2.2.2.2.1, hwf.hLen]
  have hslot2 : ∀ j, c2.slot j = (c.fixCluster i).slot j := by
    intro j
    unfold slot
    rw [htab]
  rcases h0 : c2.slot i with _ | e0
  · exact fixCluster_empty h0
  · have hine2 : c2.slot i ≠ none := by rw [h0]; exact fun h => Option.noConfusion h
    obtain ⟨s2, L2, hcl2, hdi2⟩ := cluster_exists hwf2 hine2
    rcases hci : c.slot i with _ | ec
    · exfalso
      have h1 := hslot2 i
      rw [fixCluster_empty hci, hci, h0] at h1
      exact Option.noConfusion h1
    · have hcine : c.slot i ≠ none := by rw [hci]; exact fun h => Option.noConfusion h
      obtain ⟨s, L, hcl, hdi, F⟩ := fixCluster_spec hwf hcine
      have hsN2 : s < c2.capacity := by rw [hcap2]; exact hcl.hs
      have hLN2 : L < c2.capacity := by rw [hcap2]; exact hcl.hLN
      have hcixconv : ∀ u, cix c2.capacity s u = cix c.capacity s u := by
        intro u
        rw [hcap2]
      have hend2 : c2.slot (cix c2.capacity s L) = none := by
        rw [hcixconv, hslot2, F.houtside L (le_refl L) hcl.hLN]
        exact hcl.hend
      have hprev2 : c2.slot (cix c2.capacity s (c2.capacity - 1)) = none := by
        rw [hcap2, hslot2, F.houtside (c.capacity - 1) (by have := hcl.hLN; omega)
          (by have := hwf.hCapPos; omega)]
        exact hcl.hprev
      have hdval : cdist c2.capacity s i < L := by
        rw [hcap2]
        exact hdi
      have hd2 : cdist c2.capacity s2 (cix c2.capacity s (cdist c2.capacity s i)) < L2 := by
        rw [cix_cdist hsN2 (by rw [hcap2]; exact hiN)]
        exact hdi2
      have harc := cluster_arc_sub (c := c2) hcl2 hsN2 hLN2 hend2 hprev2 hdval hd2
      refine fixCluster_cluster_id hwf2 hcl2 (by rw [hcap2]; exact hiN) hdi2 ?_
      intro v2 hv2
      have hw := harc v2 hv2
      unfold isExpired
      rcases hx : c2.slot (cix c2.capacity s2 v2) with _ | e3
      · rfl
      · have hxeq : cix c2.capacity s2 v2 =
            cix c.capacity s (cdist c2.capacity s (cix c2.capacity s2 v2)) := by
          rw [← hcixconv, cix_cdist hsN2 (cix_lt (by rw [hcap2]; exact hwf.hCapPos) s2 v2)]
        rw [hxeq, hslot2] at hx
        have hw2 : cdist c2.capacity s (cix c2.capacity s2 v2) < L := hw
        obtain ⟨hunexp, _, _⟩ := F.hin _ hw2 e3 hx
        have ht2 : c2.currentTime = c.currentTime := by rw [htime, F.htime]
        rw [ht2]
        exact decide_eq_false (by omega)

/-- When no stored entry is expired at the call time, get's purge is the
identity. -/
theorem purge_id_of_unexpired {c : Cache} (hwf : WF c) {t : Int} (ht : c.currentTime ≤ t)
    (hall : ∀ k2 e, c.inTable k2 = some e → t < e.expireTime) (idx : Nat) :
    ({ c with currentTime := t } : Cache).fixCluster idx = { c with currentTime := t } := by
  refine fixCluster_id_of_unexpired (WF_setTime hwf (le_trans hwf.hTime ht)) idx ?_
  intro j e hj
  have h2 : c.inTable e.key = some e := inTable_of_slot hwf hj
  exact hall e.key e h2

/-- get on a cache with no expired entries: exact result and state. -/
theorem get_unexpired_state {c : Cache} (hwf : WF c) {k : Nat} {t : Int}
    (ht : c.currentTime ≤ t)
    (hall : ∀ k2 e, c.inTable k2 = some e → t < e.expireTime) :
    (c.inTable k = none →
      c.get k t = Except.ok (none, ({ c with currentTime := t } : Cache))) ∧
    (∀ e, c.inTable k = some e →
      c.get k t = Except.ok (some e.value,
        ({ c with currentTime := t } : Cache).LRU_moveToNewest k)) := by
  obtain ⟨G1, G2⟩ := get_result hwf (k := k) ht
  have hpurge := purge_id_of_unexpired hwf ht hall (c.hashToIndex (c.hashFunction k))
  rw [hpurge] at G1 G2
  constructor
  · intro hnone
    exact G1 hnone
  · intro e he
    exact G2 e he

/-- insert of an absent key with room and no expired entries: a pure fresh
append. -/
theorem insert_fresh_unexpired {c : Cache} (hwf : WF c) {k v : Nat} {t ttl : Int}
    (ht : c.currentTime ≤ t) (httl : 0 < ttl)
    (hall : ∀ k2 e, c.inTable k2 = some e → t < e.expireTime)
    (hnotin : c.inTable k = none)
    (hroom : (c.size : ℚ) + 1 ≤ c.maxLoadFactor * (c.capacity : ℚ)) :
    ∃ c2, c.insert k v t ttl = Except.ok c2 ∧ WF c2 ∧
      c2.lru = c.lru ++ [k] ∧ c2.size = c.size + 1 ∧ c2.currentTime = t ∧
      c2.inTable k = some ⟨k, v, c.hashFunction k, t + ttl⟩ ∧
      (∀ k2, k2 ≠ k → c2.inTable k2 = c.inTable k2) ∧
      c2.hashFunction = c.hashFunction ∧ c2.capacity = c.capacity ∧
      c2.maxLoadFactor = c.maxLoadFactor ∧ c2.maxEntries = c.maxEntries := by
  have hnotlt : ¬ t < c.currentTime := not_lt.2 ht
  have hnotttl : ¬ ttl ≤ 0 := by omega
  set ct : Cache := { c with currentTime := t } with hct
  have hwfct : WF ct := WF_setTime hwf (le_trans hwf.hTime ht)
  set cp := ct.fixCluster (c.hashToIndex (c.hashFunction k)) with hcp
  set c3 := if (cp.size : ℚ) + 1 > cp.maxLoadFactor * (cp.capacity : ℚ)
    then cp.LRU_evictOldest else cp with hc3
  have hcpct : cp = ct := by
    rw [hcp]
    exact purge_id_of_unexpired hwf ht hall _
  have hcond : ¬ ((ct.size : ℚ) + 1 > ct.maxLoadFactor * (ct.capacity : ℚ)) := by
    show ¬ ((c.size : ℚ) + 1 > c.maxLoadFactor * (c.capacity : ℚ))
    exact not_lt.2 hroom
  have hc3ct : c3 = ct := by
    rw [hc3, hcpct, if_neg hcond]
  have hctin : ∀ k2, ct.inTable k2 = c.inTable k2 := fun _ => rfl
  have hfk0 : ct.findKey k (c.hashFunction k) = ct.invalidIndex :=
    findKey_none hwfct (inTable_eq_none_iff.1 hnotin)
  have hslot0 : ct.slot ct.invalidIndex = none :=
    ct.slot_eq_none_of_ge (by rw [hwfct.hLen]; exact le_refl _)
  have hunf : c.insert k v t ttl =
      (match c3.slot (c3.findKey k (c.hashFunction k)) with
       | some e => Except.ok ((c3.LRU_moveToNewest e.key).setSlot
           (c3.findKey k (c.hashFunction k))
           (some { e with value := v, expireTime := t + ttl }))
       | none => Except.ok
           { (c3.setSlot (c3.nextEmpty (c.hashToIndex (c.hashFunction k)))
               (some ⟨k, v, c.hashFunction k, t + ttl⟩)).LRU_insertNewest k
             with size := c3.size + 1 }) := by
    unfold insert
    rw [if_neg hnotlt, if_neg hnotttl]
    rfl
  rw [hc3ct, hfk0, hslot0] at hunf
  obtain ⟨W1, W2, W3, W4, W5, W6, W7, W8, W9, W10, _⟩ :=
    insert_fresh_state hwfct (k := k) (v := v) (x := t + ttl) hnotin hroom rfl
  exact ⟨_, hunf.trans rfl, W1, W4, W5, W6, W2, W3, W7, W8, W9, W10⟩

/-- insert at the load bound with no expired entries, where the key is absent
or is itself the LRU-oldest: the oldest entry is evicted and the key is placed
fresh; the size is unchanged. -/
theorem insert_evict_fresh {c : Cache} (hwf : WF c) {k v : Nat} {t ttl : Int}
    {oldest : Nat} {rest : List Nat}
    (ht : c.currentTime ≤ t) (httl : 0 < ttl)
    (hall : ∀ k2 e, c.inTable k2 = some e → t < e.expireTime)
    (hlru : c.lru = oldest :: rest)
    (hfull : (c.size : ℚ) + 1 > c.maxLoadFactor * (c.capacity : ℚ))
    (hor : c.inTable k = none ∨ oldest = k) :
    ∃ c2, c.insert k v t ttl = Except.ok c2 ∧ WF c2 ∧
      c2.lru = rest ++ [k] ∧ c2.size = c.size ∧ c2.currentTime = t ∧
      c2.inTable k = some ⟨k, v, c.hashFunction k, t + ttl⟩ ∧
      (oldest ≠ k → c2.inTable oldest = none) ∧
      (∀ k2, k2 ≠ k → k2 ≠ oldest → c2.inTable k2 = c.inTable k2) ∧
      c2.hashFunction = c.hashFunction ∧ c2.capacity = c.capacity ∧
      c2.maxLoadFactor = c.maxLoadFactor ∧ c2.maxEntries = c.maxEntries := by
  have hnotlt : ¬ t < c.currentTime := not_lt.2 ht
  have hnotttl : ¬ ttl ≤ 0 := by omega
  set ct : Cache := { c with currentTime := t } with hct
  have hwfct : WF ct := WF_setTime hwf (le_trans hwf.hTime ht)
  set cp := ct.fixCluster (c.hashToIndex (c.hashFunction k)) with hcp
  set c3 := if (cp.size : ℚ) + 1 > cp.maxLoadFactor * (cp.capacity : ℚ)
    then cp.LRU_evictOldest else cp with hc3
  have hcpct : cp = ct := by
    rw [hcp]
    exact purge_id_of_unexpired hwf ht hall _
  have hcond : (ct.size : ℚ) + 1 > ct.maxLoadFactor * (ct.capacity : ℚ) := hfull
  have hc3E : c3 = ct.LRU_evictOldest := by
    rw [hc3, hcpct, if_pos hcond]
  obtain ⟨E1, E2, E3, E4, E5, E6, E7, E8, E9, E10, E11⟩ :=
    evictOldest_spec hwfct hlru
  obtain ⟨hlru3, hsize3⟩ := E11 (fun k2 e2 _ h2 => hall k2 e2 h2)
  have hhfk3 : ct.LRU_evictOldest.hashFunction k = c.hashFunction k :=
    congrFun (E7.trans rfl) k
  have hcap3 : ct.LRU_evictOldest.capacity = c.capacity := E8.trans rfl
  have hn3 : ct.LRU_evictOldest.inTable k = none := by
    rcases hor with hnone | hok
    · rcases h3 : ct.LRU_evictOldest.inTable k with _ | e3
      · rfl
      · have h4 := E3 k e3 h3
        rw [show ct.inTable k = c.inTable k from rfl, hnone] at h4
        exact Option.noConfusion h4
    · rw [← hok]
      exact E2
  have hfk0 : ct.LRU_evictOldest.findKey k (c.hashFunction k) =
      ct.LRU_evictOldest.invalidIndex := by
    rw [← hhfk3]
    exact findKey_none E1 (inTable_eq_none_iff.1 hn3)
  have hslot0 : ct.LRU_evictOldest.slot ct.LRU_evictOldest.invalidIndex = none :=
    slot_eq_none_of_ge _ (by rw [E1.hLen]; exact le_refl _)
  have hload3 : (ct.LRU_evictOldest.size : ℚ) + 1 ≤
      ct.LRU_evictOldest.maxLoadFactor * (ct.LRU_evictOldest.capacity : ℚ) := by
    rw [E9.trans rfl, hcap3]
    have h1 : (ct.LRU_evictOldest.size : ℚ) + 1 = (c.size : ℚ) := by
      exact_mod_cast hsize3.trans rfl
    rw [h1]
    exact hwf.hLoad
  have hideal : ct.LRU_evictOldest.hashToIndex (ct.LRU_evictOldest.hashFunction k) =
      c.hashToIndex (c.hashFunction k) := by
    unfold hashToIndex
    rw [hcap3, hhfk3]
  have hunf : c.insert k v t ttl =
      (match c3.slot (c3.findKey k (c.hashFunction k)) with
       | some e => Except.ok ((c3.LRU_moveToNewest e.key).setSlot
           (c3.findKey k (c.hashFunction k))
           (some { e with value := v, expireTime := t + ttl }))
       | none => Except.ok
           { (c3.setSlot (c3.nextEmpty (c.hashToIndex (c.hashFunction k)))
               (some ⟨k, v, c.hashFunction k, t + ttl⟩)).LRU_insertNewest k
             with size := c3.size + 1 }) := by
    unfold insert
    rw [if_neg hnotlt, if_neg hnotttl]
    rfl
  rw [hc3E, hfk0, hslot0] at hunf
  obtain ⟨W1, W2, W3, W4, W5, W6, W7, W8, W9, W10, _⟩ :=
    insert_fresh_state E1 (k := k) (v := v) (x := t + ttl) hn3 hload3 rfl
  rw [hideal, hhfk3] at W1 W2 W3 W4 W5 W6 W7 W8 W9 W10
  refine ⟨_, hunf.trans rfl, W1, ?_, ?_, ?_, W2, ?_, ?_, ?_, ?_, ?_, ?_⟩
  · rw [W4, hlru3]
  · rw [W5]
    exact hsize3.trans rfl
  · rw [W6]
    exact E6.trans rfl
  · intro hok
    rw [W3 oldest hok]
    exact E2
  · intro k2 hk2 hk2o
    rw [W3 k2 hk2]
    rcases hc : c.inTable k2 with _ | e2
    · rcases h3 : ct.LRU_evictOldest.inTable k2 with _ | e3
      · rfl
      · have h4 := E3 k2 e3 h3
        rw [show ct.inTable k2 = c.inTable k2 from rfl, hc] at h4
        exact Option.noConfusion h4
    · exact E4 k2 e2 hk2o hc (hall k2 e2 hc)
  · rw [W7]
    exact E7.trans rfl
  · rw [W8]
    exact E8.trans rfl
  · rw [W9]
    exact E9.trans rfl
  · rw [W10]
    exact E10.trans rfl

/-- insert at the load bound with no expired entries, updating a present key
that is not the LRU-oldest: the oldest (unexpired) entry is evicted, the key
is updated in place, and the size drops by one. -/
theorem insert_evict_update {c : Cache} (hwf : WF c) {k v : Nat} {t ttl : Int}
    {oldest : Nat} {rest : List Nat} {e : Entry}
    (ht : c.currentTime ≤ t) (httl : 0 < ttl)
    (hall : ∀ k2 e2, c.inTable k2 = some e2 → t < e2.expireTime)
    (hlru : c.lru = oldest :: rest)
    (hfull : (c.size : ℚ) + 1 > c.maxLoadFactor * (c.capacity : ℚ))
    (hk : c.inTable k = some e) (hko : oldest ≠ k) :
    ∃ c2, c.insert k v t ttl = Except.ok c2 ∧ WF c2 ∧
      c2.size + 1 = c.size ∧ c2.currentTime = t ∧
      c2.inTable k = some ⟨k, v, c.hashFunction k, t + ttl⟩ ∧
      c2.inTable oldest = none ∧
      (∃ eo, c.inTable oldest = some eo ∧ t < eo.expireTime) ∧
      (∀ k2, k2 ≠ k → k2 ≠ oldest → c2.inTable k2 = c.inTable k2) ∧
      c2.hashFunction = c.hashFunction ∧ c2.capacity = c.capacity ∧
      c2.maxLoadFactor = c.maxLoadFactor ∧ c2.maxEntries = c.maxEntries := by
  have hnotlt : ¬ t < c.currentTime := not_lt.2 ht
  have hnotttl : ¬ ttl ≤ 0 := by omega
  set ct : Cache := { c with currentTime := t } with hct
  have hwfct : WF ct := WF_setTime hwf (le_trans hwf.hTime ht)
  set cp := ct.fixCluster (c.hashToIndex (c.hashFunction k)) with hcp
  set c3 := if (cp.size : ℚ) + 1 > cp.maxLoadFactor * (cp.capacity : ℚ)
    then cp.LRU_evictOldest else cp with hc3
  have hcpct : cp = ct := by
    rw [hcp]
    exact purge_id_of_unexpired hwf ht hall _
  have hcond : (ct.size : ℚ) + 1 > ct.maxLoadFactor * (ct.capacity : ℚ) := hfull
  have hc3E : c3 = ct.LRU_evictOldest := by
    rw [hc3, hcpct, if_pos hcond]
  obtain ⟨E1, E2, E3, E4, E5, E6, E7, E8, E9, E10, E11⟩ :=
    evictOldest_spec hwfct hlru
  obtain ⟨hlru3, hsize3⟩ := E11 (fun k2 e2 _ h2 => hall k2 e2 h2)
  have hhfk3 : ct.LRU_evictOldest.hashFunction k = c.hashFunction k :=
    congrFun (E7.trans rfl) k
  have hk3 : ct.LRU_evictOldest.inTable k = some e :=
    E4 k e (fun h => hko h.symm) hk (hall k e hk)
  obtain ⟨hek, j, hjlen, hj⟩ := inTable_some hk3
  have hjN : j < ct.LRU_evictOldest.capacity := by rw [← E1.hLen]; exact hjlen
  have hfk : ct.LRU_evictOldest.findKey k (c.hashFunction k) = j := by
    rw [← hhfk3]
    exact findKey_found E1 hjN hj hek
  have hunf : c.insert k v t ttl =
      (match c3.slot (c3.findKey k (c.hashFunction k)) with
       | some e => Except.ok ((c3.LRU_moveToNewest e.key).setSlot
           (c3.findKey k (c.hashFunction k))
           (some { e with value := v, expireTime := t + ttl }))
       | none => Except.ok
           { (c3.setSlot (c3.nextEmpty (c.hashToIndex (c.hashFunction k)))
               (some ⟨k, v, c.hashFunction k, t + ttl⟩)).LRU_insertNewest k
             with size := c3.size + 1 }) := by
    unfold insert
    rw [if_neg hnotlt, if_neg hnotttl]
    rfl
  rw [hc3E, hfk, hj] at hunf
  have hmemk : e.key ∈ ct.LRU_evictOldest.lru := by
    rw [hek]
    exact mem_lru_of_inTable E1 hk3
  have hwf4 : WF (ct.LRU_evictOldest.LRU_moveToNewest e.key) := WF_moveToNewest E1 hmemk
  have hj4 : (ct.LRU_evictOldest.LRU_moveToNewest e.key).slot j = some e := by
    rw [slot_moveToNewest]
    exact hj
  have hwfU : WF ((ct.LRU_evictOldest.LRU_moveToNewest e.key).setSlot j
      (some { e with value := v, expireTime := t + ttl })) :=
    WF_overwrite hwf4 hj4 rfl rfl
  obtain ⟨O1, O2⟩ := inTable_overwrite hwf4 hj4
    (rfl : ({ e with value := v, expireTime := t + ttl } : Entry).key = e.key) rfl
  have hhash : e.hash = c.hashFunction k := by
    rw [E1.hHash j e hj, hek, hhfk3]
  have heo : ∃ eo, c.inTable oldest = some eo ∧ t < eo.expireTime := by
    have hmem : oldest ∈ c.tableKeys := by
      refine hwf.hLru.mem_iff.1 ?_
      rw [hlru]
      exact List.mem_cons_self _ _
    rw [tableKeys, List.mem_map] at hmem
    obtain ⟨e0, he0mem, hkey0⟩ := hmem
    obtain ⟨j0, _, hj0⟩ := slot_of_mem_entries he0mem
    have h1 := inTable_of_slot hwf hj0
    rw [hkey0] at h1
    exact ⟨e0, h1, hall oldest e0 h1⟩
  refine ⟨_, hunf.trans rfl, hwfU, ?_, ?_, ?_, ?_, heo, ?_, ?_, ?_, ?_, ?_⟩
  · rw [size_setSlot, size_moveToNewest]
    exact hsize3.trans rfl
  · rw [currentTime_setSlot, currentTime_moveToNewest]
    exact E6.trans rfl
  · rw [← hek, O1]
    show some (Entry.mk e.key v e.hash (t + ttl)) =
      some (Entry.mk e.key v (c.hashFunction e.key) (t + ttl))
    rw [hhash, hek]
  · rw [O2 oldest (by rw [hek]; exact hko),
      inTable_eq_of_table (table_moveToNewest _ e.key) oldest]
    exact E2
  · intro k2 hk2 hk2o
    rw [O2 k2 (by rw [hek]; exact hk2),
      inTable_eq_of_table (table_moveToNewest _ e.key) k2]
    rcases hc : c.inTable k2 with _ | e2
    · rcases h3 : ct.LRU_evictOldest.inTable k2 with _ | e3
      · rfl
      · have h4 := E3 k2 e3 h3
        rw [show ct.inTable k2 = c.inTable k2 from rfl, hc] at h4
        exact Option.noConfusion h4
    · exact E4 k2 e2 hk2o hc (hall k2 e2 hc)
  · rw [hashFunction_setSlot, hashFunction_moveToNewest]
    exact E7.trans rfl
  · rw [capacity_setSlot, capacity_moveToNewest]
    exact E8.trans rfl
  · rw [maxLoadFactor_setSlot, maxLoadFactor_moveToNewest]
    exact E9.trans rfl
  · rw [maxEntries_setSlot, maxEntries_moveToNewest]
    exact E10.trans rfl

/-- A key not on the LRU list is not in the table. -/
theorem not_inTable_of_not_mem_lru {c : Cache} (hwf : WF c) {k : Nat}
    (h : k ∉ c.lru) : c.inTable k = none := by
  rcases h2 : c.inTable k with _ | e
  · rfl
  · exact absurd (mem_lru_of_inTable hwf h2) h

/-- Entries with a uniform lower bound on expiry are all unexpired before that
bound. -/
theorem unexpired_of_entries_bound {c : Cache} {t b : Int}
    (hb : ∀ e ∈ c.entries, b ≤ e.expireTime) (htb : t < b) :
    ∀ k2 e2, c.inTable k2 = some e2 → t < e2.expireTime := by
  intro k2 e2 h
  have h2 := List.mem_of_find?_eq_some h
  have h3 := hb e2 h2
  omega

/-- Membership in the removed-entry list of a cluster purge: exactly the
expired entries of the cluster. -/
theorem mem_expiredEntriesIn_iff {c : Cache} {s L : Nat} {e : Entry} :
    e ∈ c.expiredEntriesIn s 0 L ↔
      ∃ v, v < L ∧ c.slot (cix c.capacity s v) = some e ∧
        e.expireTime ≤ c.currentTime := by
  unfold expiredEntriesIn
  rw [Nat.sub_zero, List.mem_filterMap]
  constructor
  · rintro ⟨v, hv, hfv⟩
    rw [List.mem_range'_1] at hv
    rcases hs2 : c.slot (cix c.capacity s v) with _ | e2
    · rw [hs2] at hfv
      cases hfv
    · rw [hs2] at hfv
      have hfv2 : (if e2.expireTime ≤ c.currentTime then some e2 else none) = some e := hfv
      split_ifs at hfv2 with hx
      injection hfv2 with hfv2
      subst hfv2
      exact ⟨v, by omega, hs2, hx⟩
  · rintro ⟨v, hvL, hsv, hexp⟩
    refine ⟨v, by rw [List.mem_range'_1]; omega, ?_⟩
    rw [hsv]
    show (if e.expireTime ≤ c.currentTime then some e else none) = some e
    rw [if_pos hexp]

end Cache

/-- A successful construction implies maxEntries was at least 2. -/
theorem new_maxE {maxE : Nat} {mlf : ℚ} {hf : Nat → Nat} {c0 : Cache}
    (h : Cache.new maxE mlf hf = Except.ok c0) : 2 ≤ maxE := by
  by_contra hc
  push_neg at hc
  unfold Cache.new at h
  split_ifs at h

open Cache

/-- C2: after any successful trace of public operations (get, insert,
removeExpired) on a freshly constructed cache, the open-addressing invariant
holds: for every occupied slot i holding entry e, every slot of the forward
probe sequence from e's ideal slot hash % capacity up to (but not including) i
is non-empty.  insert's placement and fixCluster's pass-2 compaction preserve
it. -/
theorem claim_C2 {maxE : Nat} {mlf : ℚ} {hf : Nat → Nat} {c0 : Cache}
    (hnew : Cache.new maxE mlf hf = Except.ok c0) {ops : List Op} {c : Cache}
    (hrun : runOps c0 ops = Except.ok c) :
    ∀ i e, i < c.capacity → c.slot i = some e →
      ∀ j, j < c.capacity →
        cdist c.capacity (c.hashToIndex e.hash) j <
          cdist c.capacity (c.hashToIndex e.hash) i →
        c.slot j ≠ none :=
  (runOps_wf ops c0 c (WF_new hnew).1 hrun).1.hOA

/-- C5: every public operation validates before any mutation; in this pure
embedding a failing call yields only the error value, leaving the caller's
cache untouched.  get/insert/removeExpired raise ClockRegression on a
timestamp below currentTime, insert raises DeadOnArrival on ttl ≤ 0,
removeExpired raises UnreachableTarget on targetRatio < 0.01, and with valid
arguments each call succeeds. -/
theorem claim_C5 (c : Cache) (k v : Nat) (t ttl : Int) (r : ℚ)
    (stream : List Nat) (fuel : Nat) :
    (t < c.currentTime →
      c.get k t = Except.error CacheError.ClockRegression ∧
      c.insert k v t ttl = Except.error CacheError.ClockRegression ∧
      c.removeExpired t r stream fuel = Except.error CacheError.ClockRegression) ∧
    (c.currentTime ≤ t → ttl ≤ 0 →
      c.insert k v t ttl = Except.error CacheError.DeadOnArrival) ∧
    (c.currentTime ≤ t → r < 1/100 →
      c.removeExpired t r stream fuel = Except.error CacheError.UnreachableTarget) ∧
    (c.currentTime ≤ t → ∃ res c2, c.get k t = Except.ok (res, c2)) ∧
    (c.currentTime ≤ t → 0 < ttl → ∃ c2, c.insert k v t ttl = Except.ok c2) ∧
    (c.currentTime ≤ t → 1/100 ≤ r →
      ∃ c2, c.removeExpired t r stream fuel = Except.ok c2) := by
  refine ⟨?_, ?_, ?_, ?_, ?_, ?_⟩
  · intro hlt
    refine ⟨?_, ?_, ?_⟩
    · unfold Cache.get
      rw [if_pos hlt]
    · unfold Cache.insert
      rw [if_pos hlt]
    · unfold Cache.removeExpired
      rw [if_pos hlt]
  · intro ht httl
    unfold Cache.insert
    rw [if_neg (not_lt.2 ht), if_pos httl]
  · intro ht hr
    unfold Cache.removeExpired
    rw [if_neg (not_lt.2 ht), if_pos (show r < Cache.minTarget from hr)]
  · intro ht
    set ct : Cache := { c with currentTime := t } with hct
    set cp := ct.fixCluster (c.hashToIndex (c.hashFunction k)) with hcp
    have hunf : c.get k t = (match cp.slot (cp.findKey k (c.hashFunction k)) with
        | some e => Except.ok (some e.value, cp.LRU_moveToNewest e.key)
        | none => Except.ok (none, cp)) := by
      unfold Cache.get
      rw [if_neg (not_lt.2 ht)]
    rcases hs : cp.slot (cp.findKey k (c.hashFunction k)) with _ | e
    · refine ⟨none, cp, ?_⟩
      rw [hunf, hs]
    · refine ⟨some e.value, cp.LRU_moveToNewest e.key, ?_⟩
      rw [hunf, hs]
  · intro ht httl
    set ct : Cache := { c with currentTime := t } with hct
    set cp := ct.fixCluster (c.hashToIndex (c.hashFunction k)) with hcp
    set c3 := if (cp.size : ℚ) + 1 > cp.maxLoadFactor * (cp.capacity : ℚ)
      then cp.LRU_evictOldest else cp with hc3
    have hunf : c.insert k v t ttl =
        (match c3.slot (c3.findKey k (c.hashFunction k)) with
         | some e => Except.ok ((c3.LRU_moveToNewest e.key).setSlot
             (c3.findKey k (c.hashFunction k))
             (some { e with value := v, expireTime := t + ttl }))
         | none => Except.ok
             { (c3.setSlot (c3.nextEmpty (c.hashToIndex (c.hashFunction k)))
                 (some ⟨k, v, c.hashFunction k, t + ttl⟩)).LRU_insertNewest k
               with size := c3.size + 1 }) := by
      unfold Cache.insert
      rw [if_neg (not_lt.2 ht), if_neg (not_le.2 httl)]
      rfl
    rcases hs : c3.slot (c3.findKey k (c.hashFunction k)) with _ | e
    · refine ⟨{ (c3.setSlot (c3.nextEmpty (c.hashToIndex (c.hashFunction k)))
          (some ⟨k, v, c.hashFunction k, t + ttl⟩)).LRU_insertNewest k
          with size := c3.size + 1 }, ?_⟩
      rw [hunf, hs]
    · refine ⟨(c3.LRU_moveToNewest e.key).setSlot (c3.findKey k (c.hashFunction k))
          (some { e with value := v, expireTime := t + ttl }), ?_⟩
      rw [hunf, hs]
  · intro ht hr
    unfold Cache.removeExpired
    rw [if_neg (not_lt.2 ht), if_neg (show ¬ r < Cache.minTarget from not_lt.2 hr)]
    exact ⟨_, rfl⟩

/-- C6: the load bound survives every trace: after any successful run of
public operations from a fresh cache, size ≤ maxLoadFactor·capacity, hence
size ≤ floor(maxLoadFactor·capacity), and — because the constructor picks
capacity = ceil(maxEntries / maxLoadFactor) with maxLoadFactor ≤ 1/2 — the
number of stored entries never exceeds maxEntries. -/
theorem claim_C6 {maxE : Nat} {mlf : ℚ} {hf : Nat → Nat} {c0 : Cache}
    (hnew : Cache.new maxE mlf hf = Except.ok c0) {ops : List Op} {c : Cache}
    (hrun : runOps c0 ops = Except.ok c) :
    (c.size : ℚ) ≤ c.maxLoadFactor * (c.capacity : ℚ) ∧
    c.size ≤ (⌊c.maxLoadFactor * (c.capacity : ℚ)⌋).toNat ∧
    c.size ≤ maxE := by
  obtain ⟨hwf0, hme0, hmlf0, _, _, _, _, hcap0, _⟩ := WF_new hnew
  obtain ⟨hwf, _, hcapc, hmlfc, _⟩ := runOps_wf ops c0 c hwf0 hrun
  have hload := hwf.hLoad
  have hfloor : (c.size : ℤ) ≤ ⌊c.maxLoadFactor * (c.capacity : ℚ)⌋ := by
    rw [Int.le_floor]
    exact_mod_cast hload
  refine ⟨hload, by omega, ?_⟩
  have hmlfpos : 0 < c.maxLoadFactor := by
    have h1 := hwf.hCap2
    have h2 : (0 : ℚ) ≤ (c.capacity : ℚ) := by positivity
    nlinarith
  have hmlfle : c.maxLoadFactor ≤ 1/2 := hwf.hMLF
  have hcapval : (c.capacity : ℚ) < (maxE : ℚ) / c.maxLoadFactor + 1 := by
    rw [hcapc, hcap0, hmlfc, hmlf0]
    have hceil : (0 : ℚ) < (maxE : ℚ) / mlf := by
      have hm2 : (2 : ℚ) ≤ mlf * (c.capacity : ℚ) := by
        rw [← hmlf0, ← hmlfc]
        exact hwf.hCap2
      have hmpos : 0 < mlf := by rw [← hmlf0, ← hmlfc]; exact hmlfpos
      have hmE : (0 : ℚ) < (maxE : ℚ) := by
        have h0 := new_maxE hnew
        have : (2 : ℚ) ≤ (maxE : ℚ) := by exact_mod_cast h0
        linarith
      exact div_pos hmE hmpos
    have h1 : 0 < ⌈(maxE : ℚ) / mlf⌉ := Int.ceil_pos.2 hceil
    have h2 : (((⌈(maxE : ℚ) / mlf⌉).toNat : ℤ) : ℚ) = ((⌈(maxE : ℚ) / mlf⌉ : ℤ) : ℚ) := by
      rw [Int.toNat_of_nonneg (by omega)]
    push_cast at h2
    rw [h2]
    have h3 := Int.ceil_lt_add_one ((maxE : ℚ) / mlf)
    exact h3
  have hsizeQ : (c.size : ℚ) < (maxE : ℚ) + 1 := by
    have h1 : c.maxLoadFactor * (c.capacity : ℚ) <
        c.maxLoadFactor * ((maxE : ℚ) / c.maxLoadFactor + 1) :=
      mul_lt_mul_of_pos_left hcapval hmlfpos
    rw [mul_add, mul_div_cancel₀ _ (ne_of_gt hmlfpos), mul_one] at h1
    nlinarith
  have : c.size < maxE + 1 := by exact_mod_cast hsizeQ
  omega

/-- C7: removeExpired with valid arguments removes only entries expired at
its timestamp (which includes sentinel-flagged ones), never an unexpired
entry, for every sequence of random draws; and when loadFactor < 0.1 or
size < 20 at the call, it changes nothing except setting currentTime. -/
theorem claim_C7 {maxE : Nat} {mlf : ℚ} {hf : Nat → Nat} {c0 : Cache}
    (hnew : Cache.new maxE mlf hf = Except.ok c0) {ops : List Op} {c : Cache}
    (hrun : runOps c0 ops = Except.ok c)
    {t : Int} {r : ℚ} {stream : List Nat} {fuel : Nat} {c2 : Cache}
    (hrem : c.removeExpired t r stream fuel = Except.ok c2) :
    (∀ k e, c2.inTable k = some e → c.inTable k = some e) ∧
    (∀ k e, c.inTable k = some e → t < e.expireTime → c2.inTable k = some e) ∧
    (c.loadFactor < 1/10 ∨ c.size < 20 → c2 = { c with currentTime := t }) := by
  have hwf := (runOps_wf ops c0 c (WF_new hnew).1 hrun).1
  obtain ⟨ht, hr⟩ := removeExpired_ok_valid hrem
  obtain ⟨c2', hrem', _, _, _, _, _, _, hsub, hkeep, hearly⟩ :=
    Cache.removeExpired_ok hwf t r stream fuel ht hr
  rw [hrem] at hrem'
  injection hrem' with hrem'
  subst hrem'
  exact ⟨hsub, hkeep, hearly⟩

/-- C3: a successful get(k, t) on a reachable cache returns some value exactly
when a live entry for k is stored and strictly outlives t; that entry carries
the value and expiry timestamp + ttl of the most recent insert of k in the
trace.  An entry is treated as expired exactly when t ≥ its expireTime, so on
the boundary t = insertTime + ttl the call returns absent. -/
theorem claim_C3 {maxE : Nat} {mlf : ℚ} {hf : Nat → Nat} {c0 : Cache}
    (hnew : Cache.new maxE mlf hf = Except.ok c0) {ops : List Op} {c : Cache}
    (hrun : runOps c0 ops = Except.ok c)
    {k : Nat} {t : Int} {res : Option Nat} {c2 : Cache}
    (hget : c.get k t = Except.ok (res, c2)) :
    res = (c.inTable k).bind (fun e => if t < e.expireTime then some e.value else none) ∧
    (∀ e, c.inTable k = some e → lastInsert ops k = some (e.value, e.expireTime)) ∧
    (∀ e, c.inTable k = some e → e.expireTime ≤ t → res = none) := by
  obtain ⟨hwf0, _, _, _, _, _, _, _, hint0⟩ := WF_new hnew
  have hwf := (runOps_wf ops c0 c hwf0 hrun).1
  have ht := get_ok_valid hget
  obtain ⟨res', c2', hget', _, _, _, _, _, _, _, hres, _, _, _⟩ :=
    Cache.get_ok hwf k t ht
  rw [hget] at hget'
  injection hget' with hget'
  have hreseq : res = res' := congrArg Prod.fst hget'
  refine ⟨hreseq.trans hres, ?_, ?_⟩
  · intro e he
    exact runOps_hist ops c0 c (fun _ => none) hwf0
      (fun k2 e2 h2 => absurd (h2.symm.trans (hint0 k2)) (fun hx => Option.noConfusion hx))
      hrun k e he
  · intro e he hexp
    rw [hreseq, hres, he]
    show (if t < e.expireTime then some e.value else none) = none
    rw [if_neg (by omega)]

/-- C4: the simulation property of the automated correctness test: running
the same valid insert/get trace on a ttl_cache and a dummy_cache, whenever the
ttl_cache's next get returns some value, the dummy_cache's get at the same
point returns the very same value (the cache may miss where the reference
still holds the key, but never disagrees on a returned value). -/
theorem claim_C4 {maxE : Nat} {mlf : ℚ} {hf : Nat → Nat} {c0 : Cache}
    (hnew : Cache.new maxE mlf hf = Except.ok c0) {ops : List Op}
    (hpure : ∀ t r s f, Op.expire t r s f ∉ ops)
    {c : Cache} {d : DummyCache}
    (hc : runOps c0 ops = Except.ok c) (hd : runDummy DummyCache.new ops = Except.ok d)
    {k : Nat} {t : Int} {v : Nat} {c2 : Cache}
    (hget : c.get k t = Except.ok (some v, c2)) :
    ∃ d2, d.get k t = Except.ok (some v, d2) := by
  obtain ⟨hwf0, _, _, _, htime0, _, _, _, hint0⟩ := WF_new hnew
  have hcpl0 : Coupled c0 DummyCache.new := by
    refine ⟨by rw [htime0]; rfl, ?_⟩
    intro k2 e2 h2
    rw [hint0 k2] at h2
    exact Option.noConfusion h2
  obtain ⟨d', hd', hwf, hcpl⟩ := runBoth_coupled ops hpure c0 c DummyCache.new hwf0 hcpl0 hc
  rw [hd] at hd'
  injection hd' with hd'
  subst hd'
  have ht := get_ok_valid hget
  obtain ⟨res', c2', hget', _, _, _, _, _, _, _, hres, _, _, _⟩ :=
    Cache.get_ok hwf k t ht
  rw [hget] at hget'
  injection hget' with hget'
  have hreseq : some v = res' := congrArg Prod.fst hget'
  rw [hres] at hreseq
  rcases hint : c.inTable k with _ | e
  · rw [hint] at hreseq
    exact Option.noConfusion hreseq
  · rw [hint] at hreseq
    have hreseq2 : some v = if t < e.expireTime then some e.value else none := hreseq
    split_ifs at hreseq2 with hexp
    · injection hreseq2 with hv
      have hkv := hcpl.2 k e hint
      have hdnot : ¬ t < d.currentTime := by
        rw [← hcpl.1]
        exact not_lt.2 ht
      refine ⟨{ d with currentTime := t }, ?_⟩
      unfold DummyCache.get
      rw [if_neg hdnot]
      show (match d.kvMap k with
        | some ve => if ve.2 < t
            then Except.ok ((none : Option Nat), ({ currentTime := t, kvMap := fun k2 => if k2 = k then none else d.kvMap k2 } : DummyCache))
            else Except.ok (some ve.1, { d with currentTime := t })
        | none => Except.ok ((none : Option Nat), { d with currentTime := t }))
        = Except.ok (some v, { d with currentTime := t })
      rw [hkv]
      show (if (e.value, e.expireTime).2 < t then _ else _) = _
      rw [if_neg (by show ¬ e.expireTime < t; omega), hv]

/-- C1: fixCluster at an empty slot is a no-op; at a non-empty slot i it acts
exactly on i's cluster, the maximal run of L non-empty slots starting at s that
contains i: the multiset of table entries splits into the cluster's expired or
sentinel-flagged entries (those with expireTime ≤ currentTime, which covers the
LRU_EVICTED_FLAG value -2) and the survivors; each removed entry's key is
erased from the LRU list and size drops by exactly one per removal; every
unexpired entry of the cluster survives with all its fields (key, value, hash,
expireTime) at a possibly earlier slot of the cluster; and every slot outside
the cluster is untouched. -/
theorem claim_C1 {c : Cache} (hwf : Cache.WF c) (i : Nat) :
    (c.slot i = none → c.fixCluster i = c) ∧
    (c.slot i ≠ none → ∃ s L, Cache.ClusterAt c s L ∧ cdist c.capacity s i < L ∧
      (∀ e, e ∈ c.expiredEntriesIn s 0 L ↔
        ∃ v, v < L ∧ c.slot (cix c.capacity s v) = some e ∧
          e.expireTime ≤ c.currentTime) ∧
      c.entries.Perm (c.expiredEntriesIn s 0 L ++ (c.fixCluster i).entries) ∧
      (c.fixCluster i).size + (c.expiredEntriesIn s 0 L).length = c.size ∧
      (c.fixCluster i).lru = (c.expiredKeysIn s 0 L).foldl List.erase c.lru ∧
      (∀ w, w < L → ∀ e, c.slot (cix c.capacity s w) = some e →
        c.currentTime < e.expireTime →
        ∃ v, v ≤ w ∧ (c.fixCluster i).slot (cix c.capacity s v) = some e) ∧
      (∀ v, L ≤ v → v < c.capacity →
        (c.fixCluster i).slot (cix c.capacity s v) = c.slot (cix c.capacity s v))) := by
  constructor
  · exact Cache.fixCluster_empty
  · intro hi
    obtain ⟨s, L, hcl, hdi, hfo⟩ := Cache.fixCluster_spec hwf hi
    refine ⟨s, L, hcl, hdi, fun e => Cache.mem_expiredEntriesIn_iff, hfo.hperm,
      hfo.hsize, hfo.hlru, ?_, hfo.houtside⟩
    intro w hw e he hun
    obtain ⟨v, _, hvw, hv⟩ := hfo.hsurv w hw e he hun
    exact ⟨v, hvw, hv⟩

/-- Setting currentTime to its current value is the identity. -/
theorem setTime_self {c : Cache} {t : Int} (h : c.currentTime = t) :
    ({ c with currentTime := t } : Cache) = c := by
  subst h
  rfl

/-- hashToIndex of a key's hash agrees between caches that share the hash
function and the capacity. -/
theorem hashToIndex_congr {a b : Cache} (hhf : a.hashFunction = b.hashFunction)
    (hcap : a.capacity = b.capacity) (k : Nat) :
    a.hashToIndex (a.hashFunction k) = b.hashToIndex (b.hashFunction k) := by
  unfold Cache.hashToIndex
  rw [hhf, hcap]

/-- LRU_moveToNewest is idempotent: after one move the key is LRU-newest, so
the second move takes the no-op branch. -/
theorem moveToNewest_idem (c : Cache) (k : Nat) :
    (c.LRU_moveToNewest k).LRU_moveToNewest k = c.LRU_moveToNewest k := by
  have hl : (c.LRU_moveToNewest k).lru.getLast? = some k := getLast_moveToNewest c k
  show (if (c.LRU_moveToNewest k).lru.getLast? = some k then c.LRU_moveToNewest k
    else ((c.LRU_moveToNewest k).LRU_removeFromList k).LRU_insertNewest k) =
    c.LRU_moveToNewest k
  rw [if_pos hl]

/-- C9: reads are idempotent: from any reachable state, if get(k, t) with
t ≥ currentTime returns result res and state c2, then get(k, t) run again from
c2 returns the same res and leaves c2 completely unchanged — the first call
already purged k's cluster and moved k to LRU-newest, so the second call's
purge and LRU_moveToNewest are both no-ops. -/
theorem claim_C9 {maxE : Nat} {mlf : ℚ} {hf : Nat → Nat} {c0 : Cache}
    (hnew : Cache.new maxE mlf hf = Except.ok c0) {ops : List Op} {c : Cache}
    (hrun : runOps c0 ops = Except.ok c) {k : Nat} {t : Int}
    (ht : c.currentTime ≤ t) {res : Option Nat} {c2 : Cache}
    (h1 : c.get k t = Except.ok (res, c2)) :
    c2.get k t = Except.ok (res, c2) := by
  have hwf := (runOps_wf ops c0 c (WF_new hnew).1 hrun).1
  have hwfct : WF ({ c with currentTime := t } : Cache) :=
    WF_setTime hwf (le_trans hwf.hTime ht)
  have hwfcp : WF (({ c with currentTime := t } : Cache).fixCluster
      (c.hashToIndex (c.hashFunction k))) := hwfct.fixCluster_WF _
  have hfields := fixCluster_fields hwfct (c.hashToIndex (c.hashFunction k))
  have hhf1 : (({ c with currentTime := t } : Cache).fixCluster
      (c.hashToIndex (c.hashFunction k))).hashFunction = c.hashFunction := hfields.1
  have hcap1 : (({ c with currentTime := t } : Cache).fixCluster
      (c.hashToIndex (c.hashFunction k))).capacity = c.capacity := hfields.2.1
  have hiN : c.hashToIndex (c.hashFunction k) <
      ({ c with currentTime := t } : Cache).capacity := Nat.mod_lt _ hwf.hCapPos
  have hcptime : (({ c with currentTime := t } : Cache).fixCluster
      (c.hashToIndex (c.hashFunction k))).currentTime = t := hfields.2.2.2.2.1
  obtain ⟨G1, G2⟩ := get_result hwf (k := k) ht
  rcases hs : (({ c with currentTime := t } : Cache).fixCluster
      (c.hashToIndex (c.hashFunction k))).inTable k with _ | e
  · have h2 := G1 hs
    rw [h1] at h2
    injection h2 with h2
    injection h2 with hres hc2
    subst hres
    subst hc2
    obtain ⟨H1, _⟩ := get_result hwfcp (k := k) (le_of_eq hcptime)
    have hagain := fixCluster_again_id hwfct hwfcp hiN rfl rfl
    rw [setTime_self hcptime, hashToIndex_congr hhf1 hcap1 k, hagain] at H1
    exact H1 hs
  · have h2 := G2 e hs
    rw [h1] at h2
    injection h2 with h2
    injection h2 with hres hc2
    subst hres
    subst hc2
    have hmem : k ∈ (({ c with currentTime := t } : Cache).fixCluster
        (c.hashToIndex (c.hashFunction k))).lru := mem_lru_of_inTable hwfcp hs
    have hwfcm := WF_moveToNewest hwfcp hmem
    have hcmtime : ((({ c with currentTime := t } : Cache).fixCluster
        (c.hashToIndex (c.hashFunction k))).LRU_moveToNewest k).currentTime = t := by
      rw [currentTime_moveToNewest]
      exact hcptime
    have hhf2 : ((({ c with currentTime := t } : Cache).fixCluster
        (c.hashToIndex (c.hashFunction k))).LRU_moveToNewest k).hashFunction =
        c.hashFunction := by
      rw [hashFunction_moveToNewest]
      exact hhf1
    have hcap2 : ((({ c with currentTime := t } : Cache).fixCluster
        (c.hashToIndex (c.hashFunction k))).LRU_moveToNewest k).capacity =
        c.capacity := by
      rw [capacity_moveToNewest]
      exact hcap1
    obtain ⟨_, K2⟩ := get_result hwfcm (k := k) (le_of_eq hcmtime)
    have hagain2 := fixCluster_again_id hwfct hwfcm hiN
      (table_moveToNewest _ k) (currentTime_moveToNewest _ k)
    rw [setTime_self hcmtime, hashToIndex_congr hhf2 hcap2 k, hagain2] at K2
    have hcmint : ((({ c with currentTime := t } : Cache).fixCluster
        (c.hashToIndex (c.hashFunction k))).LRU_moveToNewest k).inTable k = some e := by
      rw [inTable_eq_of_table (table_moveToNewest _ k) k]
      exact hs
    have h3 := K2 e hcmint
    rw [moveToNewest_idem _ k] at h3
    exact h3

/-- C10: insert runs the LRU-eviction check before the key lookup, so a call
at the load bound (size + 1 > maxLoadFactor·capacity) evicts the LRU-oldest
entry even when the key is already present: if the oldest key differs from k,
an unrelated unexpired entry is removed and size drops by one even though the
call is an in-place update; if the oldest key is k itself, k is evicted and
then re-inserted as a fresh entry at the LRU-newest position, leaving size
unchanged. -/
theorem claim_C10 {maxE : Nat} {mlf : ℚ} {hf : Nat → Nat} {c0 : Cache}
    (hnew : Cache.new maxE mlf hf = Except.ok c0) {ops : List Op} {c : Cache}
    (hrun : runOps c0 ops = Except.ok c) {k v : Nat} {t ttl : Int}
    {oldest : Nat} {rest : List Nat}
    (ht : c.currentTime ≤ t) (httl : 0 < ttl)
    (hall : ∀ k2 e2, c.inTable k2 = some e2 → t < e2.expireTime)
    (hlru : c.lru = oldest :: rest)
    (hfull : (c.size : ℚ) + 1 > c.maxLoadFactor * (c.capacity : ℚ)) :
    (∀ e, c.inTable k = some e → oldest ≠ k →
      ∃ c2, c.insert k v t ttl = Except.ok c2 ∧
        c2.inTable oldest = none ∧
        (∃ eo, c.inTable oldest = some eo ∧ t < eo.expireTime) ∧
        c2.size + 1 = c.size ∧
        c2.inTable k = some ⟨k, v, c.hashFunction k, t + ttl⟩) ∧
    (oldest = k →
      ∃ c2, c.insert k v t ttl = Except.ok c2 ∧
        c2.lru = rest ++ [k] ∧ c2.size = c.size ∧
        c2.inTable k = some ⟨k, v, c.hashFunction k, t + ttl⟩) := by
  have hwf := (runOps_wf ops c0 c (WF_new hnew).1 hrun).1
  constructor
  · intro e he hko
    obtain ⟨c2, hins, _, hsize2, _, hintk, hinto, heo, _⟩ :=
      insert_evict_update hwf ht httl hall hlru hfull he hko
    exact ⟨c2, hins, hinto, heo, hsize2, hintk⟩
  · intro hok
    obtain ⟨c2, hins, _, hlru2, hsize2, _, hintk, _⟩ :=
      insert_evict_fresh hwf ht httl hall hlru hfull (Or.inr hok)
    exact ⟨c2, hins, hlru2, hsize2, hintk⟩

/-- A successful insert lets a trace step through. -/
theorem runOps_step_ins {c c1 : Cache} {k v : Nat} {t ttl : Int} {rest : List Op}
    (h : c.insert k v t ttl = Except.ok c1) :
    runOps c (Op.ins k v t ttl :: rest) = runOps c1 rest := by
  rw [runOps, h]
  simp [Bind.bind, Except.bind]

/-- A successful get lets a trace step through with its post-state. -/
theorem runOps_step_read {c c1 : Cache} {res : Option Nat} {k : Nat} {t : Int}
    {rest : List Op} (h : c.get k t = Except.ok (res, c1)) :
    runOps c (Op.read k t :: rest) = runOps c1 rest := by
  rw [runOps, h]
  simp [Bind.bind, Except.bind]

/-- A lower bound on every stored expiration time survives a fresh insert
whose new entry also obeys the bound. -/
theorem bound_insert_pres {c c2 : Cache} {k : Nat} {en : Entry} {b : Int}
    (hintk : c2.inTable k = some en) (hb : b ≤ en.expireTime)
    (hpres : ∀ k2, k2 ≠ k → c2.inTable k2 = c.inTable k2)
    (P : ∀ k2 e2, c.inTable k2 = some e2 → b ≤ e2.expireTime) :
    ∀ k2 e2, c2.inTable k2 = some e2 → b ≤ e2.expireTime := by
  intro k2 e2 h
  by_cases hk2 : k2 = k
  · rw [hk2, hintk] at h
    injection h with h
    rw [← h]
    exact hb
  · rw [hpres k2 hk2] at h
    exact P k2 e2 h

/-- A get hit on a cache with no expired entries: the value comes back and the
state only advances the clock and moves the key to LRU-newest. -/
theorem get_hit_step {c : Cache} (hwf : WF c) {k : Nat} {t : Int} {e : Entry}
    (ht : c.currentTime ≤ t)
    (hall : ∀ k2 e2, c.inTable k2 = some e2 → t < e2.expireTime)
    (hint : c.inTable k = some e) :
    ∃ c2, c.get k t = Except.ok (some e.value, c2) ∧ WF c2 ∧
      c2.lru = (if c.lru.getLast? = some k then c.lru
        else c.lru.erase k ++ [k]) ∧
      c2.size = c.size ∧ c2.currentTime = t ∧
      (∀ k2, c2.inTable k2 = c.inTable k2) ∧
      c2.hashFunction = c.hashFunction ∧ c2.capacity = c.capacity ∧
      c2.maxLoadFactor = c.maxLoadFactor := by
  obtain ⟨_, G2⟩ := get_unexpired_state hwf (k := k) ht hall
  have hwfct : WF ({ c with currentTime := t } : Cache) :=
    WF_setTime hwf (le_trans hwf.hTime ht)
  have hmem : k ∈ ({ c with currentTime := t } : Cache).lru := by
    show k ∈ c.lru
    exact mem_lru_of_inTable hwf hint
  refine ⟨({ c with currentTime := t } : Cache).LRU_moveToNewest k, G2 e hint,
    WF_moveToNewest hwfct hmem, ?_, ?_, ?_, ?_, ?_, ?_, ?_⟩
  · rw [lru_moveToNewest]
  · rw [size_moveToNewest]
  · rw [currentTime_moveToNewest]
  · exact fun k2 => inTable_eq_of_table (table_moveToNewest _ k) k2
  · rw [hashFunction_moveToNewest]
  · rw [capacity_moveToNewest]
  · rw [maxLoadFactor_moveToNewest]

/-- C8: scenario S1 of the LRU test: on a cache with maxEntries = 5 and
maxLoadFactor = 1/2 (capacity 10), for every hash function, inserting keys
1, 2, 3 at t = 2, 3, 4 (ttl 100), reading key 2 at t = 5, inserting keys 4, 5
at t = 6, 7, reading key 4 at t = 8, and inserting key 6 at t = 9 evicts
key 1 (present just before, absent after), and LRU_order of the final state
is [3, 2, 5, 4, 6]. -/
theorem claim_C8 (hf : Nat → Nat) {c0 : Cache}
    (hnew : Cache.new 5 (1/2) hf = Except.ok c0) :
    ∃ c7 c8,
      runOps c0 [Op.ins 1 1 2 100, Op.ins 2 2 3 100, Op.ins 3 3 4 100,
        Op.read 2 5, Op.ins 4 4 6 100, Op.ins 5 5 7 100, Op.read 4 8] =
        Except.ok c7 ∧
      c7.insert 6 6 9 100 = Except.ok c8 ∧
      runOps c0 [Op.ins 1 1 2 100, Op.ins 2 2 3 100, Op.ins 3 3 4 100,
        Op.read 2 5, Op.ins 4 4 6 100, Op.ins 5 5 7 100, Op.read 4 8,
        Op.ins 6 6 9 100] = Except.ok c8 ∧
      (∃ e1, c7.inTable 1 = some e1) ∧
      c8.inTable 1 = none ∧
      c8.LRU_order = [3, 2, 5, 4, 6] := by
  obtain ⟨hwf0, hme0, hmlf0, hhf0, htime0, hsize0, hlru0, hcap0, hint0⟩ := WF_new hnew
  have hcap10 : c0.capacity = 10 := by
    rw [hcap0, show ((5 : Nat) : ℚ) / (1/2) = ((10 : Int) : ℚ) from by norm_num,
      Int.ceil_intCast]
    rfl
  have h100 : (0 : Int) < 100 := by decide
  have P0 : ∀ k2 e2, c0.inTable k2 = some e2 → (102 : Int) ≤ e2.expireTime := by
    intro k2 e2 h
    rw [hint0 k2] at h
    exact Option.noConfusion h
  -- op 1: insert key 1 at t = 2
  have htle1 : c0.currentTime ≤ 2 := by rw [htime0]; decide
  have hall0 : ∀ k2 e2, c0.inTable k2 = some e2 → (2 : Int) < e2.expireTime := by
    intro k2 e2 h
    rw [hint0 k2] at h
    exact Option.noConfusion h
  have hroom0 : (c0.size : ℚ) + 1 ≤ c0.maxLoadFactor * (c0.capacity : ℚ) := by
    rw [hsize0, hmlf0, hcap10]
    norm_num
  obtain ⟨c1, hins1, hwf1, hlrue1, hsizee1, htime1, hraw1, hpres1, hhfe1, hcape1, hmlfe1, _⟩ :=
    @insert_fresh_unexpired c0 hwf0 1 1 2 100 htle1 h100 hall0 (hint0 1) hroom0
  have hlru1 : c1.lru = [1] := by rw [hlrue1, hlru0]; rfl
  have hsize1 : c1.size = 1 := by rw [hsizee1, hsize0]
  have hhf1 : c1.hashFunction = hf := hhfe1.trans hhf0
  have hcap1 : c1.capacity = 10 := hcape1.trans hcap10
  have hmlf1 : c1.maxLoadFactor = 1/2 := hmlfe1.trans hmlf0
  have hint1_1 : c1.inTable 1 = some ⟨1, 1, hf 1, 102⟩ := by
    rw [hraw1, hhf0]
    norm_num
  have P1 := bound_insert_pres hint1_1 (by norm_num) hpres1 P0
  -- op 2: insert key 2 at t = 3
  have habs2 : c1.inTable 2 = none := (hpres1 2 (by decide)).trans (hint0 2)
  have htle2 : c1.currentTime ≤ 3 := by rw [htime1]; decide
  have hall1 : ∀ k2 e2, c1.inTable k2 = some e2 → (3 : Int) < e2.expireTime := by
    intro k2 e2 h
    have := P1 k2 e2 h
    omega
  have hroom1 : (c1.size : ℚ) + 1 ≤ c1.maxLoadFactor * (c1.capacity : ℚ) := by
    rw [hsize1, hmlf1, hcap1]
    norm_num
  obtain ⟨c2, hins2, hwf2, hlrue2, hsizee2, htime2, hraw2, hpres2, hhfe2, hcape2, hmlfe2, _⟩ :=
    @insert_fresh_unexpired c1 hwf1 2 2 3 100 htle2 h100 hall1 habs2 hroom1
  have hlru2 : c2.lru = [1, 2] := by rw [hlrue2, hlru1]; rfl
  have hsize2 : c2.size = 2 := by rw [hsizee2, hsize1]
  have hhf2 : c2.hashFunction = hf := hhfe2.trans hhf1
  have hcap2 : c2.capacity = 10 := hcape2.trans hcap1
  have hmlf2 : c2.maxLoadFactor = 1/2 := hmlfe2.trans hmlf1
  have hint2_2 : c2.inTable 2 = some ⟨2, 2, hf 2, 103⟩ := by
    rw [hraw2, hhf1]
    norm_num
  have hint2_1 : c2.inTable 1 = some ⟨1, 1, hf 1, 102⟩ :=
    (hpres2 1 (by decide)).trans hint1_1
  have P2 := bound_insert_pres hint2_2 (by norm_num) hpres2 P1
  -- op 3: insert key 3 at t = 4
  have habs3 : c2.inTable 3 = none :=
    (hpres2 3 (by decide)).trans ((hpres1 3 (by decide)).trans (hint0 3))
  have htle3 : c2.currentTime ≤ 4 := by rw [htime2]; decide
  have hall2 : ∀ k2 e2, c2.inTable k2 = some e2 → (4 : Int) < e2.expireTime := by
    intro k2 e2 h
    have := P2 k2 e2 h
    omega
  have hroom2 : (c2.size : ℚ) + 1 ≤ c2.maxLoadFactor * (c2.capacity : ℚ) := by
    rw [hsize2, hmlf2, hcap2]
    norm_num
  obtain ⟨c3, hins3, hwf3, hlrue3, hsizee3, htime3, hraw3, hpres3, hhfe3, hcape3, hmlfe3, _⟩ :=
    @insert_fresh_unexpired c2 hwf2 3 3 4 100 htle3 h100 hall2 habs3 hroom2
  have hlru3 : c3.lru = [1, 2, 3] := by rw [hlrue3, hlru2]; rfl
  have hsize3 : c3.size = 3 := by rw [hsizee3, hsize2]
  have hhf3 : c3.hashFunction = hf := hhfe3.trans hhf2
  have hcap3 : c3.capacity = 10 := hcape3.trans hcap2
  have hmlf3 : c3.maxLoadFactor = 1/2 := hmlfe3.trans hmlf2
  have hint3_3 : c3.inTable 3 = some ⟨3, 3, hf 3, 104⟩ := by
    rw [hraw3, hhf2]
    norm_num
  have hint3_2 : c3.inTable 2 = some ⟨2, 2, hf 2, 103⟩ :=
    (hpres3 2 (by decide)).trans hint2_2
  have hint3_1 : c3.inTable 1 = some ⟨1, 1, hf 1, 102⟩ :=
    (hpres3 1 (by decide)).trans hint2_1
  have P3 := bound_insert_pres hint3_3 (by norm_num) hpres3 P2
  -- op 4: read key 2 at t = 5 (hit)
  have htle4 : c3.currentTime ≤ 5 := by rw [htime3]; decide
  have hall3 : ∀ k2 e2, c3.inTable k2 = some e2 → (5 : Int) < e2.expireTime := by
    intro k2 e2 h
    have := P3 k2 e2 h
    omega
  obtain ⟨c4, hget4, hwf4, hlrue4, hsizee4, htime4, hint4, hhfe4, hcape4, hmlfe4⟩ :=
    get_hit_step hwf3 htle4 hall3 hint3_2
  have hlru4 : c4.lru = [1, 3, 2] := by
    rw [hlrue4, hlru3]
    decide
  have hsize4 : c4.size = 3 := hsizee4.trans hsize3
  have hhf4 : c4.hashFunction = hf := hhfe4.trans hhf3
  have hcap4 : c4.capacity = 10 := hcape4.trans hcap3
  have hmlf4 : c4.maxLoadFactor = 1/2 := hmlfe4.trans hmlf3
  have P4 : ∀ k2 e2, c4.inTable k2 = some e2 → (102 : Int) ≤ e2.expireTime :=
    fun k2 e2 h => P3 k2 e2 ((hint4 k2).symm.trans h)
  -- op 5: insert key 4 at t = 6
  have habs4 : c4.inTable 4 = none :=
    (hint4 4).trans ((hpres3 4 (by decide)).trans ((hpres2 4 (by decide)).trans
      ((hpres1 4 (by decide)).trans (hint0 4))))
  have htle5 : c4.currentTime ≤ 6 := by rw [htime4]; decide
  have hall4 : ∀ k2 e2, c4.inTable k2 = some e2 → (6 : Int) < e2.expireTime := by
    intro k2 e2 h
    have := P4 k2 e2 h
    omega
  have hroom4 : (c4.size : ℚ) + 1 ≤ c4.maxLoadFactor * (c4.capacity : ℚ) := by
    rw [hsize4, hmlf4, hcap4]
    norm_num
  obtain ⟨c5, hins5, hwf5, hlrue5, hsizee5, htime5, hraw5, hpres5, hhfe5, hcape5, hmlfe5, _⟩ :=
    @insert_fresh_unexpired c4 hwf4 4 4 6 100 htle5 h100 hall4 habs4 hroom4
  have hlru5 : c5.lru = [1, 3, 2, 4] := by rw [hlrue5, hlru4]; rfl
  have hsize5 : c5.size = 4 := by rw [hsizee5, hsize4]
  have hhf5 : c5.hashFunction = hf := hhfe5.trans hhf4
  have hcap5 : c5.capacity = 10 := hcape5.trans hcap4
  have hmlf5 : c5.maxLoadFactor = 1/2 := hmlfe5.trans hmlf4
  have hint5_4 : c5.inTable 4 = some ⟨4, 4, hf 4, 106⟩ := by
    rw [hraw5, hhf4]
    norm_num
  have hint5_1 : c5.inTable 1 = some ⟨1, 1, hf 1, 102⟩ :=
    (hpres5 1 (by decide)).trans ((hint4 1).trans hint3_1)
  have P5 := bound_insert_pres hint5_4 (by norm_num) hpres5 P4
  -- op 6: insert key 5 at t = 7
  have habs5 : c5.inTable 5 = none :=
    (hpres5 5 (by decide)).trans ((hint4 5).trans ((hpres3 5 (by decide)).trans
      ((hpres2 5 (by decide)).trans ((hpres1 5 (by decide)).trans (hint0 5)))))
  have htle6 : c5.currentTime ≤ 7 := by rw [htime5]; decide
  have hall5 : ∀ k2 e2, c5.inTable k2 = some e2 → (7 : Int) < e2.expireTime := by
    intro k2 e2 h
    have := P5 k2 e2 h
    omega
  have hroom5 : (c5.size : ℚ) + 1 ≤ c5.maxLoadFactor * (c5.capacity : ℚ) := by
    rw [hsize5, hmlf5, hcap5]
    norm_num
  obtain ⟨c6, hins6, hwf6, hlrue6, hsizee6, htime6, hraw6, hpres6, hhfe6, hcape6, hmlfe6, _⟩ :=
    @insert_fresh_unexpired c5 hwf5 5 5 7 100 htle6 h100 hall5 habs5 hroom5
  have hlru6 : c6.lru = [1, 3, 2, 4, 5] := by rw [hlrue6, hlru5]; rfl
  have hsize6 : c6.size = 5 := by rw [hsizee6, hsize5]
  have hhf6 : c6.hashFunction = hf := hhfe6.trans hhf5
  have hcap6 : c6.capacity = 10 := hcape6.trans hcap5
  have hmlf6 : c6.maxLoadFactor = 1/2 := hmlfe6.trans hmlf5
  have hint6_5 : c6.inTable 5 = some ⟨5, 5, hf 5, 107⟩ := by
    rw [hraw6, hhf5]
    norm_num
  have hint6_4 : c6.inTable 4 = some ⟨4, 4, hf 4, 106⟩ :=
    (hpres6 4 (by decide)).trans hint5_4
  have hint6_1 : c6.inTable 1 = some ⟨1, 1, hf 1, 102⟩ :=
    (hpres6 1 (by decide)).trans hint5_1
  have P6 := bound_insert_pres hint6_5 (by norm_num) hpres6 P5
  -- op 7: read key 4 at t = 8 (hit)
  have htle7 : c6.currentTime ≤ 8 := by rw [htime6]; decide
  have hall6 : ∀ k2 e2, c6.inTable k2 = some e2 → (8 : Int) < e2.expireTime := by
    intro k2 e2 h
    have := P6 k2 e2 h
    omega
  obtain ⟨c7, hget7, hwf7, hlrue7, hsizee7, htime7, hint7, hhfe7, hcape7, hmlfe7⟩ :=
    get_hit_step hwf6 htle7 hall6 hint6_4
  have hlru7 : c7.lru = [1, 3, 2, 5, 4] := by
    rw [hlrue7, hlru6]
    decide
  have hsize7 : c7.size = 5 := hsizee7.trans hsize6
  have hhf7 : c7.hashFunction = hf := hhfe7.trans hhf6
  have hcap7 : c7.capacity = 10 := hcape7.trans hcap6
  have hmlf7 : c7.maxLoadFactor = 1/2 := hmlfe7.trans hmlf6
  have hint7_1 : c7.inTable 1 = some ⟨1, 1, hf 1, 102⟩ :=
    (hint7 1).trans hint6_1
  have P7 : ∀ k2 e2, c7.inTable k2 = some e2 → (102 : Int) ≤ e2.expireTime :=
    fun k2 e2 h => P6 k2 e2 ((hint7 k2).symm.trans h)
  -- op 8: insert key 6 at t = 9, at the load bound: evicts the oldest key 1
  have habs6 : c7.inTable 6 = none :=
    (hint7 6).trans ((hpres6 6 (by decide)).trans ((hpres5 6 (by decide)).trans
      ((hint4 6).trans ((hpres3 6 (by decide)).trans ((hpres2 6 (by decide)).trans
        ((hpres1 6 (by decide)).trans (hint0 6)))))))
  have htle8 : c7.currentTime ≤ 9 := by rw [htime7]; decide
  have hall7 : ∀ k2 e2, c7.inTable k2 = some e2 → (9 : Int) < e2.expireTime := by
    intro k2 e2 h
    have := P7 k2 e2 h
    omega
  have hfull7 : (c7.size : ℚ) + 1 > c7.maxLoadFactor * (c7.capacity : ℚ) := by
    rw [hsize7, hmlf7, hcap7]
    norm_num
  have hlru7c : c7.lru = 1 :: [3, 2, 5, 4] := hlru7
  obtain ⟨c8, hins8, hwf8, hlrue8, hsizee8, htime8, hraw8, hevict8, hpres8, _, _, _, _⟩ :=
    @insert_evict_fresh c7 hwf7 6 6 9 100 1 [3, 2, 5, 4] htle8 h100 hall7 hlru7c
      hfull7 (Or.inl habs6)
  have hlru8 : c8.lru = [3, 2, 5, 4, 6] := by rw [hlrue8]; rfl
  have hint8_1 : c8.inTable 1 = none := hevict8 (by decide)
  -- assemble the trace
  have hrun7 : runOps c0 [Op.ins 1 1 2 100, Op.ins 2 2 3 100, Op.ins 3 3 4 100,
      Op.read 2 5, Op.ins 4 4 6 100, Op.ins 5 5 7 100, Op.read 4 8] =
      Except.ok c7 := by
    rw [runOps_step_ins hins1, runOps_step_ins hins2, runOps_step_ins hins3,
      runOps_step_read hget4, runOps_step_ins hins5, runOps_step_ins hins6,
      runOps_step_read hget7]
    rfl
  have hrun8 : runOps c0 [Op.ins 1 1 2 100, Op.ins 2 2 3 100, Op.ins 3 3 4 100,
      Op.read 2 5, Op.ins 4 4 6 100, Op.ins 5 5 7 100, Op.read 4 8,
      Op.ins 6 6 9 100] = Except.ok c8 := by
    rw [runOps_step_ins hins1, runOps_step_ins hins2, runOps_step_ins hins3,
      runOps_step_read hget4, runOps_step_ins hins5, runOps_step_ins hins6,
      runOps_step_read hget7, runOps_step_ins hins8]
    rfl
  exact ⟨c7, c8, hrun7, hins8, hrun8, ⟨_, hint7_1⟩, hint8_1, hlru8⟩

/-- The identity hash used by the concrete example cache. -/
def funW : Nat → Nat := fun k => k

/-- A concrete freshly constructed cache: maxEntries 5, maxLoadFactor 1/2,
capacity 10. -/
def c0W : Cache :=
  { hashFunction := funW, maxEntries := 5, maxLoadFactor := 1/2,
    capacity := 10, currentTime := 0, table := List.replicate 10 none,
    lru := [], size := 0 }

/-- A concrete trace: key 1 gets a short ttl and is left expired (but still
stored) once key 3 arrives at t = 9. -/
def opsW : List Op := [Op.ins 1 10 2 3, Op.ins 2 20 3 100, Op.ins 3 30 9 100]

/-- The state reached by opsW. -/
def c1W : Cache :=
  match runOps c0W opsW with
  | Except.ok c => c
  | Except.error _ => c0W

/-- The state after a get of key 2 at t = 9 from c1W. -/
def c2W : Cache :=
  match c1W.get 2 9 with
  | Except.ok p => p.2
  | Except.error _ => c0W

/-- The state after removeExpired(9, 1/2) from c1W (early exit: size < 20). -/
def c3W : Cache :=
  match c1W.removeExpired 9 (1/2) [] 0 with
  | Except.ok c => c
  | Except.error _ => c0W

/-- A trace of five fresh inserts, filling the cache to its load bound. -/
def ops10W : List Op := [Op.ins 1 1 2 100, Op.ins 2 2 3 100, Op.ins 3 3 4 100,
  Op.ins 4 4 5 100, Op.ins 5 5 6 100]

/-- The full state reached by ops10W (size 5 = floor(1/2 · 10)). -/
def c5W : Cache :=
  match runOps c0W ops10W with
  | Except.ok c => c
  | Except.error _ => c0W

/-- The dummy-cache state reached by opsW. -/
def dW : DummyCache :=
  match runDummy DummyCache.new opsW with
  | Except.ok d => d
  | Except.error _ => DummyCache.new

/-- The constructor produces exactly c0W. -/
theorem new_c0W : Cache.new 5 (1/2) funW = Except.ok c0W := by
  unfold Cache.new
  rw [if_neg (by norm_num), if_neg (by norm_num), if_neg (by norm_num)]
  rw [show ((5 : Nat) : ℚ) / (1/2) = ((10 : Int) : ℚ) from by norm_num,
    Int.ceil_intCast]
  rfl

/-- A colliding trace: key 11 hashes to the occupied ideal slot 1 and is
displaced to slot 2. -/
def opsCW : List Op := [Op.ins 1 10 2 100, Op.ins 11 20 3 100]

/-- The state reached by opsCW. -/
def cCW : Cache :=
  match runOps c0W opsCW with
  | Except.ok c => c
  | Except.error _ => c0W

section

attribute [local semireducible] Rat.add Rat.mul Rat.inv Rat.sub

theorem claim_C1_witness :
    ∃ s L, Cache.ClusterAt c1W s L ∧ cdist c1W.capacity s 1 < L ∧
      (∀ e, e ∈ c1W.expiredEntriesIn s 0 L ↔
        ∃ v, v < L ∧ c1W.slot (cix c1W.capacity s v) = some e ∧
          e.expireTime ≤ c1W.currentTime) ∧
      c1W.entries.Perm (c1W.expiredEntriesIn s 0 L ++ (c1W.fixCluster 1).entries) ∧
      (c1W.fixCluster 1).size + (c1W.expiredEntriesIn s 0 L).length = c1W.size ∧
      (c1W.fixCluster 1).lru =
        (c1W.expiredKeysIn s 0 L).foldl List.erase c1W.lru ∧
      (∀ w, w < L → ∀ e, c1W.slot (cix c1W.capacity s w) = some e →
        c1W.currentTime < e.expireTime →
        ∃ v, v ≤ w ∧ (c1W.fixCluster 1).slot (cix c1W.capacity s v) = some e) ∧
      (∀ v, L ≤ v → v < c1W.capacity →
        (c1W.fixCluster 1).slot (cix c1W.capacity s v) =
          c1W.slot (cix c1W.capacity s v)) :=
  (claim_C1 (runOps_wf opsW c0W c1W (WF_new new_c0W).1 rfl).1 1).2 (by decide)

theorem claim_C2_witness : cCW.slot 1 ≠ none :=
  claim_C2 new_c0W (show runOps c0W opsCW = Except.ok cCW from rfl)
    2 ⟨11, 20, 11, 103⟩ (by decide) rfl 1 (by decide) (by decide)

theorem claim_C3_witness :
    some 20 = (c1W.inTable 2).bind
      (fun e => if (9 : Int) < e.expireTime then some e.value else none) ∧
    lastInsert opsW 2 = some (20, 103) :=
  ⟨(claim_C3 new_c0W (show runOps c0W opsW = Except.ok c1W from rfl)
      (show c1W.get 2 9 = Except.ok (some 20, c2W) from rfl)).1,
   (claim_C3 new_c0W (show runOps c0W opsW = Except.ok c1W from rfl)
      (show c1W.get 2 9 = Except.ok (some 20, c2W) from rfl)).2.1
      ⟨2, 20, 2, 103⟩ rfl⟩

theorem claim_C4_witness : ∃ d2, dW.get 2 9 = Except.ok (some 20, d2) :=
  claim_C4 new_c0W (by intro t r s f hmem; simp [opsW] at hmem)
    (show runOps c0W opsW = Except.ok c1W from rfl)
    (show runDummy DummyCache.new opsW = Except.ok dW from rfl)
    (show c1W.get 2 9 = Except.ok (some 20, c2W) from rfl)

theorem claim_C5_witness :
    c0W.get 1 (-1) = Except.error CacheError.ClockRegression ∧
    c0W.insert 1 1 0 0 = Except.error CacheError.DeadOnArrival ∧
    c0W.removeExpired 0 0 [] 0 = Except.error CacheError.UnreachableTarget :=
  ⟨((claim_C5 c0W 1 1 (-1) 1 0 [] 0).1 (by decide)).1,
   (claim_C5 c0W 1 1 0 0 0 [] 0).2.1 (by decide) (by decide),
   (claim_C5 c0W 1 1 0 0 0 [] 0).2.2.1 (by decide) (by decide)⟩

theorem claim_C6_witness :
    (c1W.size : ℚ) ≤ c1W.maxLoadFactor * (c1W.capacity : ℚ) ∧
    c1W.size ≤ (⌊c1W.maxLoadFactor * (c1W.capacity : ℚ)⌋).toNat ∧
    c1W.size ≤ 5 :=
  claim_C6 new_c0W (show runOps c0W opsW = Except.ok c1W from rfl)

theorem claim_C7_witness : c3W = { c1W with currentTime := 9 } :=
  (claim_C7 new_c0W (show runOps c0W opsW = Except.ok c1W from rfl)
    (show c1W.removeExpired 9 (1/2) [] 0 = Except.ok c3W from rfl)).2.2
    (Or.inr (by decide))

theorem claim_C8_witness :
    ∃ c7 c8,
      runOps c0W [Op.ins 1 1 2 100, Op.ins 2 2 3 100, Op.ins 3 3 4 100,
        Op.read 2 5, Op.ins 4 4 6 100, Op.ins 5 5 7 100, Op.read 4 8] =
        Except.ok c7 ∧
      c7.insert 6 6 9 100 = Except.ok c8 ∧
      runOps c0W [Op.ins 1 1 2 100, Op.ins 2 2 3 100, Op.ins 3 3 4 100,
        Op.read 2 5, Op.ins 4 4 6 100, Op.ins 5 5 7 100, Op.read 4 8,
        Op.ins 6 6 9 100] = Except.ok c8 ∧
      (∃ e1, c7.inTable 1 = some e1) ∧
      c8.inTable 1 = none ∧
      c8.LRU_order = [3, 2, 5, 4, 6] :=
  claim_C8 funW new_c0W

theorem claim_C9_witness :
    c1W.currentTime ≤ 9 ∧ c2W.get 2 9 = Except.ok (some 20, c2W) :=
  ⟨by decide,
   claim_C9 new_c0W (show runOps c0W opsW = Except.ok c1W from rfl)
     (by decide) (show c1W.get 2 9 = Except.ok (some 20, c2W) from rfl)⟩

theorem claim_C10_witness :
    ∃ c2, c5W.insert 3 9 7 100 = Except.ok c2 ∧
      c2.inTable 1 = none ∧
      (∃ eo, c5W.inTable 1 = some eo ∧ (7 : Int) < eo.expireTime) ∧
      c2.size + 1 = c5W.size ∧
      c2.inTable 3 = some ⟨3, 9, c5W.hashFunction 3, 7 + 100⟩ :=
  (@claim_C10 5 (1/2) funW c0W new_c0W ops10W c5W
    (show runOps c0W ops10W = Except.ok c5W from rfl) 3 9 7 100 1 [2, 3, 4, 5]
    (by decide) (by decide)
    (unexpired_of_entries_bound (b := 102) (by decide) (by decide))
    rfl (by decide)).1 ⟨3, 3, 3, 104⟩ rfl (by decide)

end

end TTL
